import Mathlib

/-!
trol, a "Roots of Lisp" interpreter.

A shallow embedding of the C sources `cons_impl.c`, `constants.c`, `utils.c`,
`eval.c` and `parser.c`, followed by theorems about them.

Modelling conventions

* A `sexp` in C is a pointer to an immutable tagged cell.  Cells are never
  mutated, so a non-null `sexp` is modelled by the tree it points to.  The
  null pointer, which only `parse` returns, is `none` of an `Option`.
* An atom holds a C string: the characters before its terminating NUL.
* `car` and `cdr` of an atom reinterpret the bytes of the string as a cell,
  which is undefined behaviour; the model reports it as `Fault.undefined`.
* `eval` and `parse` need not terminate; they take a fuel argument that
  bounds the depth of nested calls and report `Fault.fuel` / `none` when
  it is used up.
* A text buffer is the list of its characters; reading at or past the end of
  the list reads the terminating NUL.
-/

namespace Trol

/-! ## cons_impl.h / cons_impl.c -/

/-- Symbolic expression: an atom (C string) or a cons pair. -/
inductive sexp where
  | ATOM (v : List Char) : sexp
  | CONS (l r : sexp) : sexp
  deriving DecidableEq, Repr

open sexp

/-- Ways a call can fail to return a value. -/
inductive Fault where
  | undefined : Fault
  | fuel : Fault
  deriving DecidableEq, Repr

/-- Outcome of a call that may fail. -/
inductive Res (α : Type) where
  | ok (v : α) : Res α
  | fail (f : Fault) : Res α
  deriving DecidableEq, Repr

/-- Sequencing of calls: the first failure is the outcome. -/
def Res.bind {α β : Type} : Res α → (α → Res β) → Res β
  | Res.ok v, f => f v
  | Res.fail e, _ => Res.fail e

instance : Monad Res where
  pure := Res.ok
  bind := Res.bind

/-- The NUL character that terminates a C string. -/
def NUL : Char := Char.ofNat 0

/-- The apostrophe character. -/
def APOS : Char := Char.ofNat 39

/-- Constant atom t. -/
def ATOM_T : sexp := ATOM "t".toList
/-- Constant atom nil. -/
def ATOM_NIL : sexp := ATOM "nil".toList
/-- Constant atom quote. -/
def ATOM_QUOTE : sexp := ATOM "quote".toList
/-- Constant atom for the dot token. -/
def ATOM_DOT : sexp := ATOM ".".toList
/-- Constant atom atom. -/
def ATOM_ATOM : sexp := ATOM "atom".toList
/-- Constant atom eq. -/
def ATOM_EQ : sexp := ATOM "eq".toList
/-- Constant atom car. -/
def ATOM_CAR : sexp := ATOM "car".toList
/-- Constant atom cdr. -/
def ATOM_CDR : sexp := ATOM "cdr".toList
/-- Constant atom cons. -/
def ATOM_CONS : sexp := ATOM "cons".toList
/-- Constant atom cond. -/
def ATOM_COND : sexp := ATOM "cond".toList
/-- Constant atom lambda. -/
def ATOM_LAMBDA : sexp := ATOM "lambda".toList
/-- Constant atom label. -/
def ATOM_LABEL : sexp := ATOM "label".toList

/-- In C: `expr && expr->t == ATOM && !strcmp(expr->v, "t")`. -/
def c_bool : sexp → Bool
  | ATOM v => v == "t".toList
  | CONS _ _ => false

/-- In C: `(expr && expr->t == ATOM) ? ATOM_T() : ATOM_NIL()`. -/
def atom : sexp → sexp
  | ATOM _ => ATOM_T
  | CONS _ _ => ATOM_NIL

/-- In C: both are atoms and are the same pointer or `strcmp` equal. -/
def eq (expr_a expr_b : sexp) : sexp :=
  match expr_a, expr_b with
  | ATOM a, ATOM b => if a == b then ATOM_T else ATOM_NIL
  | _, _ => ATOM_NIL

/-- First part of a pair; undefined on an atom. -/
def car : sexp → Res sexp
  | CONS l _ => Res.ok l
  | ATOM _ => Res.fail Fault.undefined

/-- Second part of a pair; undefined on an atom. -/
def cdr : sexp → Res sexp
  | CONS _ r => Res.ok r
  | ATOM _ => Res.fail Fault.undefined

/-- In C: `strncpy` of at most `len` characters of `str`, which stops at a
NUL, followed by a terminator. -/
def symbol (str : List Char) (len : Nat) : sexp :=
  ATOM ((str.take len).takeWhile (fun c => c != NUL))

/-- Constructor of a pair. -/
def cons (expr_a expr_b : sexp) : sexp := CONS expr_a expr_b

/-! ## utils.c -/

/-- In C: `eq(expr, ATOM_NIL())`. -/
def null (expr : sexp) : sexp := eq expr ATOM_NIL

/-- Concatenation of two lists. -/
def append : sexp → sexp → Res sexp
  | ATOM v, list_b =>
    if c_bool (null (ATOM v)) then Res.ok list_b
    else Res.fail Fault.undefined -- car of an atom
  | CONS l r, list_b =>
    (append r list_b).bind fun t => Res.ok (cons l t)

/-- Structural comparison of two expressions. -/
def equal : sexp → sexp → sexp
  | ATOM a, ATOM b => eq (ATOM a) (ATOM b)
  | ATOM _, CONS _ _ => ATOM_NIL
  | CONS _ _, ATOM _ => ATOM_NIL
  | CONS la ra, CONS lb rb =>
    if c_bool (equal la lb) && c_bool (equal ra rb) then ATOM_T else ATOM_NIL

/-- Dictionary from a list of keys and a list of values.  Two pairs take
the second branch of the C function; every other combination returns nil,
from the first branch (both nil) or from the last line. -/
def pair : sexp → sexp → sexp
  | CONS la ra, CONS lb rb => cons (cons la lb) (pair ra rb)
  | _, _ => ATOM_NIL

/-- Look up `key` in `map`. -/
def assoc (key : sexp) : sexp → Res sexp
  | ATOM v =>
    if c_bool (eq (ATOM v) ATOM_NIL) then Res.ok key
    else Res.fail Fault.undefined -- car of an atom
  | CONS l r =>
    (car l).bind fun k =>
      if c_bool (eq k key) then cdr l else assoc key r

/-! ## eval.c -/

mutual
/-- Values of the arguments of a function call.  C leaves the order of the
two argument evaluations of `cons(eval(...), eval_list(...))` open; the
model evaluates the head first. -/
def eval_list : Nat → sexp → sexp → Res sexp
  | 0, _, _ => Res.fail Fault.fuel
  | n + 1, m, env =>
    if c_bool (null m) then Res.ok ATOM_NIL
    else
      (car m).bind fun a =>
      (eval n a env).bind fun v =>
      (cdr m).bind fun d =>
      (eval_list n d env).bind fun vs =>
      Res.ok (cons v vs)

/-- Short-circuit evaluation of the clauses of a cond. -/
def eval_cond : Nat → sexp → sexp → Res sexp
  | 0, _, _ => Res.fail Fault.fuel
  | n + 1, e, env =>
    if c_bool (null e) then Res.ok ATOM_NIL
    else
      (car e).bind fun c =>
      (car c).bind fun p =>
      (eval n p env).bind fun pv =>
      if c_bool (eq ATOM_T pv) then
        (cdr c).bind fun cd =>
        (car cd).bind fun x =>
        eval n x env
      else
        (cdr e).bind fun d => eval_cond n d env

/-- The interpreter.  Where C leaves the order of evaluation of the
arguments of a call open, the model takes them from left to right. -/
def eval : Nat → sexp → sexp → Res sexp
  | 0, _, _ => Res.fail Fault.fuel
  | n + 1, expr, env =>
    if c_bool (atom expr) then assoc expr env
    else
      (car expr).bind fun op =>
      if c_bool (atom op) then
        if c_bool (eq op ATOM_QUOTE) then
          (cdr expr).bind fun d => car d
        else if c_bool (eq op ATOM_ATOM) then
          (cdr expr).bind fun d =>
          (car d).bind fun a =>
          (eval n a env).bind fun v => Res.ok (atom v)
        else if c_bool (eq op ATOM_EQ) then
          (cdr expr).bind fun d =>
          (car d).bind fun a =>
          (eval n a env).bind fun va =>
          (cdr d).bind fun dd =>
          (car dd).bind fun b =>
          (eval n b env).bind fun vb => Res.ok (eq va vb)
        else if c_bool (eq op ATOM_CAR) then
          (cdr expr).bind fun d =>
          (car d).bind fun a =>
          (eval n a env).bind fun v => car v
        else if c_bool (eq op ATOM_CDR) then
          (cdr expr).bind fun d =>
          (car d).bind fun a =>
          (eval n a env).bind fun v => cdr v
        else if c_bool (eq op ATOM_CONS) then
          (cdr expr).bind fun d =>
          (car d).bind fun a =>
          (eval n a env).bind fun va =>
          (cdr d).bind fun dd =>
          (car dd).bind fun b =>
          (eval n b env).bind fun vb => Res.ok (cons va vb)
        else if c_bool (eq op ATOM_COND) then
          (cdr expr).bind fun d => eval_cond n d env
        else
          (assoc op env).bind fun f =>
          (cdr expr).bind fun d =>
          eval n (cons f d) env
      else
        (car op).bind fun h =>
        if c_bool (eq h ATOM_LABEL) then
          (cdr op).bind fun d1 =>
          (car d1).bind fun name =>
          (cdr d1).bind fun d2 =>
          (car d2).bind fun body =>
          (cdr expr).bind fun args =>
          eval n (cons body args) (cons (cons name body) env)
        else if c_bool (eq h ATOM_LAMBDA) then
          (cdr op).bind fun d1 =>
          (cdr d1).bind fun d2 =>
          (car d2).bind fun body =>
          (car d1).bind fun params =>
          (cdr expr).bind fun args =>
          (eval_list n args env).bind fun vals =>
          (append (pair params vals) env).bind fun env2 =>
          eval n body env2
        else Res.ok ATOM_NIL
end

/-! ## parser.c: printing

The caller's memory is a list of characters; a pointer into it is an offset.
-/

/-- Overwrite `mem` from offset `off` on with `data`. -/
def store (mem : List Char) (off : Nat) (data : List Char) : List Char :=
  mem.take off ++ data ++ mem.drop (off + data.length)

/-- In C: `snprintf(str, len, "%s", s)`: at most `len - 1` characters of `s`
and a NUL are written at `str` when `len` is positive; the length of `s` is
returned. -/
def snprintf (mem : List Char) (str len : Nat) (s : List Char) : Nat × List Char :=
  if len = 0 then (s.length, mem)
  else (s.length, store mem str (s.take (len - 1) ++ [NUL]))

/-- Print an expression in dot notation.  Returns the C return value and
the memory after the call.  The counter `r` and the return value are natural
numbers; the lengths of the texts considered are far below the range of `int`. -/
def print_dot_notation (mem : List Char) (str len : Nat) : sexp → Nat × List Char
  | ATOM v => snprintf mem str len v
  | CONS l r =>
    let r0 := 0
    if r0 ≥ len then (r0, mem) else
    let w1 := snprintf mem (str + r0) (len - r0) "(".toList
    let r1 := r0 + w1.1
    if r1 ≥ len then (r1, w1.2) else
    let w2 := print_dot_notation w1.2 (str + r1) (len - r1) l
    let r2 := r1 + w2.1
    if r2 ≥ len then (r2, w2.2) else
    let w3 := snprintf w2.2 (str + r2) (len - r2) " . ".toList
    let r3 := r2 + w3.1
    if r3 ≥ len then (r3, w3.2) else
    let w4 := print_dot_notation w3.2 (str + r3) (len - r3) r
    let r4 := r3 + w4.1
    if r4 ≥ len then (r4, w4.2) else
    let w5 := snprintf w4.2 (str + r4) (len - r4) ")".toList
    (r4 + w5.1, w5.2)

/-- The atom branch of `print_list_notation`. -/
def print_list_notation_atom (mem : List Char) (str len : Nat) (v : List Char) :
    Nat × List Char :=
  let r0 := 0
  if r0 ≥ len then (r0, mem) else
  let w1 := snprintf mem (str + r0) (len - r0) v
  (r0 + w1.1, w1.2)

/-- In C: `!eq(QUOTE, car(expr)) || (eq(QUOTE, car(expr)) && atom(cdr(expr)))`,
the test that selects the parenthesised form. -/
def parens (l r : sexp) : Bool :=
  !c_bool (eq ATOM_QUOTE l) || (c_bool (eq ATOM_QUOTE l) && c_bool (atom r))

mutual
/-- Print the tail of a list.  For an atom other than nil the C code calls
`print_list_notation` on that atom, which takes its atom branch. -/
def print_list_notation_rest (mem : List Char) (str len : Nat) : sexp → Nat × List Char
  | ATOM v =>
    let r0 := 0
    if !c_bool (eq (ATOM v) ATOM_NIL) then
      if r0 ≥ len then (r0, mem) else
      let w1 := snprintf mem (str + r0) (len - r0) " . ".toList
      let r1 := r0 + w1.1
      if r1 ≥ len then (r1, w1.2) else
      let w2 := print_list_notation_atom w1.2 (str + r1) (len - r1) v
      (r1 + w2.1, w2.2)
    else (r0, mem)
  | CONS l r =>
    let r0 := 0
    if r0 ≥ len then (r0, mem) else
    let w1 := snprintf mem (str + r0) (len - r0) " ".toList
    let r1 := r0 + w1.1
    if r1 ≥ len then (r1, w1.2) else
    let w2 := print_list_notation w1.2 (str + r1) (len - r1) l
    let r2 := r1 + w2.1
    if r2 ≥ len then (r2, w2.2) else
    let w3 := print_list_notation_rest w2.2 (str + r2) (len - r2) r
    (r2 + w3.1, w3.2)

/-- Print an expression in list notation.  The C code tests `parens` four
times, around the four parts of the output; the model tests it once.  When
the rest is an atom the test holds whatever the first component is. -/
def print_list_notation (mem : List Char) (str len : Nat) : sexp → Nat × List Char
  | ATOM v => print_list_notation_atom mem str len v
  | CONS l (ATOM a) =>
    -- car is not quote, or cdr is an atom: all four tests of the C code hold
    let r0 := 0
    if r0 ≥ len then (r0, mem) else
    let w1 := snprintf mem (str + r0) (len - r0) "(".toList
    let r1 := r0 + w1.1
    if r1 ≥ len then (r1, w1.2) else
    let w2 := print_list_notation w1.2 (str + r1) (len - r1) l
    let r2 := r1 + w2.1
    if r2 ≥ len then (r2, w2.2) else
    let w3 := print_list_notation_rest w2.2 (str + r2) (len - r2) (ATOM a)
    let r3 := r2 + w3.1
    if r3 ≥ len then (r3, w3.2) else
    let w4 := snprintf w3.2 (str + r3) (len - r3) ")".toList
    (r3 + w4.1, w4.2)
  | CONS l (CONS ql qr) =>
    if parens l (CONS ql qr) then
      let r0 := 0
      if r0 ≥ len then (r0, mem) else
      let w1 := snprintf mem (str + r0) (len - r0) "(".toList
      let r1 := r0 + w1.1
      if r1 ≥ len then (r1, w1.2) else
      let w2 := print_list_notation w1.2 (str + r1) (len - r1) l
      let r2 := r1 + w2.1
      if r2 ≥ len then (r2, w2.2) else
      let w3 := print_list_notation_rest w2.2 (str + r2) (len - r2) (CONS ql qr)
      let r3 := r2 + w3.1
      if r3 ≥ len then (r3, w3.2) else
      let w4 := snprintf w3.2 (str + r3) (len - r3) ")".toList
      (r3 + w4.1, w4.2)
    else
      let r0 := 0
      if r0 ≥ len then (r0, mem) else
      let w1 := snprintf mem (str + r0) (len - r0) [APOS]
      let r1 := r0 + w1.1
      if r1 ≥ len then (r1, w1.2) else
      let w2 := print_list_notation w1.2 (str + r1) (len - r1) ql
      let r2 := r1 + w2.1
      if r2 ≥ len then (r2, w2.2) else
      let w3 := print_list_notation_rest w2.2 (str + r2) (len - r2) qr
      (r2 + w3.1, w3.2)
end

/-! ## parser.c: the calls of snprintf

The same functions once more, with the same guards and the same counter `r`,
returning the list of the calls `snprintf(str + r, len - r, ...)` they issue,
own calls and those of the nested calls, in order.
-/

/-- One call `snprintf(dst, size, "%s", text)`: the destination as an
offset into the caller's memory, the size argument as the integer `len - r`
that C converts to `size_t` (a value that is not positive stands for a
difference that wraps around), and the string. -/
structure Write where
  dst : Nat
  size : Int
  text : List Char
  deriving DecidableEq, Repr

/-- The memory after the calls of `snprintf` of the list, performed in
order; a size that is not positive writes nothing. -/
def perform (mem : List Char) (ks : List Write) : List Char :=
  ks.foldl (fun m w => (snprintf m w.dst w.size.toNat w.text).2) mem

/-- The calls of `snprintf` issued by `print_dot_notation`. -/
def print_dot_notation_writes (mem : List Char) (str len : Nat) : sexp → List Write
  | ATOM v => [⟨str, (len : Int), v⟩]
  | CONS l r =>
    let r0 := 0
    if r0 ≥ len then [] else
    let w1 := snprintf mem (str + r0) (len - r0) "(".toList
    let k1 : List Write := [⟨str + r0, (len : Int) - (r0 : Int), "(".toList⟩]
    let r1 := r0 + w1.1
    if r1 ≥ len then k1 else
    let w2 := print_dot_notation w1.2 (str + r1) (len - r1) l
    let k2 := k1 ++ print_dot_notation_writes w1.2 (str + r1) (len - r1) l
    let r2 := r1 + w2.1
    if r2 ≥ len then k2 else
    let w3 := snprintf w2.2 (str + r2) (len - r2) " . ".toList
    let k3 := k2 ++ [⟨str + r2, (len : Int) - (r2 : Int), " . ".toList⟩]
    let r3 := r2 + w3.1
    if r3 ≥ len then k3 else
    let w4 := print_dot_notation w3.2 (str + r3) (len - r3) r
    let k4 := k3 ++ print_dot_notation_writes w3.2 (str + r3) (len - r3) r
    let r4 := r3 + w4.1
    if r4 ≥ len then k4 else
    k4 ++ [⟨str + r4, (len : Int) - (r4 : Int), ")".toList⟩]

/-- The calls of `snprintf` issued by the atom branch of
`print_list_notation`. -/
def print_list_notation_atom_writes (str len : Nat) (v : List Char) : List Write :=
  let r0 := 0
  if r0 ≥ len then [] else
  [⟨str + r0, (len : Int) - (r0 : Int), v⟩]

mutual
/-- The calls of `snprintf` issued by `print_list_notation_rest`. -/
def print_list_notation_rest_writes (mem : List Char) (str len : Nat) : sexp → List Write
  | ATOM v =>
    let r0 := 0
    if !c_bool (eq (ATOM v) ATOM_NIL) then
      if r0 ≥ len then [] else
      let w1 := snprintf mem (str + r0) (len - r0) " . ".toList
      let k1 : List Write := [⟨str + r0, (len : Int) - (r0 : Int), " . ".toList⟩]
      let r1 := r0 + w1.1
      if r1 ≥ len then k1 else
      k1 ++ print_list_notation_atom_writes (str + r1) (len - r1) v
    else []
  | CONS l r =>
    let r0 := 0
    if r0 ≥ len then [] else
    let w1 := snprintf mem (str + r0) (len - r0) " ".toList
    let k1 : List Write := [⟨str + r0, (len : Int) - (r0 : Int), " ".toList⟩]
    let r1 := r0 + w1.1
    if r1 ≥ len then k1 else
    let w2 := print_list_notation w1.2 (str + r1) (len - r1) l
    let k2 := k1 ++ print_list_notation_writes w1.2 (str + r1) (len - r1) l
    let r2 := r1 + w2.1
    if r2 ≥ len then k2 else
    k2 ++ print_list_notation_rest_writes w2.2 (str + r2) (len - r2) r

/-- The calls of `snprintf` issued by `print_list_notation`. -/
def print_list_notation_writes (mem : List Char) (str len : Nat) : sexp → List Write
  | ATOM v => print_list_notation_atom_writes str len v
  | CONS l (ATOM a) =>
    let r0 := 0
    if r0 ≥ len then [] else
    let w1 := snprintf mem (str + r0) (len - r0) "(".toList
    let k1 : List Write := [⟨str + r0, (len : Int) - (r0 : Int), "(".toList⟩]
    let r1 := r0 + w1.1
    if r1 ≥ len then k1 else
    let w2 := print_list_notation w1.2 (str + r1) (len - r1) l
    let k2 := k1 ++ print_list_notation_writes w1.2 (str + r1) (len - r1) l
    let r2 := r1 + w2.1
    if r2 ≥ len then k2 else
    let w3 := print_list_notation_rest w2.2 (str + r2) (len - r2) (ATOM a)
    let k3 := k2 ++ print_list_notation_rest_writes w2.2 (str + r2) (len - r2) (ATOM a)
    let r3 := r2 + w3.1
    if r3 ≥ len then k3 else
    k3 ++ [⟨str + r3, (len : Int) - (r3 : Int), ")".toList⟩]
  | CONS l (CONS ql qr) =>
    if parens l (CONS ql qr) then
      let r0 := 0
      if r0 ≥ len then [] else
      let w1 := snprintf mem (str + r0) (len - r0) "(".toList
      let k1 : List Write := [⟨str + r0, (len : Int) - (r0 : Int), "(".toList⟩]
      let r1 := r0 + w1.1
      if r1 ≥ len then k1 else
      let w2 := print_list_notation w1.2 (str + r1) (len - r1) l
      let k2 := k1 ++ print_list_notation_writes w1.2 (str + r1) (len - r1) l
      let r2 := r1 + w2.1
      if r2 ≥ len then k2 else
      let w3 := print_list_notation_rest w2.2 (str + r2) (len - r2) (CONS ql qr)
      let k3 := k2 ++ print_list_notation_rest_writes w2.2 (str + r2) (len - r2) (CONS ql qr)
      let r3 := r2 + w3.1
      if r3 ≥ len then k3 else
      k3 ++ [⟨str + r3, (len : Int) - (r3 : Int), ")".toList⟩]
    else
      let r0 := 0
      if r0 ≥ len then [] else
      let w1 := snprintf mem (str + r0) (len - r0) [APOS]
      let k1 : List Write := [⟨str + r0, (len : Int) - (r0 : Int), [APOS]⟩]
      let r1 := r0 + w1.1
      if r1 ≥ len then k1 else
      let w2 := print_list_notation w1.2 (str + r1) (len - r1) ql
      let k2 := k1 ++ print_list_notation_writes w1.2 (str + r1) (len - r1) ql
      let r2 := r1 + w2.1
      if r2 ≥ len then k2 else
      k2 ++ print_list_notation_rest_writes w2.2 (str + r2) (len - r2) qr
end

/-! ## parser.c: reading

The cursor `*p` is the part of the text that is still to be read.
-/

/-- In C: `**p`, the character under the cursor. -/
def peek (p : List Char) : Char := p.headD NUL

/-- Whitespace test of `parse_ws`. -/
def is_ws (c : Char) : Bool :=
  c == ' ' || c == '\t' || c == '\r' || c == '\n'

/-- Test for characters that end a symbol in `parse_atom`. -/
def is_delim (c : Char) : Bool :=
  is_ws c || c == '(' || c == ')' || c == NUL

/-- Eat whitespace. -/
def parse_ws : List Char → List Char
  | [] => []
  | c :: cs => if is_ws c then parse_ws cs else c :: cs

/-- The loop of `parse_atom`: skip valid symbol characters. -/
def skip_symbol : List Char → List Char
  | [] => []
  | c :: cs => if is_delim c then c :: cs else skip_symbol cs

/-- Extract a symbol from the buffer.  The pointer difference `(*p) - s` is
the difference of the lengths of the unread parts. -/
def parse_atom (p : List Char) : Option sexp × List Char :=
  let s := p
  let p1 := skip_symbol p
  if s.length - p1.length = 0 then (none, p1)
  else (some (symbol s (s.length - p1.length)), p1)

/-- The final `if (**p == ')') { ++(*p); } return r;` of `parse_list` and
`parse_cons`. -/
def close_paren (r : sexp) (p : List Char) : Option (Option sexp × List Char) :=
  if peek p = ')' then some (some r, p.tail) else some (some r, p)

mutual
/-- Convert a character buffer into an expression.  Returns the expression
and the cursor after the call.  The outer `none` is lack of fuel; the inner
one is the null pointer. -/
def parse : Nat → List Char → Option (Option sexp × List Char)
  | 0, _ => none
  | n + 1, iter_ref =>
    let p := parse_ws iter_ref
    if peek p = NUL then some (none, p)
    else if peek p = APOS then parse_quote n p
    else if peek p = '(' then parse_list n p
    else some (parse_atom p)

/-- Parse the quote shorthand. -/
def parse_quote : Nat → List Char → Option (Option sexp × List Char)
  | 0, _ => none
  | n + 1, p =>
    match parse n p.tail with
    | none => none
    | some (none, q) => some (none, q)
    | some (some e, q) => some (some (cons ATOM_QUOTE (cons e ATOM_NIL)), q)

/-- Parse a dot pair. -/
def parse_cons : Nat → List Char → Option (Option sexp × List Char)
  | 0, _ => none
  | n + 1, p =>
    match parse n p.tail with
    | none => none
    | some (none, q) => some (none, q)
    | some (some a, q) =>
      match parse n q with
      | none => none
      | some (_, q1) =>
        match parse n q1 with
        | none => none
        | some (none, q2) => some (none, q2)
        | some (some t, q2) => close_paren (cons a t) (parse_ws q2)

/-- Parse part of a list notation list.  The C test `*p == NUL` compares
the cursor pointer itself, which is never null, so only the test for a
closing parenthesis remains. -/
def parse_list_elem : Nat → List Char → Option (Option sexp × List Char)
  | 0, _ => none
  | n + 1, p =>
    match parse n p with
    | none => none
    | some (none, q) => some (none, q)
    | some (some t, q) =>
      if c_bool (eq ATOM_DOT t) then some (some t, q)
      else
        let q1 := parse_ws q
        if peek q1 = ')' then some (some (cons t ATOM_NIL), q1)
        else
          match parse_list_elem n q1 with
          | none => none
          | some (none, q2) => some (none, q2)
          | some (some r, q2) =>
            if c_bool (eq ATOM_DOT r) then some (some r, q2)
            else some (some (cons t r), q2)

/-- Parse a list notation list or dotted pair.  As in `parse_list_elem`, the
C test `*p != NUL` is always true. -/
def parse_list : Nat → List Char → Option (Option sexp × List Char)
  | 0, _ => none
  | n + 1, p =>
    let bookmark := p
    let p1 := parse_ws p.tail
    if peek p1 ≠ ')' then
      match parse_list_elem n p1 with
      | none => none
      | some (none, q) => some (none, q)
      | some (some r, q) =>
        let q1 := parse_ws q
        if c_bool (eq ATOM_DOT r) then parse_cons n bookmark
        else close_paren r q1
    else close_paren ATOM_NIL p1
end

/-! ## Vocabulary of the statements -/

/-- Every value of the first outcome is also the value of the second. -/
def Res.le {α : Type} (a b : Res α) : Prop := ∀ v, a = Res.ok v → b = Res.ok v

/-- The proper list `(x1 ... xn)`: a chain of pairs that ends in nil. -/
def list_of : List sexp → sexp
  | [] => ATOM_NIL
  | x :: xs => CONS x (list_of xs)

/-- The entries `(k . v)` of `kvs` put in front of `env`. -/
def bind_all (kvs : List (sexp × sexp)) (env : sexp) : sexp :=
  kvs.foldr (fun kv e => CONS (CONS kv.1 kv.2) e) env

/-- Big-step evaluation: some call depth suffices for `eval` to return `v`. -/
def Evals (expr env v : sexp) : Prop := ∃ n, eval n expr env = Res.ok v

/-- The names that `eval` treats as special operators in an atom-headed form. -/
def special_names : List (List Char) :=
  ["quote".toList, "atom".toList, "eq".toList, "car".toList, "cdr".toList,
   "cons".toList, "cond".toList]

/-- The cond form `(cond (p1 e1) ... (pn en))` of a list of clauses. -/
def cond_form (clauses : List (sexp × sexp)) : sexp :=
  CONS ATOM_COND (list_of (clauses.map fun c => list_of [c.1, c.2]))

/-- The application `((lambda params body) a1 ... an)`. -/
def lambda_app (params body : sexp) (args : List sexp) : sexp :=
  CONS (list_of [ATOM_LAMBDA, params, body]) (list_of args)

/-- Dot-notation rendering: an atom is its characters, a pair is
`(first . rest)`. -/
def dot_text : sexp → List Char
  | ATOM v => v
  | CONS l r => "(".toList ++ dot_text l ++ " . ".toList ++ dot_text r ++ ")".toList

mutual
/-- Rendering of the tail of a list in list notation. -/
def rest_text : sexp → List Char
  | ATOM v => if c_bool (eq (ATOM v) ATOM_NIL) then [] else " . ".toList ++ v
  | CONS l r => " ".toList ++ list_text l ++ rest_text r

/-- List-notation rendering, as `print_list_notation` produces it. -/
def list_text : sexp → List Char
  | ATOM v => v
  | CONS l (ATOM a) => "(".toList ++ list_text l ++ rest_text (ATOM a) ++ ")".toList
  | CONS l (CONS ql qr) =>
    if parens l (CONS ql qr) then
      "(".toList ++ list_text l ++ rest_text (CONS ql qr) ++ ")".toList
    else [APOS] ++ list_text ql ++ rest_text qr
end

/-- Well-formed atom: not empty, no whitespace, parenthesis, apostrophe or
NUL in it, and not the dot token. -/
def wf_atom (a : List Char) : Bool :=
  !a.isEmpty && a.all (fun c => !is_delim c && c != APOS) && a != ".".toList

/-- All atoms of the expression are well-formed. -/
def wf : sexp → Bool
  | ATOM v => wf_atom v
  | CONS l r => wf l && wf r

mutual
/-- The tail of a list that the reader can read back: a proper list of
readable elements. -/
def tail_readable : sexp → Bool
  | ATOM v => c_bool (eq (ATOM v) ATOM_NIL)
  | CONS l r => readable l && tail_readable r

/-- Expressions whose list-notation text the reader reads back: atoms are
well-formed; a pair whose first is quote and whose rest is a pair is
`(quote X)` with `X` readable; any other pair has a readable first and a rest
that is an atom or a proper list of readable elements. -/
def readable : sexp → Bool
  | ATOM v => wf_atom v
  | CONS l (ATOM a) => readable l && wf_atom a
  | CONS l (CONS ql qr) =>
    if parens l (CONS ql qr) then readable l && (readable ql && tail_readable qr)
    else readable ql && c_bool (eq qr ATOM_NIL)
end

/-- The unread text starts with a character that ends a symbol (the end of
the text counts as NUL). -/
def at_delim (p : List Char) : Bool := is_delim (peek p)

/-- A printing action: memory, pointer and capacity to return value and
memory. -/
abbrev Printer := List Char → Nat → Nat → Nat × List Char

/-- The control skeleton shared by the printing functions: before each
action `if (r >= len) return r;`, then `r += action(str + r, len - r)`. -/
def chain : List Printer → Nat → Printer
  | [], r, mem, _, _ => (r, mem)
  | f :: fs, r, mem, str, len =>
    if r ≥ len then (r, mem)
    else chain fs (r + (f mem (str + r) (len - r)).1) (f mem (str + r) (len - r)).2 str len

/-- The action writes the text `t` and a NUL at `str` whenever the
capacity exceeds the length of `t`, and returns that length. -/
def Fits (f : Printer) (t : List Char) : Prop :=
  ∀ mem str len, str ≤ mem.length → t.length < len →
    f mem str len = (t.length, store mem str (t ++ [NUL]))

/-- The action continues a text: called at the terminator of a text `pre`
written at `base`, it leaves `pre` followed by `t` and a NUL, and returns the
length of `t`. -/
def FitsAfter (f : Printer) (t : List Char) : Prop :=
  ∀ m0 base pre len, base ≤ m0.length → t.length < len →
    f (store m0 base (pre ++ [NUL])) (base + pre.length) len =
      (t.length, store m0 base (pre ++ t ++ [NUL]))

/-- The text is a run of whitespace characters (possibly empty). -/
def all_ws (w : List Char) : Bool := w.all is_ws

/-- The reader reads a complete expression: with some fuel, `parse` on the
text `p` returns the expression `x` and leaves `q` unread. -/
def Reads (p : List Char) (x : sexp) (q : List Char) : Prop :=
  ∃ n, parse n p = some (some x, q)

/-- The rest of a list in which the reader meets the dot token: from `p` on
the reader reads complete expressions other than the dot token, and then the
dot token. -/
inductive DotBody : List Char → Prop where
  | dot (p q : List Char) : Reads p ATOM_DOT q → DotBody p
  | elem (p q : List Char) (x : sexp) : Reads p x q → c_bool (eq ATOM_DOT x) = false →
      DotBody q → DotBody p

/-- Texts on which the reader reaches the end of the text inside a form.
`Unclosed false t`: the text `t` is the rest of an unclosed list, that is
whitespace up to the end of the text (`stop`), or an item that the reader
reads as a complete expression other than the dot token, followed by such a
rest (`elem`), or whitespace and an unclosed form (`nested`).
`Unclosed true s`: the text `s` is an unclosed form, that is an opening
parenthesis followed by the rest of an unclosed list (`paren`); an apostrophe
followed by whitespace up to the end of the text (`quote_end`) or by
whitespace and an unclosed form (`quoted`); or an opening parenthesis
followed by a list in which the reader meets the dot token, where the reader
reads a first item from the start of the list and makes a second read, and
what is left for the third read is whitespace up to the end of the text
(`dot_end`) or whitespace and an unclosed form (`dot_nested`). -/
inductive Unclosed : Bool → List Char → Prop where
  | stop (w : List Char) : all_ws w = true → Unclosed false w
  | elem (p q : List Char) (x : sexp) : Reads p x q → c_bool (eq ATOM_DOT x) = false →
      Unclosed false q → Unclosed false p
  | nested (w u : List Char) : all_ws w = true → Unclosed true u → Unclosed false (w ++ u)
  | paren (t : List Char) : Unclosed false t → Unclosed true ('(' :: t)
  | quote_end (w : List Char) : all_ws w = true → Unclosed true (APOS :: w)
  | quoted (w u : List Char) : all_ws w = true → Unclosed true u →
      Unclosed true (APOS :: (w ++ u))
  | dot_end (t q1 q2 : List Char) (x1 : sexp) (r2 : Option sexp) : DotBody t →
      Reads t x1 q1 → (∃ n, parse n q1 = some (r2, q2)) → all_ws q2 = true →
      Unclosed true ('(' :: t)
  | dot_nested (t q1 w u : List Char) (x1 : sexp) (r2 : Option sexp) : DotBody t →
      Reads t x1 q1 → (∃ n, parse n q1 = some (r2, w ++ u)) → all_ws w = true →
      Unclosed true u → Unclosed true ('(' :: t)

/-- The expression of the repository's dot-notation printer test,
`(eq (quote a) (quote b))`. -/
def test_dot_expr : sexp :=
  list_of [ATOM_EQ, list_of [ATOM_QUOTE, ATOM "a".toList], list_of [ATOM_QUOTE, ATOM "b".toList]]

/-- The expression of the repository's list-notation printer test, the cond
form with the clauses `((eq (quote x) (quote z)) (quote first))` and
`((atom (quote a)) (quote second))`. -/
def test_cond_expr : sexp :=
  cond_form
    [(list_of [ATOM_EQ, list_of [ATOM_QUOTE, ATOM "x".toList],
        list_of [ATOM_QUOTE, ATOM "z".toList]], list_of [ATOM_QUOTE, ATOM "first".toList]),
     (list_of [ATOM_ATOM, list_of [ATOM_QUOTE, ATOM "a".toList]],
        list_of [ATOM_QUOTE, ATOM "second".toList])]

mutual
/-- The rendering `R` of the rest of a pair, in the words of the
specification: empty for nil, a space and `L` of the first and `R` of the
rest for a pair, and ` . ` and the atom for any other atom. -/
def R_text : sexp → List Char
  | ATOM v => if ATOM v = ATOM_NIL then [] else " . ".toList ++ v
  | CONS l r => " ".toList ++ L_text l ++ R_text r

/-- The rendering `L` in the words of the specification: an atom is its
characters, a pair is `(` then `L` of the first, `R` of the rest, and `)`. -/
def L_text : sexp → List Char
  | ATOM v => v
  | CONS l r => "(".toList ++ L_text l ++ R_text r ++ ")".toList
end

/-- No pair of the expression has the atom quote as its first component. -/
def no_quote_first : sexp → Bool
  | ATOM _ => true
  | CONS l r => (l != ATOM_QUOTE) && no_quote_first l && no_quote_first r

/-- The expression contains an atom whose text is the single character `.`. -/
def has_dot : sexp → Bool
  | ATOM v => v == ".".toList
  | CONS l r => has_dot l || has_dot r

/-- The action renders the text `t` under every positive capacity: it
leaves the first `len - 1` characters of `t` (all of `t` if it is shorter)
and a NUL at `str`, returns the length of `t` when `t` fits, and a number not
below the capacity when it does not. -/
def Prints (f : Printer) (t : List Char) : Prop :=
  ∀ mem str len, str ≤ mem.length → 0 < len →
    (f mem str len).2 = store mem str (t.take (len - 1) ++ [NUL]) ∧
    (t.length < len → (f mem str len).1 = t.length) ∧
    (len ≤ t.length → len ≤ (f mem str len).1)

/-- The action continues a text under every positive capacity: called at
the terminator of a text `pre` written at `base`, it leaves `pre` followed by
the first `len - 1` characters of `t` and a NUL, with the return value as in
`Prints`. -/
def PrintsAfter (f : Printer) (t : List Char) : Prop :=
  ∀ m0 base pre len, base ≤ m0.length → 0 < len →
    (f (store m0 base (pre ++ [NUL])) (base + pre.length) len).2 =
      store m0 base (pre ++ t.take (len - 1) ++ [NUL]) ∧
    (t.length < len →
      (f (store m0 base (pre ++ [NUL])) (base + pre.length) len).1 = t.length) ∧
    (len ≤ t.length → len ≤ (f (store m0 base (pre ++ [NUL])) (base + pre.length) len).1)

/-- The body of the lambda expression of `subst`:
`(cond ((atom z) (cond ((eq z y) x) ((quote t) z)))
       ((quote t) (cons (subst x y (car z)) (subst x y (cdr z)))))`. -/
def subst_body : sexp :=
  cond_form
    [(list_of [ATOM_ATOM, ATOM "z".toList],
      cond_form
        [(list_of [ATOM_EQ, ATOM "z".toList, ATOM "y".toList], ATOM "x".toList),
         (list_of [ATOM_QUOTE, ATOM_T], ATOM "z".toList)]),
     (list_of [ATOM_QUOTE, ATOM_T],
      list_of [ATOM_CONS,
        list_of [ATOM "subst".toList, ATOM "x".toList, ATOM "y".toList,
          list_of [ATOM_CAR, ATOM "z".toList]],
        list_of [ATOM "subst".toList, ATOM "x".toList, ATOM "y".toList,
          list_of [ATOM_CDR, ATOM "z".toList]]])]

/-- The lambda expression `(lambda (x y z) body)` of `subst`. -/
def subst_lambda : sexp :=
  list_of [ATOM_LAMBDA, list_of [ATOM "x".toList, ATOM "y".toList, ATOM "z".toList], subst_body]

/-- The expression `S = (label subst (lambda (x y z) body))`. -/
def subst_label : sexp := list_of [ATOM_LABEL, ATOM "subst".toList, subst_lambda]

/-- The application `(S (quote m) (quote b) (quote z))`. -/
def subst_call (m b z : sexp) : sexp :=
  CONS subst_label
    (list_of [list_of [ATOM_QUOTE, m], list_of [ATOM_QUOTE, b], list_of [ATOM_QUOTE, z]])

/-- The tree obtained from `z` by replacing every atom leaf with the
characters `b` by `m`. -/
def subst_result (m : sexp) (b : List Char) : sexp → sexp
  | ATOM a => if a = b then m else ATOM a
  | CONS l r => CONS (subst_result m b l) (subst_result m b r)

/-- The expression
`((lambda (y) ((lambda (f y) (f (quote q))) (quote (lambda (x) y)) (quote W))) (quote U))`:
a lambda expression with the free variable `y` is passed as the value of `f`
and called where `y` is bound to `W`, inside a call that binds `y` to `U`. -/
def scope_expr (U W : sexp) : sexp :=
  lambda_app (list_of [ATOM "y".toList])
    (lambda_app (list_of [ATOM "f".toList, ATOM "y".toList])
      (list_of [ATOM "f".toList, list_of [ATOM_QUOTE, ATOM "q".toList]])
      [list_of [ATOM_QUOTE, list_of [ATOM_LAMBDA, list_of [ATOM "x".toList], ATOM "y".toList]],
       list_of [ATOM_QUOTE, W]])
    [list_of [ATOM_QUOTE, U]]

/-- The chain `(a . (b . (c . d)))` of four atoms. -/
def dotted_chain (a b c d : List Char) : sexp :=
  CONS (ATOM a) (CONS (ATOM b) (CONS (ATOM c) (ATOM d)))

/-- The text `(a b (c . d))` that the documentation of `print_list_notation`
gives for the chain `(a . (b . (c . d)))`. -/
def documented_text (a b c d : List Char) : List Char :=
  "(".toList ++ a ++ " ".toList ++ b ++ " (".toList ++ c ++ " . ".toList ++ d ++ "))".toList

/-- The rest of a list that has exactly one more element. -/
def one_element : sexp → Bool
  | CONS _ r => r == ATOM_NIL
  | ATOM _ => false

mutual
/-- The rest of a nil-terminated list whose elements are proper nested
lists. -/
def proper_tail : sexp → Bool
  | ATOM v => ATOM v == ATOM_NIL
  | CONS l r => proper_nested l && proper_tail r

/-- Proper nested lists: a well-formed atom, or a nil-terminated list of
proper nested lists that has exactly two elements when its first element is
the atom quote.  The lists meant are the value itself and the elements of
lists; the rest of a list, which the printer does not bracket, is not held
to the condition on quote, so that `(c quote d e)` belongs to the class. -/
def proper_nested : sexp → Bool
  | ATOM v => wf_atom v
  | CONS l r => proper_nested l && proper_tail r && (l != ATOM_QUOTE || one_element r)
end

/-- The call starts at an offset `r < len` from `str` and its size is the
remaining capacity `len - r`, so it stays inside the buffer of capacity `len`
at `str`. -/
def Write.within (str len : Nat) (w : Write) : Prop :=
  ∃ r, r < len ∧ w.dst = str + r ∧ w.size = (len : Int) - (r : Int)

/-! ## Fuel -/

theorem Res.le_refl {α : Type} (a : Res α) : a.le a := fun _ h => h

theorem Res.fail_le {α : Type} (f : Fault) (b : Res α) : (Res.fail f).le b := by
  intro v h; cases h

theorem Res.bind_le {α β : Type} {x y : Res α} {f g : α → Res β}
    (h : x.le y) (hf : ∀ a, (f a).le (g a)) : (x.bind f).le (y.bind g) := by
  intro v hv
  cases x with
  | fail e => cases hv
  | ok a =>
    rw [h a rfl]
    exact hf a v hv

theorem Res.ite_le {α : Type} {c : Prop} [Decidable c] {a b a2 b2 : Res α}
    (h1 : a.le a2) (h2 : b.le b2) : (if c then a else b).le (if c then a2 else b2) := by
  by_cases hc : c
  · simpa [hc] using h1
  · simpa [hc] using h2

theorem Res.bind_eq_ok {α β : Type} {x : Res α} {f : α → Res β} {v : β} :
    x.bind f = Res.ok v ↔ ∃ a, x = Res.ok a ∧ f a = Res.ok v := by
  cases x with
  | fail e => simp [Res.bind]
  | ok a => simp [Res.bind]

theorem eval_list_succ (n : Nat) (m env : sexp) :
    eval_list (n + 1) m env =
      if c_bool (null m) then Res.ok ATOM_NIL
      else
        (car m).bind fun a =>
        (eval n a env).bind fun v =>
        (cdr m).bind fun d =>
        (eval_list n d env).bind fun vs =>
        Res.ok (cons v vs) := by
  rw [eval_list]

theorem eval_cond_succ (n : Nat) (e env : sexp) :
    eval_cond (n + 1) e env =
      if c_bool (null e) then Res.ok ATOM_NIL
      else
        (car e).bind fun c =>
        (car c).bind fun p =>
        (eval n p env).bind fun pv =>
        if c_bool (eq ATOM_T pv) then
          (cdr c).bind fun cd =>
          (car cd).bind fun x =>
          eval n x env
        else
          (cdr e).bind fun d => eval_cond n d env := by
  rw [eval_cond]

theorem eval_succ (n : Nat) (expr env : sexp) :
    eval (n + 1) expr env =
    if c_bool (atom expr) then assoc expr env
    else
      (car expr).bind fun op =>
      if c_bool (atom op) then
        if c_bool (eq op ATOM_QUOTE) then
          (cdr expr).bind fun d => car d
        else if c_bool (eq op ATOM_ATOM) then
          (cdr expr).bind fun d =>
          (car d).bind fun a =>
          (eval n a env).bind fun v => Res.ok (atom v)
        else if c_bool (eq op ATOM_EQ) then
          (cdr expr).bind fun d =>
          (car d).bind fun a =>
          (eval n a env).bind fun va =>
          (cdr d).bind fun dd =>
          (car dd).bind fun b =>
          (eval n b env).bind fun vb => Res.ok (eq va vb)
        else if c_bool (eq op ATOM_CAR) then
          (cdr expr).bind fun d =>
          (car d).bind fun a =>
          (eval n a env).bind fun v => car v
        else if c_bool (eq op ATOM_CDR) then
          (cdr expr).bind fun d =>
          (car d).bind fun a =>
          (eval n a env).bind fun v => cdr v
        else if c_bool (eq op ATOM_CONS) then
          (cdr expr).bind fun d =>
          (car d).bind fun a =>
          (eval n a env).bind fun va =>
          (cdr d).bind fun dd =>
          (car dd).bind fun b =>
          (eval n b env).bind fun vb => Res.ok (cons va vb)
        else if c_bool (eq op ATOM_COND) then
          (cdr expr).bind fun d => eval_cond n d env
        else
          (assoc op env).bind fun f =>
          (cdr expr).bind fun d =>
          eval n (cons f d) env
      else
        (car op).bind fun h =>
        if c_bool (eq h ATOM_LABEL) then
          (cdr op).bind fun d1 =>
          (car d1).bind fun name =>
          (cdr d1).bind fun d2 =>
          (car d2).bind fun body =>
          (cdr expr).bind fun args =>
          eval n (cons body args) (cons (cons name body) env)
        else if c_bool (eq h ATOM_LAMBDA) then
          (cdr op).bind fun d1 =>
          (cdr d1).bind fun d2 =>
          (car d2).bind fun body =>
          (car d1).bind fun params =>
          (cdr expr).bind fun args =>
          (eval_list n args env).bind fun vals =>
          (append (pair params vals) env).bind fun env2 =>
          eval n body env2
        else Res.ok ATOM_NIL := by
  rw [eval]

theorem eval_fuel_succ (n : Nat) :
    (∀ m env, (eval_list n m env).le (eval_list (n + 1) m env)) ∧
    (∀ e env, (eval_cond n e env).le (eval_cond (n + 1) e env)) ∧
    (∀ expr env, (eval n expr env).le (eval (n + 1) expr env)) := by
  induction n with
  | zero =>
    refine ⟨fun m env => ?_, fun e env => ?_, fun expr env => ?_⟩
    · rw [eval_list]; exact Res.fail_le _ _
    · rw [eval_cond]; exact Res.fail_le _ _
    · rw [eval]; exact Res.fail_le _ _
  | succ n ih =>
    obtain ⟨ihl, ihc, ihe⟩ := ih
    refine ⟨fun m env => ?_, fun e env => ?_, fun expr env => ?_⟩
    · rw [eval_list_succ n, eval_list_succ (n + 1)]
      repeat' first
        | with_reducible exact ihe _ _
        | with_reducible exact ihl _ _
        | refine Res.bind_le ?_ (fun _ => ?_)
        | refine Res.ite_le ?_ ?_
        | with_reducible exact Res.le_refl _
    · rw [eval_cond_succ n, eval_cond_succ (n + 1)]
      repeat' first
        | with_reducible exact ihe _ _
        | with_reducible exact ihc _ _
        | refine Res.bind_le ?_ (fun _ => ?_)
        | refine Res.ite_le ?_ ?_
        | with_reducible exact Res.le_refl _
    · rw [eval_succ n, eval_succ (n + 1)]
      repeat' first
        | with_reducible exact ihe _ _
        | with_reducible exact ihl _ _
        | with_reducible exact ihc _ _
        | refine Res.bind_le ?_ (fun _ => ?_)
        | refine Res.ite_le ?_ ?_
        | with_reducible exact Res.le_refl _

theorem eval_fuel_le {n m : Nat} (h : n ≤ m) (expr env : sexp) :
    (eval n expr env).le (eval m expr env) := by
  induction h with
  | refl => exact Res.le_refl _
  | step _ ih => exact fun v hv => (eval_fuel_succ _).2.2 expr env v (ih v hv)

theorem eval_list_fuel_le {n m : Nat} (h : n ≤ m) (l env : sexp) :
    (eval_list n l env).le (eval_list m l env) := by
  induction h with
  | refl => exact Res.le_refl _
  | step _ ih => exact fun v hv => (eval_fuel_succ _).1 l env v (ih v hv)

theorem eval_cond_fuel_le {n m : Nat} (h : n ≤ m) (l env : sexp) :
    (eval_cond n l env).le (eval_cond m l env) := by
  induction h with
  | refl => exact Res.le_refl _
  | step _ ih => exact fun v hv => (eval_fuel_succ _).2.1 l env v (ih v hv)

/-- Evaluation is deterministic: the value does not depend on the fuel. -/
theorem Evals_unique {expr env v w : sexp} (hv : Evals expr env v) (hw : Evals expr env w) :
    v = w := by
  obtain ⟨n, hn⟩ := hv
  obtain ⟨m, hm⟩ := hw
  have h1 := eval_fuel_le (Nat.le_max_left n m) expr env v hn
  have h2 := eval_fuel_le (Nat.le_max_right n m) expr env w hm
  rw [h1] at h2
  exact Res.ok.inj h2

@[simp] theorem c_bool_eq_atoms (a b : List Char) :
    c_bool (eq (ATOM a) (ATOM b)) = decide (a = b) := by
  by_cases h : a = b
  · subst h; simp [eq, c_bool, ATOM_T]
  · simp [eq, c_bool, ATOM_NIL, h]

@[simp] theorem c_bool_eq_cons_left (l r x : sexp) : c_bool (eq (CONS l r) x) = false := by
  simp [eq, c_bool, ATOM_NIL]

@[simp] theorem c_bool_eq_cons_right (l r x : sexp) : c_bool (eq x (CONS l r)) = false := by
  cases x <;> simp [eq, c_bool, ATOM_NIL]

@[simp] theorem c_bool_atom_atom (a : List Char) : c_bool (atom (ATOM a)) = true := by
  simp [atom, c_bool, ATOM_T]

@[simp] theorem c_bool_atom_cons (l r : sexp) : c_bool (atom (CONS l r)) = false := by
  simp [atom, c_bool, ATOM_NIL]

theorem c_bool_iff (x : sexp) : c_bool x = true ↔ x = ATOM_T := by
  cases x <;> simp [c_bool, ATOM_T]

@[simp] theorem Res.ok_bind {α β : Type} (a : α) (f : α → Res β) : (Res.ok a).bind f = f a := rfl

@[simp] theorem Res.fail_bind {α β : Type} (e : Fault) (f : α → Res β) :
    (Res.fail e).bind f = Res.fail e := rfl

@[simp] theorem car_cons (l r : sexp) : car (CONS l r) = Res.ok l := rfl
@[simp] theorem cdr_cons (l r : sexp) : cdr (CONS l r) = Res.ok r := rfl

/-- Evaluation of a proper list of arguments, element by element. -/
theorem eval_list_list_of (env : sexp) (args : List sexp) (w : sexp) :
    (∃ n, eval_list n (list_of args) env = Res.ok w) ↔
      ∃ vals, w = list_of vals ∧ List.Forall₂ (fun a v => Evals a env v) args vals := by
  induction args generalizing w with
  | nil =>
    constructor
    · rintro ⟨n, hn⟩
      cases n with
      | zero => simp [eval_list] at hn
      | succ n =>
        rw [eval_list_succ] at hn
        simp [list_of, null, ATOM_NIL] at hn
        exact ⟨[], by simp [list_of, ATOM_NIL, hn], List.Forall₂.nil⟩
    · rintro ⟨vals, rfl, h⟩
      cases h
      exact ⟨1, by rw [eval_list_succ]; simp [list_of, null, ATOM_NIL]⟩
  | cons a rest ih =>
    constructor
    · rintro ⟨n, hn⟩
      cases n with
      | zero => simp [eval_list] at hn
      | succ n =>
        rw [eval_list_succ] at hn
        simp [list_of, null, Res.bind_eq_ok, cons] at hn
        obtain ⟨v, hv, vs, hvs, rfl⟩ := hn
        obtain ⟨vals, rfl, hall⟩ := (ih vs).1 ⟨n, hvs⟩
        exact ⟨v :: vals, rfl, List.Forall₂.cons ⟨n, hv⟩ hall⟩
    · rintro ⟨vals, rfl, h⟩
      cases h with
      | cons hv hrest =>
        rename_i v vs
        obtain ⟨n1, h1⟩ := hv
        obtain ⟨n2, h2⟩ := (ih (list_of vs)).2 ⟨vs, rfl, hrest⟩
        refine ⟨max n1 n2 + 1, ?_⟩
        rw [eval_list_succ]
        simp [list_of, null, cons,
          eval_fuel_le (Nat.le_max_left n1 n2) _ _ _ h1,
          eval_list_fuel_le (Nat.le_max_right n1 n2) _ _ _ h2]

theorem pair_list_of (ps vs : List sexp) :
    pair (list_of ps) (list_of vs) = bind_all (ps.zip vs) ATOM_NIL := by
  induction ps generalizing vs with
  | nil => cases vs <;> simp [list_of, pair, bind_all, ATOM_NIL]
  | cons p ps ih =>
    cases vs with
    | nil => simp [list_of, pair, bind_all, ATOM_NIL]
    | cons v vs =>
      simp only [list_of, pair, cons, ih, List.zip_cons_cons, bind_all, List.foldr_cons]

theorem append_bind_all (kvs : List (sexp × sexp)) (env : sexp) :
    append (bind_all kvs ATOM_NIL) env = Res.ok (bind_all kvs env) := by
  induction kvs with
  | nil => simp [bind_all, append, ATOM_NIL, null]
  | cons kv kvs ih =>
    simp only [bind_all, List.foldr_cons] at ih ⊢
    simp [append, ih, cons]

/-- The result of `pair` is a proper list, so `append` never takes `car` of an atom on it. -/
theorem append_pair_defined (a b env : sexp) : ∃ e, append (pair a b) env = Res.ok e := by
  induction a generalizing b with
  | ATOM v => exact ⟨env, by simp [pair, append, null, ATOM_NIL]⟩
  | CONS l r _ ihr =>
    cases b with
    | ATOM v => exact ⟨env, by simp [pair, append, null, ATOM_NIL]⟩
    | CONS lb rb =>
      obtain ⟨e, he⟩ := ihr rb
      exact ⟨CONS (CONS l lb) e, by simp [pair, append, cons, he]⟩

/-! ## The evaluator -/

/-- One step of `eval` on a lambda application. -/
theorem lambda_app_step (env params body : sexp) (args : List sexp) (n : Nat) :
    eval (n + 1) (lambda_app params body args) env =
      (eval_list n (list_of args) env).bind fun vals =>
        (append (pair params vals) env).bind fun env2 => eval n body env2 := by
  rw [eval_succ]
  simp [lambda_app, list_of, ATOM_LAMBDA, ATOM_LABEL]

/-- Values of a lambda application. -/
theorem evals_lambda_app (env params body : sexp) (args : List sexp) (v : sexp) :
    Evals (lambda_app params body args) env v ↔
      ∃ vals, List.Forall₂ (fun a w => Evals a env w) args vals ∧
        ∃ env2, append (pair params (list_of vals)) env = Res.ok env2 ∧
          Evals body env2 v := by
  constructor
  · rintro ⟨n, hn⟩
    cases n with
    | zero => simp [eval] at hn
    | succ n =>
      rw [lambda_app_step, Res.bind_eq_ok] at hn
      obtain ⟨w, hw, hn⟩ := hn
      rw [Res.bind_eq_ok] at hn
      obtain ⟨env2, he, hb⟩ := hn
      obtain ⟨vals, rfl, hall⟩ := (eval_list_list_of env args w).1 ⟨n, hw⟩
      exact ⟨vals, hall, env2, he, n, hb⟩
  · rintro ⟨vals, hall, env2, he, m, hb⟩
    obtain ⟨k, hk⟩ := (eval_list_list_of env args (list_of vals)).2 ⟨vals, rfl, hall⟩
    refine ⟨max k m + 1, ?_⟩
    rw [lambda_app_step, eval_list_fuel_le (Nat.le_max_left k m) _ _ _ hk]
    simp only [Res.ok_bind, he]
    exact eval_fuel_le (Nat.le_max_right k m) _ _ _ hb

/-- C3 (lambda application).  Applying `(lambda params body)` to a proper
argument list evaluates every argument under the caller's `env`, pairs the
values positionally with `params`, puts the bindings in front of `env` and
evaluates `body` there: with one more unit of fuel the application has the
outcome of that sequence of calls, and it has the value `v` exactly when the
arguments have values `vals` and `body` has the value `v` under
`append (pair params vals) env`. -/
theorem c3_lambda_application (env params body : sexp) (args : List sexp) :
    (∀ n, eval (n + 1) (lambda_app params body args) env =
      (eval_list n (list_of args) env).bind fun vals =>
        (append (pair params vals) env).bind fun env2 => eval n body env2) ∧
    (∀ v, Evals (lambda_app params body args) env v ↔
      ∃ vals, List.Forall₂ (fun a w => Evals a env w) args vals ∧
        ∃ env2, append (pair params (list_of vals)) env = Res.ok env2 ∧
          Evals body env2 v) :=
  ⟨lambda_app_step env params body args, evals_lambda_app env params body args⟩

/-- C4 (label application).  `((label name body) . args)` is evaluated as
`(body . args)` under `env` with the single entry `(name . body)` put in
front of it: same outcome with one more unit of fuel, hence same values. -/
theorem c4_label_application (env name body args : sexp) :
    (∀ n, eval (n + 1) (CONS (list_of [ATOM_LABEL, name, body]) args) env =
      eval n (CONS body args) (CONS (CONS name body) env)) ∧
    (∀ v, Evals (CONS (list_of [ATOM_LABEL, name, body]) args) env v ↔
      Evals (CONS body args) (CONS (CONS name body) env) v) := by
  have step : ∀ n, eval (n + 1) (CONS (list_of [ATOM_LABEL, name, body]) args) env =
      eval n (CONS body args) (CONS (CONS name body) env) := by
    intro n
    rw [eval_succ]
    simp [list_of, ATOM_LABEL, cons]
  refine ⟨step, fun v => ⟨?_, ?_⟩⟩
  · rintro ⟨n, hn⟩
    cases n with
    | zero => simp [eval] at hn
    | succ n => exact ⟨n, by rw [← step]; exact hn⟩
  · rintro ⟨n, hn⟩
    exact ⟨n + 1, by rw [step]; exact hn⟩

/-- C5 (call by name).  For an atom `op` that is none of quote, atom, eq,
car, cdr, cons, cond, the form `(op . args)` is evaluated as
`(assoc(op, env) . args)` under the same `env`; and when `env` binds `key`
to the atom quote, `(key x)` evaluates to `x`. -/
theorem c5_call_by_name (env args : sexp) (op : List Char) (hop : op ∉ special_names) :
    (∀ n, eval (n + 1) (CONS (ATOM op) args) env =
      (assoc (ATOM op) env).bind fun f => eval n (CONS f args) env) ∧
    (∀ v, Evals (CONS (ATOM op) args) env v ↔
      ∃ f, assoc (ATOM op) env = Res.ok f ∧ Evals (CONS f args) env v) ∧
    (assoc (ATOM op) env = Res.ok ATOM_QUOTE →
      ∀ x, Evals (list_of [ATOM op, x]) env x) := by
  have step : ∀ n a, eval (n + 1) (CONS (ATOM op) a) env =
      (assoc (ATOM op) env).bind fun f => eval n (CONS f a) env := by
    intro n a
    simp [special_names] at hop
    rw [eval_succ]
    simp [ATOM_QUOTE, ATOM_ATOM, ATOM_EQ, ATOM_CAR, ATOM_CDR, ATOM_CONS, ATOM_COND, hop, cons]
  refine ⟨fun n => step n args, fun v => ⟨?_, ?_⟩, fun hq x => ?_⟩
  · rintro ⟨n, hn⟩
    cases n with
    | zero => simp [eval] at hn
    | succ n =>
      rw [step, Res.bind_eq_ok] at hn
      obtain ⟨f, hf, hn⟩ := hn
      exact ⟨f, hf, n, hn⟩
  · rintro ⟨f, hf, n, hn⟩
    exact ⟨n + 1, by rw [step, hf]; exact hn⟩
  · refine ⟨2, ?_⟩
    rw [list_of, step, hq, Res.ok_bind, eval_succ]
    simp [ATOM_QUOTE, list_of]

/-- C7 (quote).  `(quote x)` evaluates to `x` itself under every
environment, at every positive fuel; neither `x` nor `env` is inspected. -/
theorem c7_quote (x env : sexp) :
    (∀ n, eval (n + 1) (list_of [ATOM_QUOTE, x]) env = Res.ok x) ∧
    (∀ v, Evals (list_of [ATOM_QUOTE, x]) env v ↔ v = x) := by
  have step : ∀ n, eval (n + 1) (list_of [ATOM_QUOTE, x]) env = Res.ok x := by
    intro n
    rw [eval_succ]
    simp [ATOM_QUOTE, list_of]
  refine ⟨step, fun v => ⟨fun h => Evals_unique h ⟨1, step 0⟩, ?_⟩⟩
  rintro rfl
  exact ⟨1, step 0⟩

/-- The environment of the repository's evaluator test: `((key . quote) (t . t))`. -/
theorem test_env_eq :
    pair (list_of [ATOM "key".toList, ATOM_T]) (list_of [ATOM_QUOTE, ATOM_T]) =
      bind_all [(ATOM "key".toList, ATOM_QUOTE), (ATOM_T, ATOM_T)] ATOM_NIL := by
  decide

/-- Witness for C5: `key` is bound to quote in the test environment, and
`(key (a b c))` evaluates to `(a b c)`. -/
theorem c5_call_by_name_witness :
    "key".toList ∉ special_names ∧
    Evals (list_of [ATOM "key".toList,
        list_of [ATOM "a".toList, ATOM "b".toList, ATOM "c".toList]])
      (bind_all [(ATOM "key".toList, ATOM_QUOTE), (ATOM_T, ATOM_T)] ATOM_NIL)
      (list_of [ATOM "a".toList, ATOM "b".toList, ATOM "c".toList]) :=
  ⟨by decide,
   (c5_call_by_name (bind_all [(ATOM "key".toList, ATOM_QUOTE), (ATOM_T, ATOM_T)] ATOM_NIL)
      (list_of [list_of [ATOM "a".toList, ATOM "b".toList, ATOM "c".toList]])
      "key".toList (by decide)).2.2 (by decide) _⟩

theorem eval_cond_nil (n : Nat) (env : sexp) :
    eval_cond (n + 1) (list_of []) env = Res.ok ATOM_NIL := by
  rw [eval_cond_succ]; simp [list_of, null, ATOM_NIL]

theorem eval_cond_cons (n : Nat) (env p e : sexp) (rest : List sexp) :
    eval_cond (n + 1) (list_of (list_of [p, e] :: rest)) env =
      (eval n p env).bind fun pv =>
        if c_bool (eq ATOM_T pv) then eval n e env else eval_cond n (list_of rest) env := by
  rw [eval_cond_succ]; simp [list_of, null]

theorem eval_cond_form (n : Nat) (env : sexp) (clauses : List (sexp × sexp)) :
    eval (n + 1) (cond_form clauses) env =
      eval_cond n (list_of (clauses.map fun c => list_of [c.1, c.2])) env := by
  rw [eval_succ]
  simp [cond_form, ATOM_COND, ATOM_QUOTE, ATOM_ATOM, ATOM_EQ, ATOM_CAR, ATOM_CDR, ATOM_CONS]

theorem c_bool_eq_t (x : sexp) : c_bool (eq ATOM_T x) = true ↔ x = ATOM_T := by
  cases x with
  | ATOM a => simp [ATOM_T, eq_comm]
  | CONS l r => simp [ATOM_T]

theorem evals_cond_form (env : sexp) (clauses : List (sexp × sexp)) (v : sexp) :
    Evals (cond_form clauses) env v ↔
      ∃ n, eval_cond n (list_of (clauses.map fun c => list_of [c.1, c.2])) env = Res.ok v := by
  constructor
  · rintro ⟨n, hn⟩
    cases n with
    | zero => simp [eval] at hn
    | succ n => exact ⟨n, by rw [← eval_cond_form]; exact hn⟩
  · rintro ⟨n, hn⟩
    exact ⟨n + 1, by rw [eval_cond_form]; exact hn⟩

/-- A clause whose predicate has a value other than `t` is skipped. -/
theorem evals_cond_skip (env p e u v : sexp) (rest : List sexp)
    (hp : Evals p env u) (hu : u ≠ ATOM_T) :
    (∃ n, eval_cond n (list_of (list_of [p, e] :: rest)) env = Res.ok v) ↔
      ∃ n, eval_cond n (list_of rest) env = Res.ok v := by
  have hf : c_bool (eq ATOM_T u) = false := by
    rw [Bool.eq_false_iff, Ne, c_bool_eq_t]; exact hu
  constructor
  · rintro ⟨n, hn⟩
    cases n with
    | zero => simp [eval_cond] at hn
    | succ n =>
      rw [eval_cond_cons, Res.bind_eq_ok] at hn
      obtain ⟨pv, hpv, hn⟩ := hn
      obtain rfl := Evals_unique hp ⟨n, hpv⟩
      rw [hf] at hn
      exact ⟨n, by simpa using hn⟩
  · rintro ⟨n, hn⟩
    obtain ⟨k, hk⟩ := hp
    refine ⟨max k n + 1, ?_⟩
    rw [eval_cond_cons, eval_fuel_le (Nat.le_max_left k n) _ _ _ hk, Res.ok_bind, hf]
    simpa using eval_cond_fuel_le (Nat.le_max_right k n) _ _ _ hn

/-- A clause whose predicate has the value `t` selects its consequent. -/
theorem evals_cond_take (env p e v : sexp) (rest : List sexp) (hp : Evals p env ATOM_T) :
    (∃ n, eval_cond n (list_of (list_of [p, e] :: rest)) env = Res.ok v) ↔ Evals e env v := by
  have ht : c_bool (eq ATOM_T ATOM_T) = true := by decide
  constructor
  · rintro ⟨n, hn⟩
    cases n with
    | zero => simp [eval_cond] at hn
    | succ n =>
      rw [eval_cond_cons, Res.bind_eq_ok] at hn
      obtain ⟨pv, hpv, hn⟩ := hn
      obtain rfl := Evals_unique hp ⟨n, hpv⟩
      rw [ht] at hn
      exact ⟨n, by simpa using hn⟩
  · rintro ⟨n, hn⟩
    obtain ⟨k, hk⟩ := hp
    refine ⟨max k n + 1, ?_⟩
    rw [eval_cond_cons, eval_fuel_le (Nat.le_max_left k n) _ _ _ hk, Res.ok_bind, ht]
    simpa using eval_fuel_le (Nat.le_max_right k n) _ _ _ hn

/-- C6 (cond).  In `(cond (p1 e1) ... (pn en))`, when the predicates before
clause `(p e)` all have values other than the atom `t` and `p` has the value
`t`, the form has exactly the values of `e`: nothing is assumed about the
other consequents or about the clauses after it, which may be undefined or
diverge.  When every predicate has a value other than `t` (in particular
when there is no clause) the form has the value nil. -/
theorem c6_cond (env : sexp) (pre : List (sexp × sexp))
    (hpre : ∀ c ∈ pre, ∃ u, Evals c.1 env u ∧ u ≠ ATOM_T) :
    (∀ p e post v, Evals p env ATOM_T →
      (Evals (cond_form (pre ++ (p, e) :: post)) env v ↔ Evals e env v)) ∧
    (∀ v, Evals (cond_form pre) env v ↔ v = ATOM_NIL) := by
  constructor
  · intro p e post v hp
    rw [evals_cond_form]
    induction pre with
    | nil => simpa using evals_cond_take env p e v _ hp
    | cons c pre ih =>
      obtain ⟨u, hu, hne⟩ := hpre c (List.mem_cons_self _ _)
      rw [← ih fun c hc => hpre c (List.mem_cons_of_mem _ hc)]
      simpa using evals_cond_skip env c.1 c.2 u v _ hu hne
  · intro v
    rw [evals_cond_form]
    induction pre with
    | nil =>
      constructor
      · rintro ⟨n, hn⟩
        cases n with
        | zero => simp [eval_cond] at hn
        | succ n =>
          rw [List.map_nil, eval_cond_nil] at hn
          exact (Res.ok.inj hn).symm
      · rintro rfl
        exact ⟨1, eval_cond_nil 0 env⟩
    | cons c pre ih =>
      obtain ⟨u, hu, hne⟩ := hpre c (List.mem_cons_self _ _)
      rw [← ih fun c hc => hpre c (List.mem_cons_of_mem _ hc)]
      simpa using evals_cond_skip env c.1 c.2 u v _ hu hne

/-- Witness for C6 on the forms of the repository's test: under the empty
environment `(cond ((eq 'x 'z) 'first) ((atom 'a) 'second))` has the
value `second`, and `(cond ((eq 'a 'b) 'first))` has the value nil. -/
theorem c6_cond_witness :
    Evals (cond_form
        [(list_of [ATOM_EQ, list_of [ATOM_QUOTE, ATOM "x".toList],
            list_of [ATOM_QUOTE, ATOM "z".toList]], list_of [ATOM_QUOTE, ATOM "first".toList]),
         (list_of [ATOM_ATOM, list_of [ATOM_QUOTE, ATOM "a".toList]],
            list_of [ATOM_QUOTE, ATOM "second".toList])])
      ATOM_NIL (ATOM "second".toList) ∧
    Evals (cond_form
        [(list_of [ATOM_EQ, list_of [ATOM_QUOTE, ATOM "a".toList],
            list_of [ATOM_QUOTE, ATOM "b".toList]], list_of [ATOM_QUOTE, ATOM "first".toList])])
      ATOM_NIL ATOM_NIL :=
  ⟨((c6_cond ATOM_NIL
        [(list_of [ATOM_EQ, list_of [ATOM_QUOTE, ATOM "x".toList],
            list_of [ATOM_QUOTE, ATOM "z".toList]], list_of [ATOM_QUOTE, ATOM "first".toList])]
        (by
          intro c hc
          rw [List.mem_singleton] at hc
          subst hc
          exact ⟨ATOM_NIL, ⟨2, by decide⟩, by decide⟩)).1
      (list_of [ATOM_ATOM, list_of [ATOM_QUOTE, ATOM "a".toList]])
      (list_of [ATOM_QUOTE, ATOM "second".toList]) [] (ATOM "second".toList)
      ⟨2, by decide⟩).2 ⟨1, by decide⟩,
   ((c6_cond ATOM_NIL
        [(list_of [ATOM_EQ, list_of [ATOM_QUOTE, ATOM "a".toList],
            list_of [ATOM_QUOTE, ATOM "b".toList]], list_of [ATOM_QUOTE, ATOM "first".toList])]
        (by
          intro c hc
          rw [List.mem_singleton] at hc
          subst hc
          exact ⟨ATOM_NIL, ⟨2, by decide⟩, by decide⟩)).2 ATOM_NIL).2 rfl⟩

/-- C8 (strict primitives).  When `A` has the value `vA` and `B` the value
`vB` under `env`: `(atom A)` has exactly the value `atom(vA)`, `(eq A B)`
exactly `eq(vA, vB)`, `(cons A B)` exactly the pair `(vA . vB)`, and when
`vA` is the pair `(l . r)`, `(car A)` has exactly the value `l` and `(cdr A)`
exactly the value `r`. -/
theorem c8_strict_primitives (env A B vA vB : sexp)
    (hA : Evals A env vA) (hB : Evals B env vB) :
    (∀ w, Evals (list_of [ATOM_ATOM, A]) env w ↔ w = atom vA) ∧
    (∀ w, Evals (list_of [ATOM_EQ, A, B]) env w ↔ w = eq vA vB) ∧
    (∀ w, Evals (list_of [ATOM_CONS, A, B]) env w ↔ w = CONS vA vB) ∧
    (∀ l r, vA = CONS l r →
      (∀ w, Evals (list_of [ATOM_CAR, A]) env w ↔ w = l) ∧
      (∀ w, Evals (list_of [ATOM_CDR, A]) env w ↔ w = r)) := by
  obtain ⟨n, hn⟩ := hA
  obtain ⟨m, hm⟩ := hB
  have hn2 := eval_fuel_le (Nat.le_max_left n m) _ _ _ hn
  have hm2 := eval_fuel_le (Nat.le_max_right n m) _ _ _ hm
  have exact_value : ∀ (e v : sexp), Evals e env v → ∀ w, Evals e env w ↔ w = v :=
    fun e v hv w => ⟨fun hw => Evals_unique hw hv, fun h => h ▸ hv⟩
  refine ⟨exact_value _ _ ⟨n + 1, ?_⟩, exact_value _ _ ⟨max n m + 1, ?_⟩,
    exact_value _ _ ⟨max n m + 1, ?_⟩, fun l r hlr =>
      ⟨exact_value _ _ ⟨n + 1, ?_⟩, exact_value _ _ ⟨n + 1, ?_⟩⟩⟩
  · rw [eval_succ]
    simp [list_of, ATOM_ATOM, ATOM_QUOTE, hn]
  · rw [eval_succ]
    simp [list_of, ATOM_ATOM, ATOM_QUOTE, ATOM_EQ, hn2, hm2]
  · rw [eval_succ]
    simp [list_of, ATOM_ATOM, ATOM_QUOTE, ATOM_EQ, ATOM_CAR, ATOM_CDR, ATOM_CONS, hn2, hm2, cons]
  · rw [eval_succ]
    simp [list_of, ATOM_ATOM, ATOM_QUOTE, ATOM_EQ, ATOM_CAR, hn, hlr]
  · rw [eval_succ]
    simp [list_of, ATOM_ATOM, ATOM_QUOTE, ATOM_EQ, ATOM_CAR, ATOM_CDR, hn, hlr]

/-- Witness for C8 with `A = '(car . cdr)` and `B = 'b` under the empty
environment. -/
theorem c8_strict_primitives_witness :
    Evals (list_of [ATOM_ATOM, list_of [ATOM_QUOTE, CONS ATOM_CAR ATOM_CDR]]) ATOM_NIL ATOM_NIL ∧
    Evals (list_of [ATOM_CAR, list_of [ATOM_QUOTE, CONS ATOM_CAR ATOM_CDR]]) ATOM_NIL ATOM_CAR ∧
    Evals (list_of [ATOM_CONS, list_of [ATOM_QUOTE, CONS ATOM_CAR ATOM_CDR],
      list_of [ATOM_QUOTE, ATOM "b".toList]]) ATOM_NIL
      (CONS (CONS ATOM_CAR ATOM_CDR) (ATOM "b".toList)) :=
  have h := c8_strict_primitives ATOM_NIL (list_of [ATOM_QUOTE, CONS ATOM_CAR ATOM_CDR])
    (list_of [ATOM_QUOTE, ATOM "b".toList]) (CONS ATOM_CAR ATOM_CDR) (ATOM "b".toList)
    ⟨1, by decide⟩ ⟨1, by decide⟩
  ⟨(h.1 _).2 (by decide), ((h.2.2.2 _ _ rfl).1 _).2 rfl, (h.2.2.1 _).2 rfl⟩

/-- C9 (variable lookup).  An atom `k` evaluates to `assoc(k, env)`.  On
an environment that is a proper list of `(key . value)` entries, `assoc`
returns the value of the first entry whose key is `eq` to `k`, and `k`
itself when there is none; in particular
`assoc(k, cons(cons(k, x), rest)) = x` and `assoc(k, nil) = k`. -/
theorem c9_variable_lookup (k : List Char) :
    (∀ n env, eval (n + 1) (ATOM k) env = assoc (ATOM k) env) ∧
    (∀ kvs : List (sexp × sexp), assoc (ATOM k) (bind_all kvs ATOM_NIL) =
      Res.ok (match kvs.find? (fun kv => c_bool (eq kv.1 (ATOM k))) with
        | some kv => kv.2
        | none => ATOM k)) ∧
    (∀ x rest, assoc (ATOM k) (CONS (CONS (ATOM k) x) rest) = Res.ok x) ∧
    assoc (ATOM k) ATOM_NIL = Res.ok (ATOM k) := by
  refine ⟨fun n env => ?_, fun kvs => ?_, fun x rest => ?_, ?_⟩
  · rw [eval_succ]; simp
  · induction kvs with
    | nil => simp [bind_all, assoc, ATOM_NIL]
    | cons kv kvs ih =>
      simp only [bind_all, List.foldr_cons] at ih ⊢
      by_cases h : c_bool (eq kv.1 (ATOM k)) = true
      · simp [assoc, List.find?, h]
      · simp [assoc, List.find?, h, ih]
  · simp [assoc]
  · simp [assoc, ATOM_NIL]

/-- C10 as stated fails: `((lambda (a b) a) 4)` has two parameters and one
argument, and evaluates to `4`, not to nil. -/
theorem c10_counterexample :
    ¬ (∀ (env body : sexp) (params args : List sexp), params.length ≠ args.length →
        Evals (lambda_app (list_of params) body args) env ATOM_NIL) := by
  intro h
  have h1 := h ATOM_NIL (ATOM "a".toList) [ATOM "a".toList, ATOM "b".toList]
    [ATOM "4".toList] (by decide)
  have h2 : Evals (lambda_app (list_of [ATOM "a".toList, ATOM "b".toList]) (ATOM "a".toList)
      [ATOM "4".toList]) ATOM_NIL (ATOM "4".toList) := ⟨3, by decide⟩
  exact absurd (Evals_unique h1 h2) (by decide)

/-- C10 (arity mismatch), amended.  When the proper lists `params` and
`args` have different lengths, the application still evaluates every
argument and then evaluates `body` under `env` extended with the bindings of
the first `min` of the two lengths many parameters to the corresponding
values; the other parameters stay unbound and the other values are dropped. -/
theorem c10_arity_mismatch (env body : sexp) (params args : List sexp)
    (_hlen : params.length ≠ args.length) (v : sexp) :
    Evals (lambda_app (list_of params) body args) env v ↔
      ∃ vals, List.Forall₂ (fun a w => Evals a env w) args vals ∧
        Evals body (bind_all (params.zip vals) env) v := by
  rw [evals_lambda_app env (list_of params) body args v]
  constructor
  · rintro ⟨vals, hall, env2, he, hb⟩
    rw [pair_list_of, append_bind_all] at he
    exact ⟨vals, hall, Res.ok.inj he ▸ hb⟩
  · rintro ⟨vals, hall, hb⟩
    exact ⟨vals, hall, _, by rw [pair_list_of, append_bind_all], hb⟩

/-- Witness for C10: `((lambda (a b) a) 4)` evaluates to `4`. -/
theorem c10_arity_mismatch_witness :
    [ATOM "a".toList, ATOM "b".toList].length ≠ [ATOM "4".toList].length ∧
    Evals (lambda_app (list_of [ATOM "a".toList, ATOM "b".toList]) (ATOM "a".toList)
      [ATOM "4".toList]) ATOM_NIL (ATOM "4".toList) :=
  ⟨by decide,
   (c10_arity_mismatch ATOM_NIL (ATOM "a".toList) [ATOM "a".toList, ATOM "b".toList]
      [ATOM "4".toList] (by decide) (ATOM "4".toList)).2
     ⟨[ATOM "4".toList], List.Forall₂.cons ⟨1, by decide⟩ List.Forall₂.nil, ⟨1, by decide⟩⟩⟩

/-! ## The printer, when the text fits -/

theorem length_store (mem : List Char) (off : Nat) (data : List Char) (h : off ≤ mem.length) :
    (store mem off data).length = max mem.length (off + data.length) := by
  simp [store]
  omega

theorem store_store (mem : List Char) (off : Nat) (a b : List Char) (c : Char)
    (h : off ≤ mem.length) (hb : b ≠ []) :
    store (store mem off (a ++ [c])) (off + a.length) b = store mem off (a ++ b) := by
  obtain ⟨x, xs, rfl⟩ := List.exists_cons_of_ne_nil hb
  have h1 : (List.take off mem).length = off := by simp [h]
  have e1 : List.take (off + a.length) (List.take off mem ++ (a ++ [c]) ++
      List.drop (off + (a ++ [c]).length) mem) = List.take off mem ++ a := by
    rw [List.append_assoc, List.take_append_eq_append_take, List.take_of_length_le (by omega)]
    simp [h1]
  have e2 : List.drop (off + a.length + (x :: xs).length) (List.take off mem ++ (a ++ [c]) ++
      List.drop (off + (a ++ [c]).length) mem) = List.drop (off + (a ++ x :: xs).length) mem := by
    rw [List.drop_append_eq_append_drop, List.drop_of_length_le (by simp [h1]; omega)]
    simp [h1]
    congr 1
    omega
  unfold store
  rw [e1, e2]
  simp

theorem snprintf_fits (mem : List Char) (str len : Nat) (s : List Char) (h : s.length < len) :
    snprintf mem str len s = (s.length, store mem str (s ++ [NUL])) := by
  have h0 : len ≠ 0 := by omega
  have h1 : s.take (len - 1) = s := List.take_of_length_le (by omega)
  simp [snprintf, h0, h1]

theorem fits_snprintf (s : List Char) : Fits (fun m p n => snprintf m p n s) s :=
  fun mem str len _ h => snprintf_fits mem str len s h

theorem Fits.after {f : Printer} {t : List Char} (h : Fits f t) : FitsAfter f t := by
  intro m0 base pre len hb hl
  rw [h _ _ _ (by rw [length_store _ _ _ hb]; simp) hl,
    store_store _ _ _ _ _ hb (by simp), List.append_assoc]

theorem chain_after (fs : List Printer) (ts : List (List Char))
    (h : List.Forall₂ FitsAfter fs ts) (m0 : List Char) (base : Nat) (hb : base ≤ m0.length)
    (len : Nat) (pre1 pre2 : List Char) (hl : pre2.length + ts.flatten.length < len) :
    chain fs pre2.length (store m0 base (pre1 ++ pre2 ++ [NUL])) (base + pre1.length) len =
      (pre2.length + ts.flatten.length, store m0 base (pre1 ++ pre2 ++ ts.flatten ++ [NUL])) := by
  induction h generalizing pre2 with
  | nil => simp [chain]
  | @cons f t fs ts hf _ ih =>
    simp only [List.flatten_cons, List.length_append] at hl
    have hlt : ¬ pre2.length ≥ len := by omega
    have e := hf m0 base (pre1 ++ pre2) (len - pre2.length) hb (by omega)
    simp only [List.length_append, ← Nat.add_assoc] at e
    rw [chain, if_neg hlt, e]
    have ih2 := ih (pre2 ++ t) (by simp only [List.length_append]; omega)
    simp only [List.length_append, ← List.append_assoc] at ih2
    simp only [List.flatten_cons, List.length_append, ← List.append_assoc, ← Nat.add_assoc]
    exact ih2

/-- A chain of continuing actions continues a text with the concatenation. -/
theorem fits_after_chain (fs : List Printer) (ts : List (List Char))
    (h : List.Forall₂ FitsAfter fs ts) : FitsAfter (chain fs 0) ts.flatten := by
  intro m0 base pre len hb hl
  have := chain_after fs ts h m0 base hb len pre [] (by simpa using hl)
  simpa using this

/-- A chain that starts with a writing action writes the concatenation. -/
theorem fits_chain (f : Printer) (t : List Char) (fs : List Printer) (ts : List (List Char))
    (hf : Fits f t) (h : List.Forall₂ FitsAfter fs ts) : Fits (chain (f :: fs) 0) (t ++ ts.flatten) := by
  intro mem str len hs hl
  simp only [List.length_append] at hl
  have hlt : ¬ 0 ≥ len := by omega
  have e := hf mem (str + 0) (len - 0) hs (by omega)
  rw [chain, if_neg hlt, e]
  have := chain_after fs ts h mem str hs len [] t (by omega)
  simpa using this

theorem print_dot_cons (l r : sexp) (mem : List Char) (str len : Nat) :
    print_dot_notation mem str len (CONS l r) =
      chain [fun m p n => snprintf m p n "(".toList, fun m p n => print_dot_notation m p n l,
        fun m p n => snprintf m p n " . ".toList, fun m p n => print_dot_notation m p n r,
        fun m p n => snprintf m p n ")".toList] 0 mem str len := by
  rw [ print_dot_notation]
  simp only [chain]

/-- With room for the text and its terminator, `print_dot_notation` writes
`dot_text` and a NUL at `str` and returns the length of the text. -/
theorem print_dot_fits (v : sexp) : Fits (fun m p n => print_dot_notation m p n v) (dot_text v) := by
  induction v with
  | ATOM a => exact fits_snprintf a
  | CONS l r ihl ihr =>
    have h := fits_chain _ _ _ _ (fits_snprintf "(".toList)
      (List.Forall₂.cons ihl.after (List.Forall₂.cons (fits_snprintf " . ".toList).after
        (List.Forall₂.cons ihr.after (List.Forall₂.cons (fits_snprintf ")".toList).after
          List.Forall₂.nil))))
    intro mem str len hs hl
    show print_dot_notation mem str len (CONS l r) = _
    rw [print_dot_cons]
    have := h mem str len hs (by simpa [dot_text] using hl)
    simpa [dot_text] using this

theorem print_list_atom_eq (v : List Char) (mem : List Char) (str len : Nat) :
    print_list_notation_atom mem str len v =
      chain [fun m p n => snprintf m p n v] 0 mem str len := by
  simp only [print_list_notation_atom, chain]

theorem fits_print_list_atom (v : List Char) :
    Fits (fun m p n => print_list_notation_atom m p n v) v := by
  have h := fits_chain _ _ [] [] (fits_snprintf v) List.Forall₂.nil
  intro mem str len hs hl
  show print_list_notation_atom mem str len v = _
  rw [print_list_atom_eq]
  simpa using h mem str len hs (by simpa using hl)

theorem print_list_rest_atom (v : List Char) (mem : List Char) (str len : Nat) :
    print_list_notation_rest mem str len (ATOM v) =
      if c_bool (eq (ATOM v) ATOM_NIL) then (0, mem)
      else chain [fun m p n => snprintf m p n " . ".toList,
        fun m p n => print_list_notation_atom m p n v] 0 mem str len := by
  rw [print_list_notation_rest]
  by_cases h : c_bool (eq (ATOM v) ATOM_NIL) = true
  · simp [h]
  · simp only [h, chain]
    simp

theorem print_list_rest_cons (l r : sexp) (mem : List Char) (str len : Nat) :
    print_list_notation_rest mem str len (CONS l r) =
      chain [fun m p n => snprintf m p n " ".toList, fun m p n => print_list_notation m p n l,
        fun m p n => print_list_notation_rest m p n r] 0 mem str len := by
  rw [print_list_notation_rest]
  simp only [chain]

theorem print_list_cons_parens (l r : sexp) (h : parens l r = true) (mem : List Char)
    (str len : Nat) :
    print_list_notation mem str len (CONS l r) =
      chain [fun m p n => snprintf m p n "(".toList, fun m p n => print_list_notation m p n l,
        fun m p n => print_list_notation_rest m p n r,
        fun m p n => snprintf m p n ")".toList] 0 mem str len := by
  cases r with
  | ATOM a =>
    rw [ print_list_notation]
    simp only [chain]
  | CONS ql qr =>
    rw [ print_list_notation]
    simp only [h, chain, if_true]

theorem print_list_cons_quote (l ql qr : sexp) (h : parens l (CONS ql qr) = false)
    (mem : List Char) (str len : Nat) :
    print_list_notation mem str len (CONS l (CONS ql qr)) =
      chain [fun m p n => snprintf m p n [APOS], fun m p n => print_list_notation m p n ql,
        fun m p n => print_list_notation_rest m p n qr] 0 mem str len := by
  rw [ print_list_notation]
  simp only [h, chain]
  simp

/-- With room for the text and its terminator, `print_list_notation` writes
`list_text`, and `print_list_notation_rest` continues a text by `rest_text`. -/
theorem print_list_fits (v : sexp) :
    Fits (fun m p n => print_list_notation m p n v) (list_text v) ∧
    FitsAfter (fun m p n => print_list_notation_rest m p n v) (rest_text v) ∧
    (∀ x y, v = CONS x y →
      Fits (fun m p n => print_list_notation m p n x) (list_text x) ∧
      FitsAfter (fun m p n => print_list_notation_rest m p n y) (rest_text y)) := by
  induction v with
  | ATOM a =>
    refine ⟨?_, ?_, fun x y h => by cases h⟩
    · exact fits_print_list_atom a
    · by_cases h : c_bool (eq (ATOM a) ATOM_NIL) = true
      · intro m0 base pre len _ _
        show print_list_notation_rest _ _ _ (ATOM a) = _
        rw [print_list_rest_atom, if_pos h]
        simp [rest_text, h]
      · have hc := fits_after_chain _ _
          (List.Forall₂.cons (fits_snprintf " . ".toList).after
            (List.Forall₂.cons (fits_print_list_atom a).after List.Forall₂.nil))
        intro m0 base pre len hb hl
        show print_list_notation_rest _ _ _ (ATOM a) = _
        rw [print_list_rest_atom, if_neg h]
        have := hc m0 base pre len hb (by simpa [rest_text, h] using hl)
        simpa [rest_text, h] using this
  | CONS l r ihl ihr =>
    obtain ⟨al, _, _⟩ := ihl
    obtain ⟨_, br, cr⟩ := ihr
    refine ⟨?_, ?_, fun x y h => by cases h; exact ⟨al, br⟩⟩
    · by_cases hp : parens l r = true
      · have hc := fits_chain _ _ _ _ (fits_snprintf "(".toList)
          (List.Forall₂.cons al.after (List.Forall₂.cons br
            (List.Forall₂.cons (fits_snprintf ")".toList).after List.Forall₂.nil)))
        have ht : list_text (CONS l r) =
            "(".toList ++ list_text l ++ rest_text r ++ ")".toList := by
          cases r with
          | ATOM a => rw [list_text]
          | CONS ql qr => rw [list_text, if_pos hp]
        intro mem str len hs hl
        show print_list_notation mem str len (CONS l r) = _
        rw [print_list_cons_parens l r hp, ht]
        rw [ht] at hl
        have := hc mem str len hs (by simpa using hl)
        simpa using this
      · cases r with
        | ATOM a => simp [parens] at hp
        | CONS ql qr =>
          obtain ⟨aq, bq⟩ := cr ql qr rfl
          have hc := fits_chain _ _ _ _ (fits_snprintf [APOS])
            (List.Forall₂.cons aq.after (List.Forall₂.cons bq List.Forall₂.nil))
          have ht : list_text (CONS l (CONS ql qr)) =
              [APOS] ++ list_text ql ++ rest_text qr := by
            rw [list_text, if_neg hp]
          intro mem str len hs hl
          show print_list_notation mem str len (CONS l (CONS ql qr)) = _
          rw [print_list_cons_quote l ql qr (by simpa using hp), ht]
          rw [ht] at hl
          have := hc mem str len hs (by simpa using hl)
          simpa using this
    · have hc := fits_after_chain _ _
        (List.Forall₂.cons (fits_snprintf " ".toList).after
          (List.Forall₂.cons al.after (List.Forall₂.cons br List.Forall₂.nil)))
      intro m0 base pre len hb hl
      show print_list_notation_rest _ _ _ (CONS l r) = _
      rw [print_list_rest_cons]
      have := hc m0 base pre len hb (by simpa [rest_text] using hl)
      simpa [rest_text] using this

/-! ## The reader -/

theorem parse_succ (n : Nat) (iter_ref : List Char) :
    parse (n + 1) iter_ref =
      if peek (parse_ws iter_ref) = NUL then some (none, parse_ws iter_ref)
      else if peek (parse_ws iter_ref) = APOS then parse_quote n (parse_ws iter_ref)
      else if peek (parse_ws iter_ref) = '(' then parse_list n (parse_ws iter_ref)
      else some (parse_atom (parse_ws iter_ref)) := by
  rw [parse]

theorem parse_quote_succ (n : Nat) (p : List Char) :
    parse_quote (n + 1) p =
      match parse n p.tail with
      | none => none
      | some (none, q) => some (none, q)
      | some (some e, q) => some (some (cons ATOM_QUOTE (cons e ATOM_NIL)), q) := by
  rw [parse_quote]

theorem parse_cons_succ (n : Nat) (p : List Char) :
    parse_cons (n + 1) p =
      match parse n p.tail with
      | none => none
      | some (none, q) => some (none, q)
      | some (some a, q) =>
        match parse n q with
        | none => none
        | some (_, q1) =>
          match parse n q1 with
          | none => none
          | some (none, q2) => some (none, q2)
          | some (some t, q2) => close_paren (cons a t) (parse_ws q2) := by
  rw [parse_cons]

theorem parse_list_elem_succ (n : Nat) (p : List Char) :
    parse_list_elem (n + 1) p =
      match parse n p with
      | none => none
      | some (none, q) => some (none, q)
      | some (some t, q) =>
        if c_bool (eq ATOM_DOT t) then some (some t, q)
        else
          if peek (parse_ws q) = ')' then some (some (cons t ATOM_NIL), parse_ws q)
          else
            match parse_list_elem n (parse_ws q) with
            | none => none
            | some (none, q2) => some (none, q2)
            | some (some r, q2) =>
              if c_bool (eq ATOM_DOT r) then some (some r, q2)
              else some (some (cons t r), q2) := by
  rw [parse_list_elem]

theorem parse_list_succ (n : Nat) (p : List Char) :
    parse_list (n + 1) p =
      if peek (parse_ws p.tail) ≠ ')' then
        match parse_list_elem n (parse_ws p.tail) with
        | none => none
        | some (none, q) => some (none, q)
        | some (some r, q) =>
          if c_bool (eq ATOM_DOT r) then parse_cons n p
          else close_paren r (parse_ws q)
      else close_paren ATOM_NIL (parse_ws p.tail) := by
  rw [parse_list]

theorem parse_ws_of_not_ws (c : Char) (cs : List Char) (h : is_ws c = false) :
    parse_ws (c :: cs) = c :: cs := by
  simp [parse_ws, h]

theorem parse_ws_space (cs : List Char) : parse_ws (' ' :: cs) = parse_ws cs := by
  simp [parse_ws, is_ws]

theorem parse_space (n : Nat) (p : List Char) : parse n (' ' :: p) = parse n p := by
  cases n with
  | zero => simp [parse]
  | succ n => rw [parse_succ, parse_succ, parse_ws_space]

theorem skip_symbol_append (a rest : List Char) (ha : ∀ c ∈ a, is_delim c = false)
    (hr : at_delim rest = true) : skip_symbol (a ++ rest) = rest := by
  induction a with
  | nil =>
    cases rest with
    | nil => rfl
    | cons c cs =>
      have : is_delim c = true := by simpa [at_delim, peek] using hr
      simp [skip_symbol, this]
  | cons c cs ih =>
    have hc : is_delim c = false := ha c (List.mem_cons_self _ _)
    simp only [List.cons_append, skip_symbol, hc]
    exact ih fun x hx => ha x (List.mem_cons_of_mem _ hx)

theorem is_delim_NUL : is_delim NUL = true := by decide

theorem symbol_append (a rest : List Char) (ha : ∀ c ∈ a, is_delim c = false) :
    symbol (a ++ rest) a.length = ATOM a := by
  have h1 : List.take a.length (a ++ rest) = a := by simp
  have h2 : a.takeWhile (fun c => c != NUL) = a := by
    rw [List.takeWhile_eq_self_iff]
    intro c hc
    have := ha c hc
    simp only [bne_iff_ne, ne_eq]
    rintro rfl
    rw [is_delim_NUL] at this
    cases this
  rw [symbol, h1, h2]

theorem parse_atom_append (a rest : List Char) (hne : a ≠ [])
    (ha : ∀ c ∈ a, is_delim c = false) (hr : at_delim rest = true) :
    parse_atom (a ++ rest) = (some (ATOM a), rest) := by
  have hlen : (a ++ rest).length - rest.length = a.length := by simp
  have hpos : a.length ≠ 0 := by simpa using hne
  simp only [parse_atom, skip_symbol_append a rest ha hr, hlen, hpos, if_false,
    symbol_append a rest ha]

/-- A symbol that does not start with an apostrophe is read whole. -/
theorem parse_symbol (n : Nat) (c : Char) (cs rest : List Char)
    (ha : ∀ x ∈ c :: cs, is_delim x = false) (hq : c ≠ APOS) (hr : at_delim rest = true) :
    parse (n + 1) (c :: cs ++ rest) = some (some (ATOM (c :: cs)), rest) := by
  have hc : is_delim c = false := ha c (List.mem_cons_self _ _)
  have hws : is_ws c = false := by
    simp only [is_delim, Bool.or_eq_false_iff] at hc
    exact hc.1.1.1
  have h0 : c ≠ NUL := by rintro rfl; rw [is_delim_NUL] at hc; cases hc
  have hp : c ≠ '(' := by rintro rfl; revert hc; decide
  rw [parse_succ, List.cons_append, parse_ws_of_not_ws c _ hws]
  simp only [peek, List.headD_cons, h0, hq, hp, if_false]
  rw [← List.cons_append, parse_atom_append (c :: cs) rest (by simp) ha hr]

/-- Whether a non-empty text starts with a delimiter is decided by its first
character. -/
theorem at_delim_cons (c : Char) (q : List Char) : at_delim (c :: q) = is_delim c := rfl

theorem parse_dot_token (n : Nat) (q : List Char) :
    parse (n + 1) ('.' :: ' ' :: q) = some (some ATOM_DOT, ' ' :: q) := by
  have h := parse_symbol n '.' [] (' ' :: q) (by decide) (by decide) (by rw [at_delim_cons]; decide)
  simpa [ATOM_DOT] using h

theorem parse_list_elem_dot_token (n : Nat) (q : List Char) :
    parse_list_elem (n + 2) ('.' :: ' ' :: q) = some (some ATOM_DOT, ' ' :: q) := by
  rw [parse_list_elem_succ, parse_dot_token]
  simp [ATOM_DOT]

/-- The reader on `(A . B)`: when `A` is read from `ta` and `B` from `tb`,
the pair is read from the parenthesised text. -/
theorem parse_dotted (ta tb : List Char) (a b : sexp) (c : Char) (cs : List Char)
    (hta : ta = c :: cs) (hws : is_ws c = false) (hcl : c ≠ ')')
    (hdot : c_bool (eq ATOM_DOT a) = false) (na nb : Nat)
    (ha : ∀ n, na ≤ n → ∀ rest, at_delim rest = true → parse n (ta ++ rest) = some (some a, rest))
    (hb : ∀ n, nb ≤ n → ∀ rest, at_delim rest = true → parse n (tb ++ rest) = some (some b, rest))
    (n : Nat) (hn : max na nb + 5 ≤ n) (rest : List Char) :
    parse n ('(' :: (ta ++ ' ' :: '.' :: ' ' :: (tb ++ ')' :: rest))) =
      some (some (CONS a b), rest) := by
  obtain ⟨k, rfl⟩ : ∃ k, n = k + 5 := ⟨n - 5, by omega⟩
  have hk : na ≤ k + 2 ∧ nb ≤ k + 2 := by omega
  have e1 : parse (k + 2) (ta ++ ' ' :: '.' :: ' ' :: (tb ++ ')' :: rest)) =
      some (some a, ' ' :: '.' :: ' ' :: (tb ++ ')' :: rest)) :=
    ha _ hk.1 _ (by rw [at_delim_cons]; decide)
  have e2 : parse (k + 2) (tb ++ ')' :: rest) = some (some b, ')' :: rest) :=
    hb _ hk.2 _ (by rw [at_delim_cons]; decide)
  have w1 : parse_ws (ta ++ ' ' :: '.' :: ' ' :: (tb ++ ')' :: rest)) =
      ta ++ ' ' :: '.' :: ' ' :: (tb ++ ')' :: rest) := by
    rw [hta, List.cons_append, parse_ws_of_not_ws c _ hws]
  have p1 : peek (ta ++ ' ' :: '.' :: ' ' :: (tb ++ ')' :: rest)) ≠ ')' := by
    rw [hta]; simpa [peek] using hcl
  have w2 : parse_ws (' ' :: '.' :: ' ' :: (tb ++ ')' :: rest)) =
      '.' :: ' ' :: (tb ++ ')' :: rest) := by
    rw [parse_ws_space, parse_ws_of_not_ws _ _ (by decide)]
  have w3 : parse_ws (')' :: rest) = ')' :: rest := parse_ws_of_not_ws _ _ (by decide)
  have el : parse_list_elem (k + 3) (ta ++ ' ' :: '.' :: ' ' :: (tb ++ ')' :: rest)) =
      some (some ATOM_DOT, ' ' :: (tb ++ ')' :: rest)) := by
    rw [parse_list_elem_succ, e1]
    simp only [hdot, w2]
    rw [parse_list_elem_dot_token]
    simp [peek, ATOM_DOT]
  have ec : parse_cons (k + 3) ('(' :: (ta ++ ' ' :: '.' :: ' ' :: (tb ++ ')' :: rest))) =
      some (some (CONS a b), rest) := by
    rw [parse_cons_succ, List.tail_cons, e1]
    simp only []
    rw [parse_space, parse_dot_token]
    simp only []
    rw [parse_space, e2]
    simp [w3, close_paren, peek, cons]
  rw [parse_succ, parse_ws_of_not_ws _ _ (by decide)]
  simp only [peek, List.headD_cons]
  rw [if_neg (by decide), if_neg (by decide), if_pos trivial, parse_list_succ, List.tail_cons, w1,
    if_pos p1, el]
  simp only []
  rw [if_pos (by decide), ec]

/-- A result obtained with some fuel is also the result with more fuel. -/
theorem parse_fuel_succ (n : Nat) :
    (∀ p r, parse n p = some r → parse (n + 1) p = some r) ∧
    (∀ p r, parse_quote n p = some r → parse_quote (n + 1) p = some r) ∧
    (∀ p r, parse_cons n p = some r → parse_cons (n + 1) p = some r) ∧
    (∀ p r, parse_list_elem n p = some r → parse_list_elem (n + 1) p = some r) ∧
    (∀ p r, parse_list n p = some r → parse_list (n + 1) p = some r) := by
  induction n with
  | zero =>
    refine ⟨fun p r h => ?_, fun p r h => ?_, fun p r h => ?_, fun p r h => ?_, fun p r h => ?_⟩
    · rw [parse] at h; cases h
    · rw [parse_quote] at h; cases h
    · rw [parse_cons] at h; cases h
    · rw [parse_list_elem] at h; cases h
    · rw [parse_list] at h; cases h
  | succ n ih =>
    obtain ⟨ihp, ihq, ihc, ihe, ihl⟩ := ih
    refine ⟨fun p r h => ?_, fun p r h => ?_, fun p r h => ?_, fun p r h => ?_, fun p r h => ?_⟩
    · rw [parse_succ] at h ⊢
      split_ifs at h ⊢
      · exact h
      · exact ihq _ _ h
      · exact ihl _ _ h
      · exact h
    · rw [parse_quote_succ] at h ⊢
      cases h1 : parse n p.tail with
      | none => rw [h1] at h; cases h
      | some x => rw [h1] at h; rw [ihp _ _ h1]; exact h
    · rw [parse_cons_succ] at h ⊢
      cases h1 : parse n p.tail with
      | none => rw [h1] at h; cases h
      | some x =>
        rw [h1] at h; rw [ihp _ _ h1]
        rcases x with ⟨_ | a, q⟩
        · exact h
        · simp only [] at h ⊢
          cases h2 : parse n q with
          | none => rw [h2] at h; cases h
          | some y =>
            rw [h2] at h; rw [ihp _ _ h2]
            simp only [] at h ⊢
            cases h3 : parse n y.2 with
            | none => rw [h3] at h; cases h
            | some z => rw [h3] at h; rw [ihp _ _ h3]; exact h
    · rw [parse_list_elem_succ] at h ⊢
      cases h1 : parse n p with
      | none => rw [h1] at h; cases h
      | some x =>
        rw [h1] at h; rw [ihp _ _ h1]
        rcases x with ⟨_ | t, q⟩
        · exact h
        · simp only [] at h ⊢
          split_ifs at h ⊢
          · exact h
          · exact h
          · cases h2 : parse_list_elem n (parse_ws q) with
            | none => rw [h2] at h; cases h
            | some y => rw [h2] at h; rw [ihe _ _ h2]; exact h
    · rw [parse_list_succ] at h ⊢
      split_ifs at h ⊢
      · cases h1 : parse_list_elem n (parse_ws p.tail) with
        | none => rw [h1] at h; cases h
        | some x =>
          rw [h1] at h; rw [ihe _ _ h1]
          rcases x with ⟨_ | t, q⟩
          · exact h
          · simp only [] at h ⊢
            split_ifs at h ⊢
            · exact ihc _ _ h
            · exact h
      · exact h

theorem parse_fuel_le {n m : Nat} (h : n ≤ m) (p : List Char) (r : Option sexp × List Char)
    (hr : parse n p = some r) : parse m p = some r := by
  induction h with
  | refl => exact hr
  | step _ ih => exact (parse_fuel_succ _).1 p r ih

theorem wf_atom_spec (a : List Char) (h : wf_atom a = true) :
    ∃ c cs, a = c :: cs ∧ (∀ x ∈ c :: cs, is_delim x = false) ∧ c ≠ APOS ∧
      a ≠ ".".toList := by
  cases a with
  | nil => simp [wf_atom] at h
  | cons c cs =>
    simp only [wf_atom, List.isEmpty_cons, Bool.not_false, Bool.true_and, Bool.and_eq_true,
      List.all_eq_true, Bool.not_eq_true', bne_iff_ne, ne_eq] at h
    obtain ⟨hall, hdot⟩ := h
    exact ⟨c, cs, rfl, fun x hx => (hall x hx).1, (hall c (List.mem_cons_self _ _)).2, hdot⟩

theorem is_ws_of_not_delim (c : Char) (h : is_delim c = false) : is_ws c = false := by
  simp only [is_delim, Bool.or_eq_false_iff] at h
  exact h.1.1.1

theorem not_close_of_not_delim (c : Char) (h : is_delim c = false) : c ≠ ')' := by
  rintro rfl
  revert h
  decide

/-- A well-formed atom is read whole when a delimiter follows it. -/
theorem parse_wf_atom (a : List Char) (h : wf_atom a = true) (n : Nat) (rest : List Char)
    (hr : at_delim rest = true) : parse (n + 1) (a ++ rest) = some (some (ATOM a), rest) := by
  obtain ⟨c, cs, rfl, hall, hq, _⟩ := wf_atom_spec a h
  exact parse_symbol n c cs rest hall hq hr

theorem not_dot_of_wf_atom (a : List Char) (h : wf_atom a = true) :
    c_bool (eq ATOM_DOT (ATOM a)) = false := by
  obtain ⟨_, _, _, _, _, hd⟩ := wf_atom_spec a h
  simp only [ATOM_DOT, c_bool_eq_atoms, decide_eq_false_iff_not]
  exact fun e => hd e.symm

theorem dot_text_start (v : sexp) (h : wf v = true) :
    ∃ c cs, dot_text v = c :: cs ∧ is_ws c = false ∧ c ≠ ')' := by
  cases v with
  | ATOM a =>
    obtain ⟨c, cs, rfl, hall, _, _⟩ := wf_atom_spec a h
    have hc := hall c (List.mem_cons_self _ _)
    exact ⟨c, cs, rfl, is_ws_of_not_delim c hc, not_close_of_not_delim c hc⟩
  | CONS l r => exact ⟨'(', _, rfl, by decide, by decide⟩

/-- The reader on dot notation: the text of `v`, followed by a delimiter or
the end of the text, is read as `v`, and the cursor stops right after it. -/
theorem parse_dot_text (v : sexp) (h : wf v = true) :
    ∃ N, ∀ n, N ≤ n → ∀ rest, at_delim rest = true →
      parse n (dot_text v ++ rest) = some (some v, rest) := by
  induction v with
  | ATOM a =>
    refine ⟨1, fun n hn rest hr => ?_⟩
    obtain ⟨k, rfl⟩ : ∃ k, n = k + 1 := ⟨n - 1, by omega⟩
    exact parse_wf_atom a h k rest hr
  | CONS l r ihl ihr =>
    simp only [wf, Bool.and_eq_true] at h
    obtain ⟨nl, hl⟩ := ihl h.1
    obtain ⟨nr, hr⟩ := ihr h.2
    obtain ⟨c, cs, hc, hws, hcl⟩ := dot_text_start l h.1
    have hdot : c_bool (eq ATOM_DOT l) = false := by
      cases l with
      | ATOM a => exact not_dot_of_wf_atom a h.1
      | CONS _ _ => simp
    refine ⟨max nl nr + 5, fun n hn rest _ => ?_⟩
    have := parse_dotted (dot_text l) (dot_text r) l r c cs hc hws hcl hdot nl nr hl hr n hn rest
    simpa [dot_text] using this

theorem equal_self (v : sexp) : equal v v = ATOM_T := by
  induction v with
  | ATOM a => simp [equal, eq]
  | CONS l r ihl ihr => simp [equal, ihl, ihr, c_bool, ATOM_T]

theorem store_zero (mem data : List Char) :
    store mem 0 data = data ++ mem.drop data.length := by
  simp [store]

/-- C1 (dot-notation round trip).  Let `v` have well-formed atoms and let
the capacity `len` of a buffer at the start of `mem` exceed the length of the
dot-notation text of `v`.  Then `parse`, given enough fuel and applied to the
buffer that `print_dot_notation` has filled, returns an expression `w` with
`equal(w, v) = t` (indeed `w` is `v`), and leaves the cursor at the
terminating NUL. -/
theorem c1_dot_round_trip (v : sexp) (hv : wf v = true) (mem : List Char) (len : Nat)
    (_hcap : len ≤ mem.length) (hfit : (dot_text v).length < len) :
    ∃ N, ∀ n, N ≤ n → ∃ w q,
      parse n ( print_dot_notation mem 0 len v).2 = some (some w, q) ∧
      equal w v = ATOM_T ∧ w = v ∧ peek q = NUL := by
  obtain ⟨N, hN⟩ := parse_dot_text v hv
  refine ⟨N, fun n hn => ⟨v, NUL :: mem.drop ((dot_text v).length + 1), ?_, equal_self v, rfl, rfl⟩⟩
  have hp := print_dot_fits v mem 0 len (Nat.zero_le _) hfit
  simp only [] at hp
  rw [hp, store_zero]
  have := hN n hn (NUL :: mem.drop ((dot_text v).length + 1)) (by rw [at_delim_cons]; decide)
  simpa using this

/-- Witness for C1: `(a . (b . nil))` printed into a buffer of 20 characters. -/
theorem c1_dot_round_trip_witness :
    ∃ N, ∀ n, N ≤ n → ∃ w q,
      parse n ( print_dot_notation (List.replicate 20 'X') 0 20
        (CONS (ATOM "a".toList) (CONS (ATOM "b".toList) ATOM_NIL))).2 = some (some w, q) ∧
      equal w (CONS (ATOM "a".toList) (CONS (ATOM "b".toList) ATOM_NIL)) = ATOM_T ∧
      w = CONS (ATOM "a".toList) (CONS (ATOM "b".toList) ATOM_NIL) ∧ peek q = NUL :=
  c1_dot_round_trip (CONS (ATOM "a".toList) (CONS (ATOM "b".toList) ATOM_NIL)) (by decide)
    (List.replicate 20 'X') 20 (by decide) (by decide)

theorem eq_of_c_bool_eq (a : List Char) (x : sexp) (h : c_bool (eq (ATOM a) x) = true) :
    x = ATOM a := by
  cases x with
  | ATOM b => simp at h; rw [h]
  | CONS l r => simp at h

theorem eq_of_c_bool_eq_right (a : List Char) (x : sexp) (h : c_bool (eq x (ATOM a)) = true) :
    x = ATOM a := by
  cases x with
  | ATOM b => simp at h; rw [h]
  | CONS l r => simp at h

theorem parens_false (l r : sexp) (h : parens l r = false) :
    l = ATOM_QUOTE ∧ ∃ ql qr, r = CONS ql qr := by
  cases r with
  | ATOM a => simp [parens] at h
  | CONS ql qr =>
    simp only [parens, c_bool_atom_cons, Bool.and_false, Bool.or_false, Bool.not_eq_false'] at h
    exact ⟨eq_of_c_bool_eq _ _ h, ql, qr, rfl⟩

theorem list_text_cons_parens (l r : sexp) (h : parens l r = true) :
    list_text (CONS l r) = '(' :: (list_text l ++ (rest_text r ++ [')'])) := by
  cases r with
  | ATOM a => simp [list_text]
  | CONS ql qr => simp [list_text, h]

theorem parens_atom (l : sexp) (a : List Char) : parens l (ATOM a) = true := by
  simp [parens]

theorem list_text_start (v : sexp) (h : readable v = true) :
    ∃ c cs, list_text v = c :: cs ∧ is_ws c = false ∧ c ≠ ')' := by
  cases v with
  | ATOM a =>
    obtain ⟨c, cs, rfl, hall, _, _⟩ := wf_atom_spec a h
    have hc := hall c (List.mem_cons_self _ _)
    exact ⟨c, cs, rfl, is_ws_of_not_delim c hc, not_close_of_not_delim c hc⟩
  | CONS l r =>
    by_cases hp : parens l r = true
    · exact ⟨'(', _, list_text_cons_parens l r hp, by decide, by decide⟩
    · obtain ⟨_, ql, qr, rfl⟩ := parens_false l r (by simpa using hp)
      exact ⟨APOS, list_text ql ++ rest_text qr, by simp [list_text, hp], by decide, by decide⟩

theorem not_dot_of_readable (v : sexp) (h : readable v = true) :
    c_bool (eq ATOM_DOT v) = false := by
  cases v with
  | ATOM a => exact not_dot_of_wf_atom a h
  | CONS _ _ => simp

theorem rest_text_at_delim (d : sexp) (rest : List Char) :
    at_delim (rest_text d ++ ')' :: rest) = true := by
  cases d with
  | ATOM a =>
    by_cases h : c_bool (eq (ATOM a) ATOM_NIL) = true
    · simp only [rest_text, h, if_true, List.nil_append, at_delim_cons]; decide
    · simp only [rest_text, h]; rfl
  | CONS l r => simp only [rest_text]; rfl

/-- The reader on a parenthesised text whose elements `parse_list_elem`
reads as the list `r`. -/
theorem parse_list_of_elems (n : Nat) (x rest : List Char) (r : sexp) (c : Char) (cs : List Char)
    (hx : x = c :: cs) (hws : is_ws c = false) (hcl : c ≠ ')')
    (hr : c_bool (eq ATOM_DOT r) = false)
    (he : parse_list_elem n x = some (some r, ')' :: rest)) :
    parse (n + 2) ('(' :: x) = some (some r, rest) := by
  have w1 : parse_ws x = x := by rw [hx, parse_ws_of_not_ws c _ hws]
  have p1 : peek x ≠ ')' := by rw [hx]; simpa [peek] using hcl
  have w3 : parse_ws (')' :: rest) = ')' :: rest := parse_ws_of_not_ws _ _ (by decide)
  rw [parse_succ, parse_ws_of_not_ws _ _ (by decide)]
  simp only [peek, List.headD_cons]
  rw [if_neg (by decide), if_neg (by decide), if_pos trivial, parse_list_succ, List.tail_cons, w1,
    if_pos p1, he]
  simp only [hr, w3]
  simp [close_paren, peek]

/-- The reader on the quote shorthand. -/
theorem parse_apostrophe (n : Nat) (x rest : List Char) (e : sexp)
    (he : parse n (x ++ rest) = some (some e, rest)) :
    parse (n + 2) (APOS :: (x ++ rest)) = some (some (CONS ATOM_QUOTE (CONS e ATOM_NIL)), rest) := by
  rw [parse_succ, parse_ws_of_not_ws _ _ (by decide)]
  simp only [peek, List.headD_cons]
  rw [if_neg (by decide), if_pos trivial, parse_quote_succ, List.tail_cons, he]
  simp [cons]

/-- The reader on list notation.  For a readable `v` the text of `v` is
read as `v`; for a readable tail `v`, `parse_list_elem` continues from an
element `t` already read to the list `(t . v)`; and the same holds for the
first component of a pair. -/
theorem parse_list_text (v : sexp) :
    (readable v = true → ∃ N, ∀ n, N ≤ n → ∀ rest, at_delim rest = true →
      parse n (list_text v ++ rest) = some (some v, rest)) ∧
    (tail_readable v = true → ∃ N, ∀ n, N ≤ n → ∀ t p rest,
      c_bool (eq ATOM_DOT t) = false →
      parse n p = some (some t, rest_text v ++ ')' :: rest) →
      parse_list_elem (n + 1) p = some (some (CONS t v), ')' :: rest)) ∧
    (∀ x y, v = CONS x y → readable x = true → ∃ N, ∀ n, N ≤ n → ∀ rest,
      at_delim rest = true → parse n (list_text x ++ rest) = some (some x, rest)) := by
  induction v with
  | ATOM a =>
    refine ⟨fun h => ⟨1, fun n hn rest hr => ?_⟩, fun h => ⟨0, fun n _ t p rest ht hp => ?_⟩,
      fun x y e => by cases e⟩
    · obtain ⟨k, rfl⟩ : ∃ k, n = k + 1 := ⟨n - 1, by omega⟩
      exact parse_wf_atom a h k rest hr
    · have ha : ATOM a = ATOM_NIL := eq_of_c_bool_eq_right _ _ h
      have hrt : rest_text (ATOM a) = [] := by simp [rest_text, tail_readable] at h ⊢; exact h
      rw [hrt, List.nil_append] at hp
      rw [parse_list_elem_succ, hp]
      simp only [ht, parse_ws_of_not_ws ')' rest (by decide)]
      simp [peek, cons, ha]
  | CONS l d ihl ihd =>
    obtain ⟨al, _, _⟩ := ihl
    obtain ⟨ad, bd, cd⟩ := ihd
    refine ⟨fun h => ?_, fun h => ?_, fun x y e hx => by cases e; exact al hx⟩
    · -- the text of a pair
      by_cases hp : parens l d = true
      · have hl : readable l = true := by
          cases d with
          | ATOM a => simp only [readable, Bool.and_eq_true] at h; exact h.1
          | CONS ql qr => simp only [readable, hp, if_true, Bool.and_eq_true] at h; exact h.1
        obtain ⟨nl, hnl⟩ := al hl
        obtain ⟨c, cs, hc, hws, hcl⟩ := list_text_start l hl
        by_cases ht : tail_readable d = true
        · -- a proper list
          obtain ⟨nd, hnd⟩ := bd ht
          refine ⟨max nl nd + 3, fun n hn rest _ => ?_⟩
          obtain ⟨k, rfl⟩ : ∃ k, n = k + 3 := ⟨n - 3, by omega⟩
          have e1 := hnl k (by omega) (rest_text d ++ ')' :: rest) (rest_text_at_delim d rest)
          have e2 := hnd k (by omega) l _ rest (not_dot_of_readable l hl) e1
          have := parse_list_of_elems (k + 1) _ rest (CONS l d) c
            (cs ++ (rest_text d ++ ')' :: rest)) (by rw [hc]; rfl) hws hcl (by simp) e2
          rw [list_text_cons_parens l d hp]
          simpa using this
        · -- a pair with an atom as rest
          cases d with
          | CONS ql qr =>
            simp only [readable, hp, if_true, Bool.and_eq_true] at h
            simp only [tail_readable, Bool.and_eq_true] at ht
            exact absurd h.2 ht
          | ATOM a =>
            simp only [readable, Bool.and_eq_true] at h
            obtain ⟨na, hna⟩ := ad h.2
            have hnil : c_bool (eq (ATOM a) ATOM_NIL) = false := by
              simpa [tail_readable] using ht
            refine ⟨max nl na + 5, fun n hn rest _ => ?_⟩
            have := parse_dotted (list_text l) a l (ATOM a) c cs hc hws hcl
              (not_dot_of_readable l hl) nl na hnl hna n hn rest
            rw [list_text_cons_parens l (ATOM a) hp]
            simpa [rest_text, hnil] using this
      · -- the quote shorthand
        obtain ⟨rfl, ql, qr, rfl⟩ := parens_false l d (by simpa using hp)
        have hp2 : parens ATOM_QUOTE (CONS ql qr) = false := by simpa using hp
        simp only [readable, hp2, Bool.false_eq_true, if_false, Bool.and_eq_true] at h
        have hq : qr = ATOM_NIL := eq_of_c_bool_eq_right _ _ h.2
        subst hq
        obtain ⟨nq, hnq⟩ := cd ql ATOM_NIL rfl h.1
        refine ⟨nq + 2, fun n hn rest hr => ?_⟩
        obtain ⟨k, rfl⟩ : ∃ k, n = k + 2 := ⟨n - 2, by omega⟩
        have := parse_apostrophe k (list_text ql) rest ql (hnq k (by omega) rest hr)
        simpa [list_text, hp2, rest_text, ATOM_NIL] using this
    · -- continuing a list
      simp only [tail_readable, Bool.and_eq_true] at h
      obtain ⟨nl, hnl⟩ := al h.1
      obtain ⟨nd, hnd⟩ := bd h.2
      obtain ⟨c, cs, hc, hws, hcl⟩ := list_text_start l h.1
      refine ⟨max nl nd + 1, fun n hn t p rest ht hp => ?_⟩
      obtain ⟨k, rfl⟩ : ∃ k, n = k + 1 := ⟨n - 1, by omega⟩
      have e1 := hnl k (by omega) (rest_text d ++ ')' :: rest) (rest_text_at_delim d rest)
      have e2 := hnd k (by omega) l _ rest (not_dot_of_readable l h.1) e1
      have w : parse_ws (rest_text (CONS l d) ++ ')' :: rest) =
          list_text l ++ (rest_text d ++ ')' :: rest) := by
        simp only [rest_text, String.toList, List.append_assoc, List.cons_append,
          List.nil_append, parse_ws_space]
        rw [hc, List.cons_append, parse_ws_of_not_ws c _ hws]
      have pk : peek (list_text l ++ (rest_text d ++ ')' :: rest)) ≠ ')' := by
        rw [hc]; simpa [peek] using hcl
      rw [parse_list_elem_succ, hp]
      simp only [ht, w, pk, e2]
      simp [cons]

/-- Readable expressions have well-formed atoms only. -/
theorem wf_of_readable (v : sexp) :
    (readable v = true → wf v = true) ∧ (tail_readable v = true → wf v = true) ∧
    (∀ x y, v = CONS x y → readable x = true → wf x = true) := by
  induction v with
  | ATOM a =>
    refine ⟨fun h => h, fun h => ?_, fun x y e => by cases e⟩
    rw [eq_of_c_bool_eq_right _ _ h]
    decide
  | CONS l d ihl ihd =>
    obtain ⟨al, _, _⟩ := ihl
    obtain ⟨ad, bd, cd⟩ := ihd
    refine ⟨fun h => ?_, fun h => ?_, fun x y e hx => by cases e; exact al hx⟩
    · by_cases hp : parens l d = true
      · cases d with
        | ATOM a =>
          simp only [readable, Bool.and_eq_true] at h
          simp only [wf, Bool.and_eq_true]
          exact ⟨al h.1, h.2⟩
        | CONS ql qr =>
          simp only [readable, hp, if_true, Bool.and_eq_true] at h
          simp only [wf, Bool.and_eq_true]
          have := bd (by simp only [tail_readable, Bool.and_eq_true]; exact h.2)
          simp only [wf, Bool.and_eq_true] at this
          exact ⟨al h.1, this⟩
      · obtain ⟨rfl, ql, qr, rfl⟩ := parens_false l d (by simpa using hp)
        have hp2 : parens ATOM_QUOTE (CONS ql qr) = false := by simpa using hp
        simp only [readable, hp2, Bool.false_eq_true, if_false, Bool.and_eq_true] at h
        have hq : qr = ATOM_NIL := eq_of_c_bool_eq_right _ _ h.2
        subst hq
        have h1 := cd ql ATOM_NIL rfl h.1
        simp only [wf, Bool.and_eq_true]
        exact ⟨by decide, h1, by decide⟩
    · simp only [tail_readable, Bool.and_eq_true] at h
      simp only [wf, Bool.and_eq_true]
      exact ⟨al h.1, bd h.2⟩

/-- C2 as stated fails: `(a . (b . c))` has well-formed atoms and is
printed as `(a b . c)`, which the reader reads as the pair of `a` and the
dot token, stopping before `c`. -/
theorem c2_counterexample :
    ¬ (∀ (v : sexp) (mem : List Char) (len : Nat), wf v = true → len ≤ mem.length →
        (list_text v).length < len →
        ∃ N, ∀ n, N ≤ n → ∃ w q,
          parse n ( print_list_notation mem 0 len v).2 = some (some w, q) ∧
          equal w v = ATOM_T) := by
  intro h
  obtain ⟨N, hN⟩ := h (CONS (ATOM "a".toList) (CONS (ATOM "b".toList) (ATOM "c".toList)))
    (List.replicate 12 'X') 12 (by decide) (by decide) (by decide)
  obtain ⟨w, q, hw, he⟩ := hN (max N 8) (Nat.le_max_left _ _)
  have h8 : parse 8 ( print_list_notation (List.replicate 12 'X') 0 12
      (CONS (ATOM "a".toList) (CONS (ATOM "b".toList) (ATOM "c".toList)))).2 =
      some (some (CONS (ATOM "a".toList) ATOM_DOT), "c)".toList ++ [NUL, 'X', 'X']) := by
    decide
  rw [parse_fuel_le (Nat.le_max_right N 8) _ _ h8] at hw
  simp only [Option.some.injEq, Prod.mk.injEq] at hw
  rw [← hw.1] at he
  revert he
  decide

/-- The quote form with two operands `(quote a b)` is printed as the
shorthand of `a` followed by ` b`; the reader returns `(quote a)` and stops
before ` b`. -/
theorem quote_form_not_read_back :
    parse 8 ( print_list_notation (List.replicate 8 'X') 0 8
      (list_of [ATOM_QUOTE, ATOM "a".toList, ATOM "b".toList])).2 =
      some (some (list_of [ATOM_QUOTE, ATOM "a".toList]), " b".toList ++ [NUL, 'X', 'X', 'X']) := by
  decide

/-- C2 (list-notation round trip), amended.  Let `v` be readable: its atoms
are well-formed, every pair whose first is the atom quote and whose rest is
a pair is a two-element list `(quote X)`, and every other pair has an atom
or a proper list as its rest (recursively for `X`, first components and
list elements).  Let the capacity `len` exceed the length of the
list-notation text of `v`.  Then `parse`, given enough fuel and applied to
the buffer that `print_list_notation` has filled, returns an expression `w`
with `equal(w, v) = t` (indeed `w` is `v`), and leaves the cursor at the
terminating NUL. -/
theorem c2_list_round_trip (v : sexp) (hv : readable v = true) (mem : List Char) (len : Nat)
    (_hcap : len ≤ mem.length) (hfit : (list_text v).length < len) :
    ∃ N, ∀ n, N ≤ n → ∃ w q,
      parse n ( print_list_notation mem 0 len v).2 = some (some w, q) ∧
      equal w v = ATOM_T ∧ w = v ∧ peek q = NUL := by
  obtain ⟨N, hN⟩ := (parse_list_text v).1 hv
  refine ⟨N, fun n hn => ⟨v, NUL :: mem.drop ((list_text v).length + 1), ?_, equal_self v, rfl, rfl⟩⟩
  have hp := (print_list_fits v).1 mem 0 len (Nat.zero_le _) hfit
  simp only [] at hp
  rw [hp, store_zero]
  have := hN n hn (NUL :: mem.drop ((list_text v).length + 1)) (by rw [at_delim_cons]; decide)
  simpa using this

/-- Witness for C2: the expression of the repository's printer test,
`(cond ((eq 'x 'z) 'first) ((atom 'a) 'second))`, in a buffer of 60
characters. -/
theorem c2_list_round_trip_witness :
    ∃ N, ∀ n, N ≤ n → ∃ w q,
      parse n ( print_list_notation (List.replicate 60 'X') 0 60
        (cond_form
          [(list_of [ATOM_EQ, list_of [ATOM_QUOTE, ATOM "x".toList],
              list_of [ATOM_QUOTE, ATOM "z".toList]], list_of [ATOM_QUOTE, ATOM "first".toList]),
           (list_of [ATOM_ATOM, list_of [ATOM_QUOTE, ATOM "a".toList]],
              list_of [ATOM_QUOTE, ATOM "second".toList])])).2 = some (some w, q) ∧
      equal w (cond_form
          [(list_of [ATOM_EQ, list_of [ATOM_QUOTE, ATOM "x".toList],
              list_of [ATOM_QUOTE, ATOM "z".toList]], list_of [ATOM_QUOTE, ATOM "first".toList]),
           (list_of [ATOM_ATOM, list_of [ATOM_QUOTE, ATOM "a".toList]],
              list_of [ATOM_QUOTE, ATOM "second".toList])]) = ATOM_T ∧
      w = cond_form
          [(list_of [ATOM_EQ, list_of [ATOM_QUOTE, ATOM "x".toList],
              list_of [ATOM_QUOTE, ATOM "z".toList]], list_of [ATOM_QUOTE, ATOM "first".toList]),
           (list_of [ATOM_ATOM, list_of [ATOM_QUOTE, ATOM "a".toList]],
              list_of [ATOM_QUOTE, ATOM "second".toList])] ∧ peek q = NUL :=
  c2_list_round_trip _ (by decide) (List.replicate 60 'X') 60 (by decide) (by decide)

/-! ## Utilities: pair, append, eq, equal -/

/-- On proper lists `pair` builds the list of the positional pairs, as long
as both lists last. -/
theorem pair_list_of_zipWith (ks vs : List sexp) :
    pair (list_of ks) (list_of vs) = list_of (List.zipWith CONS ks vs) := by
  induction ks generalizing vs with
  | nil => cases vs <;> simp [list_of, pair, ATOM_NIL]
  | cons k ks ih =>
    cases vs with
    | nil => simp [list_of, pair, ATOM_NIL]
    | cons v vs => simp only [list_of, pair, cons, ih, List.zipWith_cons_cons]

theorem list_of_eq_nil (xs : List sexp) : list_of xs = ATOM_NIL ↔ xs = [] := by
  cases xs with
  | nil => simp [list_of]
  | cons x xs => simp [list_of, ATOM_NIL]

/-- C11 as stated fails: the keys `(a b)` and the values `(1)` have
different lengths, and `pair` returns `((a . 1))`, not nil. -/
theorem c11_counterexample :
    ¬ (∀ ks vs : List sexp, ks.length ≠ vs.length →
        pair (list_of ks) (list_of vs) = ATOM_NIL) := by
  intro h
  have := h [ATOM "a".toList, ATOM "b".toList] [ATOM "1".toList] (by decide)
  revert this
  decide

/-- C11 (pair on lists of different length), amended.  For proper lists of
different lengths `pair` returns the proper list of the pairs
`(k1 . v1) ... (km . vm)` where `m` is the smaller of the two lengths: the
surplus of the longer list is dropped.  The result is nil exactly when one
of the two lists is empty. -/
theorem c11_pair_unequal_lengths (ks vs : List sexp) (_h : ks.length ≠ vs.length) :
    pair (list_of ks) (list_of vs) = list_of (List.zipWith CONS ks vs) ∧
    (List.zipWith CONS ks vs).length = min ks.length vs.length ∧
    (pair (list_of ks) (list_of vs) = ATOM_NIL ↔ ks = [] ∨ vs = []) := by
  refine ⟨pair_list_of_zipWith ks vs, List.length_zipWith _ _ _, ?_⟩
  rw [pair_list_of_zipWith, list_of_eq_nil, List.zipWith_eq_nil_iff]

/-- Witness for C11: two keys and one value give one pair. -/
theorem c11_pair_unequal_lengths_witness :
    pair (list_of [ATOM "a".toList, ATOM "b".toList]) (list_of [ATOM "1".toList]) =
      list_of [CONS (ATOM "a".toList) (ATOM "1".toList)] :=
  (c11_pair_unequal_lengths [ATOM "a".toList, ATOM "b".toList] [ATOM "1".toList]
    (by decide)).1

/-- C12 (pair on lists of equal length).  For proper lists `(k1 ... kn)`
and `(v1 ... vn)` of the same length, `pair` returns the proper list
`((k1 . v1) ... (kn . vn))`: it has length `n`, its entry at every position
`i` is the pair of the key and the value at position `i`, and it is nil for
`n = 0`. -/
theorem c12_pair_equal_lengths (ks vs : List sexp) (h : ks.length = vs.length) :
    pair (list_of ks) (list_of vs) = list_of (List.zipWith CONS ks vs) ∧
    (List.zipWith CONS ks vs).length = ks.length ∧
    (∀ (i : Nat) (k v : sexp), ks[i]? = some k → vs[i]? = some v →
      (List.zipWith CONS ks vs)[i]? = some (CONS k v)) ∧
    (ks = [] → pair (list_of ks) (list_of vs) = ATOM_NIL) := by
  refine ⟨pair_list_of_zipWith ks vs, ?_, ?_, ?_⟩
  · rw [List.length_zipWith, h, Nat.min_self]
  · intro i k v hk hv
    rw [List.getElem?_zipWith, hk, hv]
  · rintro rfl
    rw [pair_list_of_zipWith]
    rfl

/-- Witness for C12, the example of the source:
`pair((value key), (3 definition)) = ((value . 3) (key . definition))`. -/
theorem c12_pair_equal_lengths_witness :
    pair (list_of [ATOM "value".toList, ATOM "key".toList])
        (list_of [ATOM "3".toList, ATOM "definition".toList]) =
      list_of [CONS (ATOM "value".toList) (ATOM "3".toList),
        CONS (ATOM "key".toList) (ATOM "definition".toList)] :=
  (c12_pair_equal_lengths [ATOM "value".toList, ATOM "key".toList]
    [ATOM "3".toList, ATOM "definition".toList] (by decide)).1

theorem append_list_of_nil (l : List sexp) :
    append (list_of l) ATOM_NIL = Res.ok (list_of l) := by
  induction l with
  | nil => simp [list_of, append, null, ATOM_NIL]
  | cons x xs ih => simp [list_of, append, ih, cons]

/-- C13 (append identities).  `append(nil, xs)` is `xs` for every value
`xs`; and for every proper list `xs`, `append(xs, nil)` returns a value that
is `equal` to `xs` (indeed the same tree). -/
theorem c13_append_identities :
    (∀ xs, append ATOM_NIL xs = Res.ok xs) ∧
    (∀ l : List sexp, ∃ r, append (list_of l) ATOM_NIL = Res.ok r ∧
      equal r (list_of l) = ATOM_T ∧ r = list_of l) := by
  refine ⟨fun xs => by simp [append, null, ATOM_NIL], fun l => ?_⟩
  exact ⟨list_of l, append_list_of_nil l, equal_self _, rfl⟩

theorem eq_t_or_nil (a b : sexp) : eq a b = ATOM_T ∨ eq a b = ATOM_NIL := by
  cases a with
  | ATOM x =>
    cases b with
    | ATOM y =>
      by_cases h : x = y
      · left; simp [eq, h]
      · right; simp [eq, h]
    | CONS l r => right; rfl
  | CONS l r => right; rfl

theorem eq_t_iff (a b : sexp) : eq a b = ATOM_T ↔ ∃ s, a = ATOM s ∧ b = ATOM s := by
  cases a with
  | ATOM x =>
    cases b with
    | ATOM y =>
      by_cases h : x = y
      · subst h; simp [eq]
      · simp [eq, h, ATOM_T, ATOM_NIL]
        exact fun e => h e.symm
    | CONS l r => simp [eq, ATOM_T, ATOM_NIL]
  | CONS l r => simp [eq, ATOM_T, ATOM_NIL]

/-- C14 (eq).  `eq(a, b)` is the atom `t` exactly when `a` and `b` are atoms
with the same characters, and the atom nil in every other case.  A pair is
never `eq` to anything, itself included, and atoms that differ only in
letter case are not `eq`. -/
theorem c14_eq :
    (∀ a b, (eq a b = ATOM_T ↔ ∃ s, a = ATOM s ∧ b = ATOM s) ∧
      (eq a b = ATOM_T ∨ eq a b = ATOM_NIL)) ∧
    (∀ l r x, eq (CONS l r) x = ATOM_NIL ∧ eq x (CONS l r) = ATOM_NIL ∧
      eq (CONS l r) (CONS l r) = ATOM_NIL) ∧
    eq (ATOM "car".toList) (ATOM "car".toList) = ATOM_T ∧
    eq (ATOM "car".toList) (ATOM "cdr".toList) = ATOM_NIL ∧
    eq (ATOM "car".toList) (ATOM "CAR".toList) = ATOM_NIL := by
  refine ⟨fun a b => ⟨eq_t_iff a b, eq_t_or_nil a b⟩, fun l r x => ⟨rfl, ?_, rfl⟩,
    by decide, by decide, by decide⟩
  cases x <;> rfl

theorem equal_t_or_nil (a b : sexp) : equal a b = ATOM_T ∨ equal a b = ATOM_NIL := by
  cases a with
  | ATOM x =>
    cases b with
    | ATOM y => simpa [equal] using eq_t_or_nil (ATOM x) (ATOM y)
    | CONS l r => simp [equal]
  | CONS la ra =>
    cases b with
    | ATOM y => simp [equal]
    | CONS lb rb =>
      rw [equal]
      split <;> simp

theorem equal_t_iff (a b : sexp) : equal a b = ATOM_T ↔ a = b := by
  constructor
  · intro h
    induction a generalizing b with
    | ATOM x =>
      cases b with
      | ATOM y =>
        rw [equal] at h
        obtain ⟨s, h1, h2⟩ := (eq_t_iff _ _).1 h
        rw [h1, h2]
      | CONS l r => simp [equal, ATOM_T, ATOM_NIL] at h
    | CONS la ra ihl ihr =>
      cases b with
      | ATOM y => simp [equal, ATOM_T, ATOM_NIL] at h
      | CONS lb rb =>
        rw [equal] at h
        by_cases hc : (c_bool (equal la lb) && c_bool (equal ra rb)) = true
        · rw [Bool.and_eq_true, c_bool_iff, c_bool_iff] at hc
          rw [ihl lb hc.1, ihr rb hc.2]
        · rw [if_neg hc] at h
          simp [ATOM_T, ATOM_NIL] at h
  · rintro rfl
    exact equal_self a

/-- C15 (equal).  `equal(a, b)` is the atom `t` exactly when `a` and `b` are
the same tree, and the atom nil otherwise; `equal(v, v)` is `t` for every
`v`, and an atom is never `equal` to a pair. -/
theorem c15_equal :
    (∀ a b, (equal a b = ATOM_T ↔ a = b) ∧ (equal a b = ATOM_T ∨ equal a b = ATOM_NIL)) ∧
    (∀ v, equal v v = ATOM_T) ∧
    (∀ s l r, equal (ATOM s) (CONS l r) = ATOM_NIL ∧ equal (CONS l r) (ATOM s) = ATOM_NIL) :=
  ⟨fun a b => ⟨equal_t_iff a b, equal_t_or_nil a b⟩, equal_self,
    fun _ _ _ => ⟨by rw [equal], by rw [equal]⟩⟩

/-! ## The reader: whitespace, lists, dotted pairs, incomplete input -/

theorem parse_ws_append_ws (w p : List Char) (hw : all_ws w = true) :
    parse_ws (w ++ p) = parse_ws p := by
  induction w with
  | nil => rfl
  | cons c cs ih =>
    simp only [all_ws, List.all_cons, Bool.and_eq_true] at hw
    simp only [List.cons_append, parse_ws, hw.1, if_true]
    exact ih hw.2

theorem parse_ws_all_ws (w : List Char) (hw : all_ws w = true) : parse_ws w = [] := by
  have := parse_ws_append_ws w [] hw
  simpa [parse_ws] using this

theorem parse_ws_idem (p : List Char) : parse_ws (parse_ws p) = parse_ws p := by
  induction p with
  | nil => rfl
  | cons c cs ih =>
    by_cases h : is_ws c = true
    · simp only [parse_ws, h, if_true]; exact ih
    · simp [parse_ws, h]

theorem parse_parse_ws (n : Nat) (p : List Char) : parse n (parse_ws p) = parse n p := by
  cases n with
  | zero => simp [parse]
  | succ n => rw [parse_succ, parse_succ, parse_ws_idem]

theorem parse_skip_ws (n : Nat) (w p : List Char) (hw : all_ws w = true) :
    parse n (w ++ p) = parse n p := by
  rw [← parse_parse_ws n (w ++ p), parse_ws_append_ws w p hw, parse_parse_ws]

theorem parse_list_elem_parse_ws (n : Nat) (p : List Char) :
    parse_list_elem n (parse_ws p) = parse_list_elem n p := by
  cases n with
  | zero => simp [parse_list_elem]
  | succ n => rw [parse_list_elem_succ, parse_list_elem_succ, parse_parse_ws]

theorem at_delim_ws_append (w p : List Char) (hne : w ≠ []) (hw : all_ws w = true) :
    at_delim (w ++ p) = true := by
  cases w with
  | nil => exact absurd rfl hne
  | cons c cs =>
    simp only [all_ws, List.all_cons, Bool.and_eq_true] at hw
    simp [at_delim_cons, is_delim, hw.1]

theorem at_delim_ws_append_of (w p : List Char) (hw : all_ws w = true)
    (hp : at_delim p = true) : at_delim (w ++ p) = true := by
  cases w with
  | nil => exact hp
  | cons c cs => exact at_delim_ws_append (c :: cs) p (by simp) hw

/-- Only whitespace up to the end of the text: no expression. -/
theorem parse_all_ws (n : Nat) (w : List Char) (hw : all_ws w = true) :
    parse (n + 1) w = some (none, []) := by
  rw [parse_succ, parse_ws_all_ws w hw]
  rfl

/-- The dot token is read as the atom `.` when a delimiter follows. -/
theorem parse_dot_token_delim (n : Nat) (q : List Char) (hq : at_delim q = true) :
    parse (n + 1) ('.' :: q) = some (some ATOM_DOT, q) := by
  have h := parse_symbol n '.' [] q (by decide) (by decide) hq
  simpa [ATOM_DOT] using h

/-- The reader on `(A . B`, with whitespace runs around the dot: when `A` is
read from `ta` and `B` from `tb`, the pair is read, and the closing
parenthesis is consumed if it is there. -/
theorem parse_dotted_ws (ta tb : List Char) (a b : sexp) (c : Char) (cs : List Char)
    (hta : ta = c :: cs) (hws : is_ws c = false) (hcl : c ≠ ')')
    (hdot : c_bool (eq ATOM_DOT a) = false) (na nb : Nat)
    (ha : ∀ n, na ≤ n → ∀ rest, at_delim rest = true → parse n (ta ++ rest) = some (some a, rest))
    (hb : ∀ n, nb ≤ n → ∀ rest, at_delim rest = true → parse n (tb ++ rest) = some (some b, rest))
    (w1 w2 : List Char) (h1 : w1 ≠ []) (hw1 : all_ws w1 = true) (h2 : w2 ≠ [])
    (hw2 : all_ws w2 = true) (q : List Char) (hq : at_delim q = true)
    (n : Nat) (hn : max na nb + 5 ≤ n) :
    parse n ('(' :: (ta ++ (w1 ++ '.' :: (w2 ++ (tb ++ q))))) =
      close_paren (CONS a b) (parse_ws q) := by
  obtain ⟨k, rfl⟩ : ∃ k, n = k + 5 := ⟨n - 5, by omega⟩
  have hk : na ≤ k + 2 ∧ nb ≤ k + 2 := by omega
  have d2 : at_delim (w2 ++ (tb ++ q)) = true := at_delim_ws_append _ _ h2 hw2
  have e1 : parse (k + 2) (ta ++ (w1 ++ '.' :: (w2 ++ (tb ++ q)))) =
      some (some a, w1 ++ '.' :: (w2 ++ (tb ++ q))) :=
    ha _ hk.1 _ (at_delim_ws_append _ _ h1 hw1)
  have e2 : parse (k + 2) (tb ++ q) = some (some b, q) := hb _ hk.2 _ hq
  have w1e : parse_ws (ta ++ (w1 ++ '.' :: (w2 ++ (tb ++ q)))) =
      ta ++ (w1 ++ '.' :: (w2 ++ (tb ++ q))) := by
    rw [hta, List.cons_append, parse_ws_of_not_ws c _ hws]
  have p1 : peek (ta ++ (w1 ++ '.' :: (w2 ++ (tb ++ q)))) ≠ ')' := by
    rw [hta]; simpa [peek] using hcl
  have w2e : parse_ws (w1 ++ '.' :: (w2 ++ (tb ++ q))) = '.' :: (w2 ++ (tb ++ q)) := by
    rw [parse_ws_append_ws _ _ hw1, parse_ws_of_not_ws _ _ (by decide)]
  have el : parse_list_elem (k + 3) (ta ++ (w1 ++ '.' :: (w2 ++ (tb ++ q)))) =
      some (some ATOM_DOT, w2 ++ (tb ++ q)) := by
    rw [parse_list_elem_succ, e1]
    simp only [hdot, w2e]
    rw [parse_list_elem_succ, parse_dot_token_delim _ _ d2]
    simp [peek, ATOM_DOT]
  have ec : parse_cons (k + 3) ('(' :: (ta ++ (w1 ++ '.' :: (w2 ++ (tb ++ q))))) =
      close_paren (CONS a b) (parse_ws q) := by
    rw [parse_cons_succ, List.tail_cons, e1]
    simp only []
    rw [parse_skip_ws _ _ _ hw1, parse_dot_token_delim _ _ d2]
    simp only []
    rw [parse_skip_ws _ _ _ hw2, e2]
    simp [cons]
  rw [parse_succ, parse_ws_of_not_ws _ _ (by decide)]
  simp only [peek, List.headD_cons]
  rw [if_neg (by decide), if_neg (by decide), if_pos trivial, parse_list_succ, List.tail_cons, w1e,
    if_pos p1, el]
  simp only []
  rw [if_pos (by decide), ec]

/-- C16 (quote shorthand in the reader).  When `parse` returns the
expression `X` on the text `s`, it returns the two-element list `(quote X)`,
the pair `(quote . (X . nil))`, on an apostrophe followed by `s`, with two
more units of fuel or more, and leaves the same text unread.  The texts of
an apostrophe followed by `a` and of `(quote a)` are read as `equal` expressions. -/
theorem c16_quote_shorthand (s : List Char) (n : Nat) (X : sexp) (q : List Char)
    (h : parse n s = some (some X, q)) :
    (∀ m, n + 2 ≤ m →
      parse m (APOS :: s) = some (some (CONS ATOM_QUOTE (CONS X ATOM_NIL)), q)) ∧
    (∃ x y, parse 6 (APOS :: "a".toList) = some (some x, []) ∧
      parse 6 "(quote a)".toList = some (some y, []) ∧ equal x y = ATOM_T) := by
  constructor
  · intro m hm
    apply parse_fuel_le hm
    rw [parse_succ, parse_ws_of_not_ws _ _ (by decide)]
    simp only [peek, List.headD_cons]
    rw [if_neg (by decide), if_pos trivial, parse_quote_succ, List.tail_cons, h]
    simp [cons]
  · exact ⟨CONS ATOM_QUOTE (CONS (ATOM "a".toList) ATOM_NIL),
      CONS ATOM_QUOTE (CONS (ATOM "a".toList) ATOM_NIL), by decide, by decide, by decide⟩

/-- Witness for C16: the text `a` is read as the atom `a`, so an apostrophe
followed by `a` is read as `(quote a)`. -/
theorem c16_quote_shorthand_witness :
    parse 1 "a".toList = some (some (ATOM "a".toList), []) ∧
    parse 3 (APOS :: "a".toList) =
      some (some (CONS ATOM_QUOTE (CONS (ATOM "a".toList) ATOM_NIL)), []) :=
  ⟨by decide,
   (c16_quote_shorthand "a".toList 1 (ATOM "a".toList) [] (by decide)).1 3 (by decide)⟩

theorem intercalate_space (a : List Char) (as : List (List Char)) :
    List.intercalate " ".toList (a :: as) = a ++ rest_text (list_of (as.map ATOM)) := by
  induction as generalizing a with
  | nil => simp [List.intercalate, list_of, rest_text, ATOM_NIL]
  | cons b bs ih =>
    have := ih b
    simp only [List.intercalate, List.intersperse, List.flatten_cons, List.map_cons, list_of,
      rest_text, list_text] at this ⊢
    rw [this]
    simp

theorem tail_readable_atoms (as : List (List Char)) (h : ∀ a ∈ as, wf_atom a = true) :
    tail_readable (list_of (as.map ATOM)) = true := by
  induction as with
  | nil => decide
  | cons a as ih =>
    simp only [List.map_cons, list_of, tail_readable, readable, Bool.and_eq_true]
    exact ⟨h a (List.mem_cons_self _ _), ih fun x hx => h x (List.mem_cons_of_mem _ hx)⟩

/-- The reader on `()`, with whitespace allowed between the parentheses. -/
theorem parse_empty_list (n : Nat) (w rest : List Char) (hw : all_ws w = true) :
    parse (n + 2) ('(' :: (w ++ ')' :: rest)) = some (some ATOM_NIL, rest) := by
  have e : parse_ws (w ++ ')' :: rest) = ')' :: rest := by
    rw [parse_ws_append_ws _ _ hw, parse_ws_of_not_ws _ _ (by decide)]
  rw [parse_succ, parse_ws_of_not_ws _ _ (by decide)]
  simp only [peek, List.headD_cons]
  rw [if_neg (by decide), if_neg (by decide), if_pos trivial, parse_list_succ, List.tail_cons, e]
  simp [peek, close_paren]

/-- C17 (reading list notation).  For well-formed atoms `a1 ... an`, the
text of an opening parenthesis, the atoms separated by single spaces, and a
closing parenthesis is read, with enough fuel, as the nil-terminated chain
`(a1 . (a2 . ( ... (an . nil))))`, and the text after the closing
parenthesis is left unread; for `n = 0` the text `()` is read as nil. -/
theorem c17_read_list (as : List (List Char)) (h : ∀ a ∈ as, wf_atom a = true)
    (rest : List Char) :
    ∃ N, ∀ n, N ≤ n →
      parse n ('(' :: (List.intercalate " ".toList as ++ ')' :: rest)) =
        some (some (list_of (as.map ATOM)), rest) := by
  cases as with
  | nil =>
    refine ⟨2, fun n hn => ?_⟩
    obtain ⟨k, rfl⟩ : ∃ k, n = k + 2 := ⟨n - 2, by omega⟩
    simpa [List.intercalate, list_of] using parse_empty_list k [] rest rfl
  | cons a as =>
    have ha : wf_atom a = true := h a (List.mem_cons_self _ _)
    obtain ⟨N, hN⟩ := (parse_list_text (list_of (as.map ATOM))).2.1
      (tail_readable_atoms as fun x hx => h x (List.mem_cons_of_mem _ hx))
    obtain ⟨c, cs, hc, hws, hcl⟩ := list_text_start (ATOM a) ha
    rw [list_text] at hc
    refine ⟨N + 4, fun n hn => ?_⟩
    obtain ⟨k, rfl⟩ : ∃ k, n = k + 4 := ⟨n - 4, by omega⟩
    have e1 : parse (k + 1) (a ++ (rest_text (list_of (as.map ATOM)) ++ ')' :: rest)) =
        some (some (ATOM a), rest_text (list_of (as.map ATOM)) ++ ')' :: rest) :=
      parse_wf_atom a ha k _ (rest_text_at_delim _ rest)
    have e2 := hN (k + 1) (by omega) (ATOM a) _ rest (not_dot_of_wf_atom a ha) e1
    have := parse_list_of_elems (k + 2) _ rest (CONS (ATOM a) (list_of (as.map ATOM))) c
      (cs ++ (rest_text (list_of (as.map ATOM)) ++ ')' :: rest)) (by rw [hc]; rfl) hws hcl
      (by simp) e2
    rw [intercalate_space]
    simpa [list_of] using this

/-- Witness for C17: `(a b c)` and `()`. -/
theorem c17_read_list_witness :
    (∃ N, ∀ n, N ≤ n → parse n "(a b c)".toList =
      some (some (list_of [ATOM "a".toList, ATOM "b".toList, ATOM "c".toList]), [])) ∧
    (∃ N, ∀ n, N ≤ n → parse n "()".toList = some (some ATOM_NIL, [])) :=
  ⟨c17_read_list ["a".toList, "b".toList, "c".toList] (by decide) [],
   c17_read_list [] (by decide) []⟩

/-- C18 (reading a dotted pair).  For well-formed atoms `a` and `b`,
non-empty whitespace runs `w1` and `w2` and a whitespace run `w3`, the text
`(` `a` `w1` `.` `w2` `b` `w3` `)` is read, with enough fuel, as the pair
`(a . b)`, and the closing parenthesis is consumed: the text after it is
what is left unread. -/
theorem c18_read_dotted_pair (a b w1 w2 w3 rest : List Char)
    (ha : wf_atom a = true) (hb : wf_atom b = true)
    (h1 : w1 ≠ []) (hw1 : all_ws w1 = true) (h2 : w2 ≠ []) (hw2 : all_ws w2 = true)
    (hw3 : all_ws w3 = true) :
    ∃ N, ∀ n, N ≤ n →
      parse n ("(".toList ++ a ++ w1 ++ ".".toList ++ w2 ++ b ++ w3 ++ ")".toList ++ rest) =
        some (some (CONS (ATOM a) (ATOM b)), rest) := by
  obtain ⟨c, cs, hc, hws, hcl⟩ := list_text_start (ATOM a) ha
  rw [list_text] at hc
  refine ⟨max 1 1 + 5, fun n hn => ?_⟩
  have hq : at_delim (w3 ++ ')' :: rest) = true :=
    at_delim_ws_append_of _ _ hw3 (by rw [at_delim_cons]; decide)
  have := parse_dotted_ws a b (ATOM a) (ATOM b) c cs hc hws hcl (not_dot_of_wf_atom a ha) 1 1
    (fun n hn rest hr => by
      obtain ⟨k, rfl⟩ : ∃ k, n = k + 1 := ⟨n - 1, by omega⟩
      exact parse_wf_atom a ha k rest hr)
    (fun n hn rest hr => by
      obtain ⟨k, rfl⟩ : ∃ k, n = k + 1 := ⟨n - 1, by omega⟩
      exact parse_wf_atom b hb k rest hr)
    w1 w2 h1 hw1 h2 hw2 (w3 ++ ')' :: rest) hq n hn
  rw [parse_ws_append_ws _ _ hw3, parse_ws_of_not_ws _ _ (by decide)] at this
  simpa [close_paren, peek] using this

/-- Witness for C18: `(a . b )` and `(a . b)`. -/
theorem c18_read_dotted_pair_witness :
    (∃ N, ∀ n, N ≤ n → parse n "(a . b )".toList =
      some (some (CONS (ATOM "a".toList) (ATOM "b".toList)), [])) ∧
    (∃ N, ∀ n, N ≤ n → parse n "(a . b)".toList =
      some (some (CONS (ATOM "a".toList) (ATOM "b".toList)), [])) :=
  ⟨c18_read_dotted_pair "a".toList "b".toList " ".toList " ".toList " ".toList []
      (by decide) (by decide) (by decide) (by decide) (by decide) (by decide) (by decide),
   c18_read_dotted_pair "a".toList "b".toList " ".toList " ".toList [] []
      (by decide) (by decide) (by decide) (by decide) (by decide) (by decide) (by decide)⟩

/-- C19 (empty input).  On a text of whitespace only, `parse` with any
positive fuel returns the null pointer, which is no expression (in
particular not the atom nil), and leaves the cursor at the end of the
text; the same holds when the whitespace is followed by a NUL character. -/
theorem c19_empty_input (w : List Char) (hw : all_ws w = true) (n : Nat) :
    parse (n + 1) w = some (none, []) ∧
    (∀ more, parse (n + 1) (w ++ NUL :: more) = some (none, NUL :: more)) ∧
    (∀ v q, parse (n + 1) w ≠ some (some v, q)) := by
  have h := parse_all_ws n w hw
  refine ⟨h, fun more => ?_, fun v q => by rw [h]; simp⟩
  rw [parse_succ, parse_ws_append_ws _ _ hw, parse_ws_of_not_ws _ _ (by decide)]
  rfl

/-- Witness for C19: the empty text, and a text of a space, a tab, a
carriage return and a line feed. -/
theorem c19_empty_input_witness :
    parse 1 [] = some (none, []) ∧ parse 1 [' ', '\t', '\r', '\n'] = some (none, []) :=
  ⟨(c19_empty_input [] (by decide) 0).1, (c19_empty_input [' ', '\t', '\r', '\n'] (by decide) 0).1⟩

theorem unclosed_form_start (u : List Char) (h : Unclosed true u) :
    ∃ c cs, u = c :: cs ∧ is_ws c = false ∧ c ≠ ')' := by
  cases h with
  | paren t _ => exact ⟨'(', t, rfl, by decide, by decide⟩
  | quote_end w _ => exact ⟨APOS, w, rfl, by decide, by decide⟩
  | quoted w v _ _ => exact ⟨APOS, _, rfl, by decide, by decide⟩
  | dot_end t _ _ _ _ _ _ _ _ => exact ⟨'(', t, rfl, by decide, by decide⟩
  | dot_nested t _ _ _ _ _ _ _ _ _ _ => exact ⟨'(', t, rfl, by decide, by decide⟩

/-- At a closing parenthesis `parse` returns the null pointer, so a text
from which the reader reads an expression does not start with one. -/
theorem reads_peek (p : List Char) (x : sexp) (q : List Char) (h : Reads p x q) :
    peek (parse_ws p) ≠ ')' := by
  obtain ⟨n, hn⟩ := h
  intro hc
  cases n with
  | zero => simp [parse] at hn
  | succ n =>
    rw [parse_succ, hc, if_neg (by decide), if_neg (by decide), if_neg (by decide)] at hn
    cases hp : parse_ws p with
    | nil => rw [hp] at hc; exact absurd hc (by decide)
    | cons c cs =>
      rw [hp] at hc hn
      have hcc : c = ')' := by simpa [peek] using hc
      subst hcc
      simp [parse_atom, skip_symbol, is_delim] at hn

theorem reads_fuel {p : List Char} {x : sexp} {q : List Char} {n m : Nat}
    (h : parse n p = some (some x, q)) (hm : n ≤ m) : parse m p = some (some x, q) :=
  parse_fuel_le hm _ _ h

theorem dot_body_peek (t : List Char) (h : DotBody t) : peek (parse_ws t) ≠ ')' := by
  cases h with
  | dot _ q h => exact reads_peek _ _ _ h
  | elem _ q x h _ _ => exact reads_peek _ _ _ h

theorem unclosed_body_peek (t : List Char) (h : Unclosed false t) :
    peek (parse_ws t) ≠ ')' := by
  cases h with
  | stop _ hw => rw [parse_ws_all_ws _ hw]; decide
  | elem _ q x hx _ _ => exact reads_peek _ _ _ hx
  | nested w u hw hu =>
    obtain ⟨c, cs, hc, hws, hcl⟩ := unclosed_form_start u hu
    rw [parse_ws_append_ws _ _ hw, hc, parse_ws_of_not_ws c _ hws]
    simpa [peek] using hcl

/-- In a list in which the reader meets the dot token, `parse_list_elem`
returns the dot token. -/
theorem parse_dot_body (t : List Char) (h : DotBody t) :
    ∃ N, ∀ n, N ≤ n → ∃ q, parse_list_elem n t = some (some ATOM_DOT, q) := by
  induction h with
  | dot p q hp =>
    obtain ⟨M, hM⟩ := hp
    refine ⟨M + 1, fun n hn => ⟨q, ?_⟩⟩
    obtain ⟨k, rfl⟩ : ∃ k, n = k + 1 := ⟨n - 1, by omega⟩
    rw [parse_list_elem_succ, reads_fuel hM (by omega)]
    rfl
  | elem p q x hp hx hq ih =>
    obtain ⟨M, hM⟩ := hp
    obtain ⟨N, hN⟩ := ih
    refine ⟨max N M + 1, fun n hn => ?_⟩
    obtain ⟨k, rfl⟩ : ∃ k, n = k + 1 := ⟨n - 1, by omega⟩
    obtain ⟨q2, hq2⟩ := hN k (by omega)
    refine ⟨q2, ?_⟩
    rw [parse_list_elem_succ, reads_fuel hM (by omega)]
    simp only [hx, dot_body_peek q hq]
    rw [parse_list_elem_parse_ws, hq2]
    rfl

/-- On an opening parenthesis followed by a list in which the reader meets
the dot token, `parse` is `parse_cons` on the same text. -/
theorem parse_paren_dot_body (t : List Char) (h : DotBody t) :
    ∃ N, ∀ n, N ≤ n → parse (n + 2) ('(' :: t) = parse_cons n ('(' :: t) := by
  obtain ⟨N, hN⟩ := parse_dot_body t h
  refine ⟨N, fun n hn => ?_⟩
  obtain ⟨q, hq⟩ := hN n hn
  rw [parse_succ, parse_ws_of_not_ws _ _ (by decide)]
  simp only [peek, List.headD_cons]
  rw [if_neg (by decide), if_neg (by decide), if_pos trivial, parse_list_succ, List.tail_cons,
    if_pos (dot_body_peek t h), parse_list_elem_parse_ws, hq]
  rfl

/-- The reader on a text that ends inside a form: `parse` on an unclosed
form, and `parse_list_elem` on the rest of an unclosed list, return the null
pointer with the cursor at the end of the text. -/
theorem parse_unclosed (b : Bool) (s : List Char) (h : Unclosed b s) :
    ∃ N, ∀ n, N ≤ n →
      (bif b then parse n s else parse_list_elem n s) = some (none, []) := by
  induction h with
  | stop w hw =>
    refine ⟨2, fun n hn => ?_⟩
    obtain ⟨k, rfl⟩ : ∃ k, n = k + 2 := ⟨n - 2, by omega⟩
    simp only [cond_false]
    rw [parse_list_elem_succ, parse_all_ws k w hw]
  | elem p q x hx hd ht ih =>
    obtain ⟨N, hN⟩ := ih
    obtain ⟨M, hM⟩ := hx
    simp only [cond_false] at hN ⊢
    refine ⟨max N M + 1, fun n hn => ?_⟩
    obtain ⟨k, rfl⟩ : ∃ k, n = k + 1 := ⟨n - 1, by omega⟩
    rw [parse_list_elem_succ, reads_fuel hM (by omega)]
    simp only [hd, unclosed_body_peek q ht]
    rw [parse_list_elem_parse_ws, hN k (by omega)]
    simp
  | nested w u hw hu ih =>
    obtain ⟨N, hN⟩ := ih
    simp only [cond_false, cond_true] at hN ⊢
    refine ⟨N + 1, fun n hn => ?_⟩
    obtain ⟨k, rfl⟩ : ∃ k, n = k + 1 := ⟨n - 1, by omega⟩
    rw [parse_list_elem_succ, parse_skip_ws _ _ _ hw, hN k (by omega)]
  | paren t ht ih =>
    obtain ⟨N, hN⟩ := ih
    simp only [cond_false, cond_true] at hN ⊢
    refine ⟨N + 2, fun n hn => ?_⟩
    obtain ⟨k, rfl⟩ : ∃ k, n = k + 2 := ⟨n - 2, by omega⟩
    rw [parse_succ, parse_ws_of_not_ws _ _ (by decide)]
    simp only [peek, List.headD_cons]
    rw [if_neg (by decide), if_neg (by decide), if_pos trivial, parse_list_succ, List.tail_cons,
      if_pos (unclosed_body_peek t ht), parse_list_elem_parse_ws, hN k (by omega)]
  | quote_end w hw =>
    refine ⟨3, fun n hn => ?_⟩
    obtain ⟨k, rfl⟩ : ∃ k, n = k + 3 := ⟨n - 3, by omega⟩
    simp only [cond_true]
    rw [parse_succ, parse_ws_of_not_ws _ _ (by decide)]
    simp only [peek, List.headD_cons]
    rw [if_neg (by decide), if_pos trivial, parse_quote_succ, List.tail_cons, parse_all_ws k w hw]
  | quoted w u hw hu ih =>
    obtain ⟨N, hN⟩ := ih
    simp only [cond_true] at hN ⊢
    refine ⟨N + 2, fun n hn => ?_⟩
    obtain ⟨k, rfl⟩ : ∃ k, n = k + 2 := ⟨n - 2, by omega⟩
    rw [parse_succ, parse_ws_of_not_ws _ _ (by decide)]
    simp only [peek, List.headD_cons]
    rw [if_neg (by decide), if_pos trivial, parse_quote_succ, List.tail_cons,
      parse_skip_ws _ _ _ hw, hN k (by omega)]
  | dot_end t q1 q2 x1 r2 hb h1 h2 hw =>
    obtain ⟨N, hN⟩ := parse_paren_dot_body t hb
    obtain ⟨M1, hM1⟩ := h1
    obtain ⟨M2, hM2⟩ := h2
    refine ⟨max N (max M1 M2) + 4, fun n hn => ?_⟩
    obtain ⟨k, rfl⟩ : ∃ k, n = k + 4 := ⟨n - 4, by omega⟩
    simp only [cond_true]
    rw [hN (k + 2) (by omega), parse_cons_succ, List.tail_cons, reads_fuel hM1 (by omega)]
    simp only []
    rw [parse_fuel_le (by omega) _ _ hM2]
    simp only []
    rw [parse_all_ws k q2 hw]
  | dot_nested t q1 w u x1 r2 hb h1 h2 hw hu ih =>
    obtain ⟨N, hN⟩ := parse_paren_dot_body t hb
    obtain ⟨M1, hM1⟩ := h1
    obtain ⟨M2, hM2⟩ := h2
    obtain ⟨K, hK⟩ := ih
    simp only [cond_true] at hK ⊢
    refine ⟨max (max N K) (max M1 M2) + 3, fun n hn => ?_⟩
    obtain ⟨k, rfl⟩ : ∃ k, n = k + 3 := ⟨n - 3, by omega⟩
    rw [hN (k + 1) (by omega), parse_cons_succ, List.tail_cons, reads_fuel hM1 (by omega)]
    simp only []
    rw [parse_fuel_le (by omega) _ _ hM2]
    simp only []
    rw [parse_skip_ws _ _ _ hw, hK k (by omega)]

/-- C20 as stated fails on its own example: on the text `(a . b`, where the
closing parenthesis is missing, `parse` returns the pair `(a . b)`, with
every fuel from 6 on, and never the null pointer. -/
theorem c20_counterexample :
    (∀ n, 6 ≤ n → parse n "(a . b".toList =
      some (some (CONS (ATOM "a".toList) (ATOM "b".toList)), [])) ∧
    ¬ ∃ n q, parse n "(a . b".toList = some (none, q) := by
  have h6 : parse 6 "(a . b".toList =
      some (some (CONS (ATOM "a".toList) (ATOM "b".toList)), []) := by decide
  refine ⟨fun n hn => parse_fuel_le hn _ _ h6, ?_⟩
  rintro ⟨n, q, hn⟩
  have h1 := parse_fuel_le (Nat.le_max_left n 6) _ _ hn
  have h2 := parse_fuel_le (Nat.le_max_right n 6) _ _ h6
  rw [h1] at h2
  simp at h2

/-- Unclosed lists in which the reader meets the dot token and reads a
third item from the start of the list: `(a . b c` is read as `(a . b)` with
`c` unread, and `(a b . c d` as the pair of `a` and the dot token with `c d`
unread. -/
theorem open_dot_list_examples :
    parse 6 "(a . b c".toList =
      some (some (CONS (ATOM "a".toList) (ATOM "b".toList)), "c".toList) ∧
    parse 6 "(a b . c d".toList =
      some (some (CONS (ATOM "a".toList) ATOM_DOT), "c d".toList) := by
  decide

/-- The list-notation text of a readable expression, behind whitespace and
followed by a delimiter, is an item that the reader reads completely. -/
theorem reads_list_text (w : List Char) (x : sexp) (t : List Char) (hw : all_ws w = true)
    (hx : readable x = true) (ht : at_delim t = true) : Reads (w ++ (list_text x ++ t)) x t := by
  obtain ⟨M, hM⟩ := (parse_list_text x).1 hx
  exact ⟨M, by rw [parse_skip_ws _ _ _ hw]; exact hM M (Nat.le_refl _) t ht⟩

/-- The reader on `(A . B` without closing parenthesis: when it reads `A`,
then the dot token, then `B`, and only whitespace is left, it returns the
pair. -/
theorem parse_open_pair (t q1 q2 q3 : List Char) (a b : sexp) (h1 : Reads t a q1)
    (hd : c_bool (eq ATOM_DOT a) = false) (h2 : Reads q1 ATOM_DOT q2) (h3 : Reads q2 b q3)
    (hw : all_ws q3 = true) :
    ∃ N, ∀ n, N ≤ n → parse n ('(' :: t) = some (some (CONS a b), []) := by
  obtain ⟨N, hN⟩ := parse_paren_dot_body t (DotBody.elem t q1 a h1 hd (DotBody.dot q1 q2 h2))
  obtain ⟨M1, hM1⟩ := h1
  obtain ⟨M2, hM2⟩ := h2
  obtain ⟨M3, hM3⟩ := h3
  refine ⟨max (max N M3) (max M1 M2) + 3, fun n hn => ?_⟩
  obtain ⟨k, rfl⟩ : ∃ k, n = k + 3 := ⟨n - 3, by omega⟩
  rw [hN (k + 1) (by omega), parse_cons_succ, List.tail_cons, reads_fuel hM1 (by omega)]
  simp only []
  rw [reads_fuel hM2 (by omega)]
  simp only []
  rw [reads_fuel hM3 (by omega)]
  simp only []
  rw [parse_ws_all_ws q3 hw]
  rfl

/-- C20 (incomplete input), amended.  On a text on which the reader
reaches the end of the text inside a form (`Unclosed`: an opening
parenthesis, then items that the reader reads as complete expressions, none
of them the dot token, then only whitespace, an apostrophe with nothing
behind it, or a further unclosed form; or a list in which the reader meets
the dot token and the third item from the start of the list is missing or is
an unclosed form) `parse`, given enough fuel, returns the null pointer and
leaves the cursor at the end of the text.  A dotted pair that lacks only its
closing parenthesis is instead returned as the pair, with the cursor at the
end of the text: for readable expressions in list notation around the dot,
and whenever the reader reads a first item, the dot token and a third item
and only whitespace is left.  The list-notation text of a readable
expression, followed by a delimiter, is an item that the reader reads
completely. -/
theorem c20_incomplete_input :
    (∀ s, Unclosed true s → ∃ N, ∀ n, N ≤ n → parse n s = some (none, [])) ∧
    (∀ (a b : sexp) (w1 w2 w3 : List Char), readable a = true → readable b = true →
      w1 ≠ [] → all_ws w1 = true → w2 ≠ [] → all_ws w2 = true → all_ws w3 = true →
      ∃ N, ∀ n, N ≤ n →
        parse n ("(".toList ++ list_text a ++ w1 ++ ".".toList ++ w2 ++ list_text b ++ w3) =
          some (some (CONS a b), [])) ∧
    (∀ (t q1 q2 q3 : List Char) (a b : sexp), Reads t a q1 →
      c_bool (eq ATOM_DOT a) = false → Reads q1 ATOM_DOT q2 → Reads q2 b q3 →
      all_ws q3 = true →
      ∃ N, ∀ n, N ≤ n → parse n ('(' :: t) = some (some (CONS a b), [])) ∧
    (∀ (w : List Char) (x : sexp) (t : List Char), all_ws w = true → readable x = true →
      at_delim t = true → Reads (w ++ (list_text x ++ t)) x t) := by
  refine ⟨?_, ?_, parse_open_pair, reads_list_text⟩
  · intro s hs
    simpa using parse_unclosed true s hs
  · intro a b w1 w2 w3 ha hb h1 hw1 h2 hw2 hw3
    obtain ⟨na, hna⟩ := (parse_list_text a).1 ha
    obtain ⟨nb, hnb⟩ := (parse_list_text b).1 hb
    obtain ⟨c, cs, hc, hws, hcl⟩ := list_text_start a ha
    have hq : at_delim w3 = true := by
      simpa using at_delim_ws_append_of w3 [] hw3 rfl
    refine ⟨max na nb + 5, fun n hn => ?_⟩
    have := parse_dotted_ws (list_text a) (list_text b) a b c cs hc hws hcl
      (not_dot_of_readable a ha) na nb hna hnb w1 w2 h1 hw1 h2 hw2 w3 hq n hn
    rw [parse_ws_all_ws w3 hw3] at this
    simpa [close_paren, peek] using this

/-- Witness for C20: `(a b`, `(() a`, `((quote a) b`, `(a (b . c`,
`((a . b`, `(a . ` and `(a (` followed by an apostrophe are read as no
expression, with the cursor at the end of the text; `(a . b` and
`(() . (a b)` without its last parenthesis are read as pairs. -/
theorem c20_incomplete_input_witness :
    (∃ N, ∀ n, N ≤ n → parse n "(a b".toList = some (none, [])) ∧
    (∃ N, ∀ n, N ≤ n → parse n "(() a".toList = some (none, [])) ∧
    (∃ N, ∀ n, N ≤ n → parse n "((quote a) b".toList = some (none, [])) ∧
    (∃ N, ∀ n, N ≤ n → parse n "(a (b . c".toList = some (none, [])) ∧
    (∃ N, ∀ n, N ≤ n → parse n "((a . b".toList = some (none, [])) ∧
    (∃ N, ∀ n, N ≤ n → parse n "(a . ".toList = some (none, [])) ∧
    (∃ N, ∀ n, N ≤ n → parse n ("(a (".toList ++ [APOS]) = some (none, [])) ∧
    (∃ N, ∀ n, N ≤ n → parse n "(a . b".toList =
      some (some (CONS (ATOM "a".toList) (ATOM "b".toList)), [])) ∧
    (∃ N, ∀ n, N ≤ n → parse n "(() . (a b)".toList =
      some (some (CONS ATOM_NIL (list_of [ATOM "a".toList, ATOM "b".toList])), [])) :=
  ⟨c20_incomplete_input.1 "(a b".toList
      (Unclosed.paren _ (Unclosed.elem _ " b".toList (ATOM "a".toList) ⟨2, by decide⟩ (by decide)
        (Unclosed.elem _ [] (ATOM "b".toList) ⟨2, by decide⟩ (by decide)
          (Unclosed.stop [] (by decide))))),
   c20_incomplete_input.1 "(() a".toList
      (Unclosed.paren _ (Unclosed.elem _ " a".toList ATOM_NIL ⟨3, by decide⟩ (by decide)
        (Unclosed.elem _ [] (ATOM "a".toList) ⟨2, by decide⟩ (by decide)
          (Unclosed.stop [] (by decide))))),
   c20_incomplete_input.1 "((quote a) b".toList
      (Unclosed.paren _ (Unclosed.elem _ " b".toList
        (list_of [ATOM_QUOTE, ATOM "a".toList]) ⟨6, by decide⟩ (by decide)
        (Unclosed.elem _ [] (ATOM "b".toList) ⟨2, by decide⟩ (by decide)
          (Unclosed.stop [] (by decide))))),
   c20_incomplete_input.1 "(a (b . c".toList
      (Unclosed.paren _ (Unclosed.elem _ " (b . c".toList (ATOM "a".toList) ⟨2, by decide⟩
        (by decide)
        (Unclosed.elem _ [] (CONS (ATOM "b".toList) (ATOM "c".toList)) ⟨6, by decide⟩
          (by decide) (Unclosed.stop [] (by decide))))),
   c20_incomplete_input.1 "((a . b".toList
      (Unclosed.paren _ (Unclosed.elem _ [] (CONS (ATOM "a".toList) (ATOM "b".toList))
        ⟨6, by decide⟩ (by decide) (Unclosed.stop [] (by decide)))),
   c20_incomplete_input.1 "(a . ".toList
      (Unclosed.dot_end "a . ".toList " . ".toList " ".toList (ATOM "a".toList) (some ATOM_DOT)
        (DotBody.elem _ " . ".toList (ATOM "a".toList) ⟨2, by decide⟩ (by decide)
          (DotBody.dot _ " ".toList ⟨2, by decide⟩))
        ⟨2, by decide⟩ ⟨2, by decide⟩ (by decide)),
   c20_incomplete_input.1 ("(a (".toList ++ [APOS])
      (Unclosed.paren _ (Unclosed.elem _ (" (".toList ++ [APOS]) (ATOM "a".toList)
        ⟨2, by decide⟩ (by decide)
        (Unclosed.nested " ".toList ("(".toList ++ [APOS]) (by decide)
          (Unclosed.paren _ (Unclosed.nested [] [APOS] (by decide)
            (Unclosed.quote_end [] (by decide))))))),
   c20_incomplete_input.2.1 (ATOM "a".toList) (ATOM "b".toList) " ".toList " ".toList []
      (by decide) (by decide) (by decide) (by decide) (by decide) (by decide) (by decide),
   c20_incomplete_input.2.2.1 "() . (a b)".toList " . (a b)".toList " (a b)".toList []
      ATOM_NIL (list_of [ATOM "a".toList, ATOM "b".toList]) ⟨3, by decide⟩ (by decide)
      ⟨2, by decide⟩ ⟨8, by decide⟩ (by decide)⟩

/-! ## Cursor and output formats -/

/-- C21 (cursor contract).  For `v` and `w` with well-formed atoms, on the
dot-notation text of `v`, a space and the dot-notation text of `w`, `parse`
with enough fuel returns an expression `equal` to `v` (indeed `v`) and
leaves exactly the space and the text of `w` unread; called again on that
rest it returns an expression `equal` to `w` and leaves nothing unread. -/
theorem c21_cursor_contract (v w : sexp) (hv : wf v = true) (hw : wf w = true) :
    ∃ N, ∀ n, N ≤ n → ∃ x q y,
      parse n (dot_text v ++ " ".toList ++ dot_text w) = some (some x, q) ∧
      q = " ".toList ++ dot_text w ∧ x = v ∧ equal x v = ATOM_T ∧
      parse n q = some (some y, []) ∧ y = w ∧ equal y w = ATOM_T := by
  obtain ⟨N, hN⟩ := parse_dot_text v hv
  obtain ⟨M, hM⟩ := parse_dot_text w hw
  refine ⟨max N M, fun n hn => ⟨v, ' ' :: dot_text w, w, ?_, rfl, rfl, equal_self v, ?_, rfl,
    equal_self w⟩⟩
  · have := hN n (by omega) (' ' :: dot_text w) (by rw [at_delim_cons]; decide)
    simpa using this
  · have := hM n (by omega) [] rfl
    rw [parse_space]
    simpa using this

/-- Witness for C21: the text `(a . b) c`. -/
theorem c21_cursor_contract_witness :
    ∃ N, ∀ n, N ≤ n → ∃ x q y,
      parse n "(a . b) c".toList = some (some x, q) ∧
      q = " c".toList ∧ x = CONS (ATOM "a".toList) (ATOM "b".toList) ∧
      equal x (CONS (ATOM "a".toList) (ATOM "b".toList)) = ATOM_T ∧
      parse n q = some (some y, []) ∧ y = ATOM "c".toList ∧ equal y (ATOM "c".toList) = ATOM_T :=
  c21_cursor_contract (CONS (ATOM "a".toList) (ATOM "b".toList)) (ATOM "c".toList)
    (by decide) (by decide)

theorem store_eq (mem : List Char) (str : Nat) (t : List Char) :
    store mem str (t ++ [NUL]) =
      mem.take str ++ t ++ NUL :: mem.drop (str + t.length + 1) := by
  simp [store, Nat.add_assoc]

/-- C22 (dot-notation format).  With `D(atom)` the characters of the atom
and `D(pair)` the text `(` `D(first)` ` . ` `D(rest)` `)`, under every capacity
greater than the length of `D(v)` `print_dot_notation` returns that length
and leaves `D(v)` followed by a NUL at `str`, the memory before and after
these characters being unchanged. -/
theorem c22_dot_format (v : sexp) (mem : List Char) (str len : Nat)
    (_hcap : str + len ≤ mem.length) (hfit : (dot_text v).length < len) :
    (∀ a, dot_text (ATOM a) = a) ∧
    (∀ l r, dot_text (CONS l r) =
      "(".toList ++ dot_text l ++ " . ".toList ++ dot_text r ++ ")".toList) ∧
    print_dot_notation mem str len v =
      ((dot_text v).length,
        mem.take str ++ dot_text v ++ NUL :: mem.drop (str + (dot_text v).length + 1)) := by
  refine ⟨fun a => rfl, fun l r => rfl, ?_⟩
  have := print_dot_fits v mem str len (by omega) hfit
  simp only [] at this
  rw [this, store_eq]

set_option maxRecDepth 20000 in
/-- Witness for C22, the repository's test: the text
`(eq . ((quote . (a . nil)) . ((quote . (b . nil)) . nil)))` is read as
`test_dot_expr`, and printing that into a buffer of 200 characters returns
the length 58 of the text and leaves the text and a NUL. -/
theorem c22_dot_format_witness :
    parse 30 "(eq . ((quote . (a . nil)) . ((quote . (b . nil)) . nil)))".toList =
      some (some test_dot_expr, []) ∧
    print_dot_notation (List.replicate 200 'X') 0 200 test_dot_expr =
      (58, "(eq . ((quote . (a . nil)) . ((quote . (b . nil)) . nil)))".toList ++
        NUL :: List.replicate 141 'X') :=
  ⟨by decide,
   (c22_dot_format test_dot_expr (List.replicate 200 'X') 0 200 (by decide)
      (by decide)).2.2.trans (by decide)⟩

/-- With room for the text, `print_list_notation` returns the length of
`list_text` and leaves `list_text` and a NUL at `str`. -/
theorem print_list_at (v : sexp) (mem : List Char) (str len : Nat)
    (hcap : str + len ≤ mem.length) (hfit : (list_text v).length < len) :
    print_list_notation mem str len v =
      ((list_text v).length,
        mem.take str ++ list_text v ++ NUL :: mem.drop (str + (list_text v).length + 1)) := by
  have := (print_list_fits v).1 mem str len (by omega) hfit
  simp only [] at this
  rw [this, store_eq]

theorem parens_of_ne_quote (l r : sexp) (h : l ≠ ATOM_QUOTE) : parens l r = true := by
  have : c_bool (eq ATOM_QUOTE l) = false := by
    rw [Bool.eq_false_iff]
    exact fun hc => h (eq_of_c_bool_eq _ _ hc)
  simp [parens, this]

/-- Without quote in first position the rendering of the code is the
rendering described by the specification. -/
theorem list_text_eq_L_text (v : sexp) (h : no_quote_first v = true) :
    list_text v = L_text v ∧ rest_text v = R_text v := by
  induction v with
  | ATOM a =>
    refine ⟨by rw [list_text, L_text], ?_⟩
    rw [rest_text, R_text]
    by_cases ha : a = "nil".toList
    · subst ha; rfl
    · have ha2 : ¬ a = ['n', 'i', 'l'] := ha
      have h1 : c_bool (eq (ATOM a) ATOM_NIL) = false := by simp [ATOM_NIL, ha2]
      have h2 : ATOM a ≠ ATOM_NIL := by simp [ATOM_NIL, ha2]
      simp [h1, h2]
  | CONS l r ihl ihr =>
    simp only [no_quote_first, Bool.and_eq_true, bne_iff_ne, ne_eq] at h
    obtain ⟨⟨hq, hl⟩, hr⟩ := h
    have el := (ihl hl).1
    have er := (ihr hr).2
    refine ⟨?_, ?_⟩
    · rw [list_text_cons_parens l r (parens_of_ne_quote l r hq), L_text, el, er]
      simp
    · rw [rest_text, R_text, el, er]

/-- C23 (list-notation format without quote).  With `L` and `R` as the
specification words them (`L_text`, `R_text`), for every `v` in which no pair
has the atom quote as its first component and every capacity greater than
the length of `L(v)`, `print_list_notation` returns that length and leaves
`L(v)` followed by a NUL at `str`. -/
theorem c23_list_format (v : sexp) (hq : no_quote_first v = true) (mem : List Char)
    (str len : Nat) (hcap : str + len ≤ mem.length) (hfit : (L_text v).length < len) :
    print_list_notation mem str len v =
      ((L_text v).length,
        mem.take str ++ L_text v ++ NUL :: mem.drop (str + (L_text v).length + 1)) := by
  rw [← (list_text_eq_L_text v hq).1] at hfit ⊢
  exact print_list_at v mem str len hcap hfit

/-- Witness for C23: `(nil . nil)` is printed as `(nil)`, `(a . b)` as
`(a . b)` and `(a . (b . (c . d)))` as `(a b c . d)`. -/
theorem c23_list_format_witness :
    print_list_notation (List.replicate 12 'X') 0 12 (CONS ATOM_NIL ATOM_NIL) =
      (5, "(nil)".toList ++ NUL :: List.replicate 6 'X') ∧
    print_list_notation (List.replicate 12 'X') 0 12 (CONS (ATOM "a".toList) (ATOM "b".toList)) =
      (7, "(a . b)".toList ++ NUL :: List.replicate 4 'X') ∧
    print_list_notation (List.replicate 12 'X') 0 12
        (CONS (ATOM "a".toList) (CONS (ATOM "b".toList)
          (CONS (ATOM "c".toList) (ATOM "d".toList)))) =
      (11, "(a b c . d)".toList ++ [NUL]) :=
  ⟨(c23_list_format _ (by decide) (List.replicate 12 'X') 0 12 (by decide) (by decide)).trans
      (by decide),
   (c23_list_format _ (by decide) (List.replicate 12 'X') 0 12 (by decide) (by decide)).trans
      (by decide),
   (c23_list_format _ (by decide) (List.replicate 12 'X') 0 12 (by decide) (by decide)).trans
      (by decide)⟩

theorem list_text_quote_pair (x d : sexp) :
    list_text (CONS ATOM_QUOTE (CONS x d)) = APOS :: (list_text x ++ rest_text d) := by
  have hp : parens ATOM_QUOTE (CONS x d) = false := by simp [parens, ATOM_QUOTE]
  rw [list_text, if_neg (by rw [hp]; decide)]
  rfl

theorem list_text_quote_atom (a : List Char) :
    list_text (CONS ATOM_QUOTE (ATOM a)) =
      "(quote".toList ++ rest_text (ATOM a) ++ ")".toList := by
  rw [list_text]
  simp [list_text, ATOM_QUOTE]

/-- C24 (the printer inverts the quote shorthand).  For every `X`, with
enough capacity, `print_list_notation` leaves for the two-element list
`(quote X)` an apostrophe followed by exactly the text it leaves for `X`
itself, and returns one more than for `X`: no parentheses and no atom quote
are written. -/
theorem c24_print_quote_shorthand (X : sexp) (mem : List Char) (str len : Nat)
    (hcap : str + len ≤ mem.length) (hfit : (list_text X).length + 1 < len) :
    print_list_notation mem str len X =
      ((list_text X).length,
        mem.take str ++ list_text X ++ NUL :: mem.drop (str + (list_text X).length + 1)) ∧
    print_list_notation mem str len (CONS ATOM_QUOTE (CONS X ATOM_NIL)) =
      ((list_text X).length + 1,
        mem.take str ++ APOS :: list_text X ++
          NUL :: mem.drop (str + ((list_text X).length + 1) + 1)) := by
  have e : list_text (CONS ATOM_QUOTE (CONS X ATOM_NIL)) = APOS :: list_text X := by
    rw [list_text_quote_pair]
    simp [rest_text, ATOM_NIL]
  refine ⟨print_list_at X mem str len hcap (by omega), ?_⟩
  have := print_list_at (CONS ATOM_QUOTE (CONS X ATOM_NIL)) mem str len hcap
    (by rw [e]; simpa using hfit)
  rw [this, e]
  simp

set_option maxRecDepth 20000 in
/-- Witness for C24: `(quote a)` is printed as an apostrophe and `a`; and
the repository's test: the text
`(cond ((eq 'x 'z) 'first) ((atom 'a) 'second))` is read as `test_cond_expr`,
and printing that into a buffer of 200 characters returns the length 46 of
the text and leaves the text and a NUL. -/
theorem c24_print_quote_shorthand_witness :
    print_list_notation (List.replicate 4 'X') 0 4 (CONS ATOM_QUOTE (CONS (ATOM "a".toList) ATOM_NIL)) =
      (2, [APOS, 'a', NUL, 'X']) ∧
    parse 30 ("(cond ((eq ".toList ++ APOS :: "x ".toList ++ APOS :: "z) ".toList ++
        APOS :: "first) ((atom ".toList ++ APOS :: "a) ".toList ++ APOS :: "second))".toList) =
      some (some test_cond_expr, []) ∧
    print_list_notation (List.replicate 200 'X') 0 200 test_cond_expr =
      (46, "(cond ((eq ".toList ++ APOS :: "x ".toList ++ APOS :: "z) ".toList ++
        APOS :: "first) ((atom ".toList ++ APOS :: "a) ".toList ++ APOS :: "second))".toList ++
        NUL :: List.replicate 153 'X') :=
  ⟨(c24_print_quote_shorthand (ATOM "a".toList) (List.replicate 4 'X') 0 4 (by decide)
      (by decide)).2.trans (by decide),
   by decide,
   (print_list_at test_cond_expr (List.replicate 200 'X') 0 200 (by decide)
      (by decide)).trans (by decide)⟩

/-- C25 as stated fails: `(quote . (a . b))`, whose rest is a dotted pair,
is printed with the shorthand, as an apostrophe followed by `a . b`, and not
as `(quote a . b)`. -/
theorem c25_counterexample :
    print_list_notation (List.replicate 16 'X') 0 16
        (CONS ATOM_QUOTE (CONS (ATOM "a".toList) (ATOM "b".toList))) =
      (6, APOS :: "a . b".toList ++ NUL :: List.replicate 9 'X') ∧
    ( print_list_notation (List.replicate 16 'X') 0 16
        (CONS ATOM_QUOTE (CONS (ATOM "a".toList) (ATOM "b".toList)))).2 ≠
      "(quote a . b)".toList ++ NUL :: List.replicate 2 'X' := by
  decide

/-- C25 (extent of the quote shorthand), amended.  A pair whose first is
the atom quote is printed as an ordinary parenthesised form exactly when its
rest is an atom: `(quote` then the rendering of that rest, then `)`.  When
the rest is a pair `(x . d)`, whatever `d` is, the shorthand is used: an
apostrophe, the text of `x`, and the rendering of `d` as the rest of a list,
without parentheses. -/
theorem c25_quote_shorthand_extent (r : sexp) (mem : List Char) (str len : Nat)
    (hcap : str + len ≤ mem.length) (hfit : (list_text (CONS ATOM_QUOTE r)).length < len) :
    print_list_notation mem str len (CONS ATOM_QUOTE r) =
      ((list_text (CONS ATOM_QUOTE r)).length,
        mem.take str ++ list_text (CONS ATOM_QUOTE r) ++
          NUL :: mem.drop (str + (list_text (CONS ATOM_QUOTE r)).length + 1)) ∧
    (∀ a, r = ATOM a → list_text (CONS ATOM_QUOTE r) =
      "(quote".toList ++ rest_text (ATOM a) ++ ")".toList) ∧
    (∀ x d, r = CONS x d → list_text (CONS ATOM_QUOTE r) =
      APOS :: (list_text x ++ rest_text d)) := by
  refine ⟨print_list_at _ mem str len hcap hfit, ?_, ?_⟩
  · rintro a rfl
    exact list_text_quote_atom a
  · rintro x d rfl
    exact list_text_quote_pair x d

/-- Witness for C25: `(quote . quote)` is printed as `(quote . quote)`, and
`(quote a b)` as an apostrophe followed by `a b`. -/
theorem c25_quote_shorthand_extent_witness :
    print_list_notation (List.replicate 20 'X') 0 20 (CONS ATOM_QUOTE ATOM_QUOTE) =
      (15, "(quote . quote)".toList ++ NUL :: List.replicate 4 'X') ∧
    print_list_notation (List.replicate 20 'X') 0 20
        (list_of [ATOM_QUOTE, ATOM "a".toList, ATOM "b".toList]) =
      (4, APOS :: "a b".toList ++ NUL :: List.replicate 15 'X') :=
  ⟨(c25_quote_shorthand_extent ATOM_QUOTE (List.replicate 20 'X') 0 20 (by decide)
      (by decide)).1.trans (by decide),
   (c25_quote_shorthand_extent (list_of [ATOM "a".toList, ATOM "b".toList])
      (List.replicate 20 'X') 0 20 (by decide) (by decide)).1.trans (by decide)⟩

/-- C26 on the code: for `(a . (b . c))`, whose dot-notation text has 13
characters and whose list-notation text has 9, `print_dot_notation` returns
13 when the text fits but 5 under the capacity 5, and `print_list_notation`
returns 9 when the text fits but 7 under the capacity 5 and 4 under the
capacity 4; for the 58 characters of the repository's test expression
`print_dot_notation` returns 6 under the capacity 5. -/
theorem c26_return_value_under_truncation :
    (dot_text (CONS (ATOM "a".toList) (CONS (ATOM "b".toList) (ATOM "c".toList)))).length = 13 ∧
    ( print_dot_notation (List.replicate 20 'X') 0 20
        (CONS (ATOM "a".toList) (CONS (ATOM "b".toList) (ATOM "c".toList)))).1 = 13 ∧
    ( print_dot_notation (List.replicate 20 'X') 0 5
        (CONS (ATOM "a".toList) (CONS (ATOM "b".toList) (ATOM "c".toList)))).1 = 5 ∧
    (list_text (CONS (ATOM "a".toList) (CONS (ATOM "b".toList) (ATOM "c".toList)))).length = 9 ∧
    ( print_list_notation (List.replicate 20 'X') 0 20
        (CONS (ATOM "a".toList) (CONS (ATOM "b".toList) (ATOM "c".toList)))).1 = 9 ∧
    ( print_list_notation (List.replicate 20 'X') 0 5
        (CONS (ATOM "a".toList) (CONS (ATOM "b".toList) (ATOM "c".toList)))).1 = 7 ∧
    ( print_list_notation (List.replicate 20 'X') 0 4
        (CONS (ATOM "a".toList) (CONS (ATOM "b".toList) (ATOM "c".toList)))).1 = 4 ∧
    (dot_text test_dot_expr).length = 58 ∧
    ( print_dot_notation (List.replicate 20 'X') 0 5 test_dot_expr).1 = 6 := by
  decide

/-- C29 on the code: the text `.` is read as the atom `.`, which evaluates
to itself under the empty environment and is printed as `.`; and the quote
shorthand of `.` is read as `(quote .)`, which evaluates to the atom `.`. -/
theorem c29_dot_escapes :
    parse 2 ".".toList = some (some ATOM_DOT, []) ∧
    eval 1 ATOM_DOT ATOM_NIL = Res.ok ATOM_DOT ∧
    has_dot ATOM_DOT = true ∧
    print_list_notation (List.replicate 4 'X') 0 4 ATOM_DOT = (1, ['.', NUL, 'X', 'X']) ∧
    parse 3 (APOS :: ".".toList) = some (some (list_of [ATOM_QUOTE, ATOM_DOT]), []) ∧
    eval 1 (list_of [ATOM_QUOTE, ATOM_DOT]) ATOM_NIL = Res.ok ATOM_DOT := by
  decide

/-! ## The printer under any capacity -/

theorem chain_ge (fs : List Printer) (r : Nat) (mem : List Char) (str len : Nat)
    (h : len ≤ r) : chain fs r mem str len = (r, mem) := by
  cases fs with
  | nil => rfl
  | cons f fs => rw [chain, if_pos h]

theorem prints_snprintf (s : List Char) : Prints (fun m p n => snprintf m p n s) s := by
  intro mem str len _ hl
  have h0 : len ≠ 0 := by omega
  simp [snprintf, h0]

theorem Prints.continues {f : Printer} {t : List Char} (h : Prints f t) : PrintsAfter f t := by
  intro m0 base pre len hb hl
  obtain ⟨h1, h2, h3⟩ :=
    h (store m0 base (pre ++ [NUL])) (base + pre.length) len
      (by rw [length_store _ _ _ hb]; simp) hl
  refine ⟨?_, h2, h3⟩
  rw [h1, store_store _ _ _ _ _ hb (by simp), List.append_assoc]

theorem prints_after_nothing : PrintsAfter (fun m _ _ => (0, m)) [] := by
  intro m0 base pre len _ hl
  refine ⟨by simp, fun _ => rfl, fun h => ?_⟩
  simp at h
  omega

theorem take_append_of_le (a b : List Char) (k : Nat) (h : a.length ≤ k) :
    (a ++ b).take k = a ++ b.take (k - a.length) := by
  rw [List.take_append_eq_append_take, List.take_of_length_le h]

theorem chain_prints_after (fs : List Printer) (ts : List (List Char))
    (h : List.Forall₂ PrintsAfter fs ts) (m0 : List Char) (base : Nat) (hb : base ≤ m0.length)
    (len : Nat) (pre1 pre2 : List Char) (hl : pre2.length < len) :
    (chain fs pre2.length (store m0 base (pre1 ++ pre2 ++ [NUL])) (base + pre1.length) len).2 =
      store m0 base (pre1 ++ (pre2 ++ ts.flatten).take (len - 1) ++ [NUL]) ∧
    (pre2.length + ts.flatten.length < len →
      (chain fs pre2.length (store m0 base (pre1 ++ pre2 ++ [NUL])) (base + pre1.length) len).1 =
        pre2.length + ts.flatten.length) ∧
    (len ≤ pre2.length + ts.flatten.length → len ≤
      (chain fs pre2.length (store m0 base (pre1 ++ pre2 ++ [NUL])) (base + pre1.length) len).1) := by
  induction h generalizing pre2 with
  | nil =>
    have e : (pre2 ++ ([] : List (List Char)).flatten).take (len - 1) = pre2 := by
      simp only [List.flatten_nil, List.append_nil]
      exact List.take_of_length_le (by omega)
    rw [e]
    refine ⟨rfl, fun _ => by simp [chain], fun h => ?_⟩
    simp at h
    omega
  | @cons f t fs ts hf _ ih =>
    have hlt : ¬ pre2.length ≥ len := by omega
    obtain ⟨e1, e2, e3⟩ := hf m0 base (pre1 ++ pre2) (len - pre2.length) hb (by omega)
    simp only [List.length_append, ← Nat.add_assoc] at e1 e2 e3
    rw [chain, if_neg hlt]
    generalize hW : f (store m0 base (pre1 ++ pre2 ++ [NUL])) (base + pre1.length + pre2.length)
      (len - pre2.length) = W at e1 e2 e3 ⊢
    by_cases hfit : t.length < len - pre2.length
    · have hw1 := e2 hfit
      have et : t.take (len - pre2.length - 1) = t := List.take_of_length_le (by omega)
      rw [et] at e1
      have ih2 := ih (pre2 ++ t) (by simp only [List.length_append]; omega)
      simp only [List.length_append, ← List.append_assoc] at ih2
      rw [hw1, e1]
      simp only [List.flatten_cons, List.length_append, ← List.append_assoc, ← Nat.add_assoc]
      exact ih2
    · have hw1 := e3 (by omega)
      rw [chain_ge _ _ _ _ _ (by omega)]
      simp only [List.flatten_cons, List.length_append]
      refine ⟨?_, fun hh => by omega, fun _ => by omega⟩
      have et : List.take (len - 1) (pre2 ++ (t ++ ts.flatten)) =
          pre2 ++ List.take (len - pre2.length - 1) t := by
        rw [take_append_of_le pre2 _ _ (by omega), List.take_append_of_le_length (by omega),
          show len - 1 - pre2.length = len - pre2.length - 1 from by omega]
      rw [e1, et, List.append_assoc pre1]


/-- A chain of continuing actions continues a text with the concatenation,
under every positive capacity. -/
theorem prints_after_chain (fs : List Printer) (ts : List (List Char))
    (h : List.Forall₂ PrintsAfter fs ts) : PrintsAfter (chain fs 0) ts.flatten := by
  intro m0 base pre len hb hl
  have := chain_prints_after fs ts h m0 base hb len pre [] (by simpa using hl)
  simpa using this

/-- A chain that starts with a rendering action renders the concatenation,
under every positive capacity. -/
theorem prints_chain (f : Printer) (t : List Char) (fs : List Printer) (ts : List (List Char))
    (hf : Prints f t) (h : List.Forall₂ PrintsAfter fs ts) :
    Prints (chain (f :: fs) 0) (t ++ ts.flatten) := by
  intro mem str len hs hl
  have hlt : ¬ 0 ≥ len := by omega
  obtain ⟨e1, e2, e3⟩ := hf mem (str + 0) (len - 0) hs (by omega)
  simp only [Nat.add_zero, Nat.sub_zero] at e1 e2 e3
  rw [chain, if_neg hlt]
  simp only [Nat.add_zero, Nat.sub_zero, Nat.zero_add]
  generalize hW : f mem str len = W at e1 e2 e3 ⊢
  by_cases hfit : t.length < len
  · have hw1 := e2 hfit
    have et : t.take (len - 1) = t := List.take_of_length_le (by omega)
    rw [et] at e1
    have := chain_prints_after fs ts h mem str hs len [] t hfit
    simp only [List.nil_append, List.length_nil, Nat.add_zero] at this
    rw [hw1, e1]
    simpa using this
  · have hw1 := e3 (by omega)
    rw [chain_ge _ _ _ _ _ hw1]
    simp only [List.length_append]
    refine ⟨?_, fun hh => by omega, fun _ => hw1⟩
    rw [e1, List.take_append_of_le_length (by omega)]

/-- Under every positive capacity `print_dot_notation` renders `dot_text`. -/
theorem print_dot_prints (v : sexp) :
    Prints (fun m p n => print_dot_notation m p n v) (dot_text v) := by
  induction v with
  | ATOM a => exact prints_snprintf a
  | CONS l r ihl ihr =>
    have hf : (fun m p n => print_dot_notation m p n (CONS l r)) =
        chain [fun m p n => snprintf m p n "(".toList, fun m p n => print_dot_notation m p n l,
          fun m p n => snprintf m p n " . ".toList, fun m p n => print_dot_notation m p n r,
          fun m p n => snprintf m p n ")".toList] 0 := by
      funext m p n
      exact print_dot_cons l r m p n
    have ht : dot_text (CONS l r) =
        "(".toList ++ [dot_text l, " . ".toList, dot_text r, ")".toList].flatten := by
      simp [dot_text]
    rw [hf, ht]
    exact prints_chain _ _ _ _ (prints_snprintf _)
      (List.Forall₂.cons ihl.continues (List.Forall₂.cons (prints_snprintf _).continues
        (List.Forall₂.cons ihr.continues (List.Forall₂.cons (prints_snprintf _).continues
          List.Forall₂.nil))))

theorem prints_print_list_atom (v : List Char) :
    Prints (fun m p n => print_list_notation_atom m p n v) v := by
  have hf : (fun m p n => print_list_notation_atom m p n v) =
      chain [fun m p n => snprintf m p n v] 0 := by
    funext m p n
    exact print_list_atom_eq v m p n
  have h := prints_chain _ _ [] [] (prints_snprintf v) List.Forall₂.nil
  rw [hf]
  simpa using h

/-- Under every positive capacity `print_list_notation` renders `list_text`
and `print_list_notation_rest` continues a text by `rest_text`. -/
theorem print_list_prints (v : sexp) :
    Prints (fun m p n => print_list_notation m p n v) (list_text v) ∧
    PrintsAfter (fun m p n => print_list_notation_rest m p n v) (rest_text v) ∧
    (∀ x y, v = CONS x y →
      Prints (fun m p n => print_list_notation m p n x) (list_text x) ∧
      PrintsAfter (fun m p n => print_list_notation_rest m p n y) (rest_text y)) := by
  induction v with
  | ATOM a =>
    refine ⟨prints_print_list_atom a, ?_, fun x y h => by cases h⟩
    by_cases h : c_bool (eq (ATOM a) ATOM_NIL) = true
    · have hf : (fun m p n => print_list_notation_rest m p n (ATOM a)) =
          fun m _ _ => (0, m) := by
        funext m p n
        rw [print_list_rest_atom, if_pos h]
      have ht : rest_text (ATOM a) = [] := by simp [rest_text, h]
      rw [hf, ht]
      exact prints_after_nothing
    · have hf : (fun m p n => print_list_notation_rest m p n (ATOM a)) =
          chain [fun m p n => snprintf m p n " . ".toList,
            fun m p n => print_list_notation_atom m p n a] 0 := by
        funext m p n
        rw [print_list_rest_atom, if_neg h]
      have ht : rest_text (ATOM a) = [" . ".toList, a].flatten := by simp [rest_text, h]
      rw [hf, ht]
      exact prints_after_chain _ _
        (List.Forall₂.cons (prints_snprintf _).continues
          (List.Forall₂.cons (prints_print_list_atom a).continues List.Forall₂.nil))
  | CONS l r ihl ihr =>
    obtain ⟨al, _, _⟩ := ihl
    obtain ⟨_, br, cr⟩ := ihr
    refine ⟨?_, ?_, fun x y h => by cases h; exact ⟨al, br⟩⟩
    · by_cases hp : parens l r = true
      · have hf : (fun m p n => print_list_notation m p n (CONS l r)) =
            chain [fun m p n => snprintf m p n "(".toList,
              fun m p n => print_list_notation m p n l,
              fun m p n => print_list_notation_rest m p n r,
              fun m p n => snprintf m p n ")".toList] 0 := by
          funext m p n
          exact print_list_cons_parens l r hp m p n
        have ht : list_text (CONS l r) =
            "(".toList ++ [list_text l, rest_text r, ")".toList].flatten := by
          rw [list_text_cons_parens l r hp]
          simp
        rw [hf, ht]
        exact prints_chain _ _ _ _ (prints_snprintf _)
          (List.Forall₂.cons al.continues (List.Forall₂.cons br
            (List.Forall₂.cons (prints_snprintf _).continues List.Forall₂.nil)))
      · cases r with
        | ATOM a => simp [parens] at hp
        | CONS ql qr =>
          obtain ⟨aq, bq⟩ := cr ql qr rfl
          have hf : (fun m p n => print_list_notation m p n (CONS l (CONS ql qr))) =
              chain [fun m p n => snprintf m p n [APOS],
                fun m p n => print_list_notation m p n ql,
                fun m p n => print_list_notation_rest m p n qr] 0 := by
            funext m p n
            exact print_list_cons_quote l ql qr (by simpa using hp) m p n
          have ht : list_text (CONS l (CONS ql qr)) =
              [APOS] ++ [list_text ql, rest_text qr].flatten := by
            rw [list_text, if_neg hp]
            simp
          rw [hf, ht]
          exact prints_chain _ _ _ _ (prints_snprintf _)
            (List.Forall₂.cons aq.continues (List.Forall₂.cons bq List.Forall₂.nil))
    · have hf : (fun m p n => print_list_notation_rest m p n (CONS l r)) =
          chain [fun m p n => snprintf m p n " ".toList,
            fun m p n => print_list_notation m p n l,
            fun m p n => print_list_notation_rest m p n r] 0 := by
        funext m p n
        exact print_list_rest_cons l r m p n
      have ht : rest_text (CONS l r) = [" ".toList, list_text l, rest_text r].flatten := by
        simp [rest_text]
      rw [hf, ht]
      exact prints_after_chain _ _
        (List.Forall₂.cons (prints_snprintf _).continues
          (List.Forall₂.cons al.continues (List.Forall₂.cons br List.Forall₂.nil)))

/-- Under the capacity 0 the printers leave the memory as it is. -/
theorem print_zero_capacity (v : sexp) (mem : List Char) (str : Nat) :
    ( print_dot_notation mem str 0 v).2 = mem ∧ ( print_list_notation mem str 0 v).2 = mem := by
  constructor
  · cases v with
    | ATOM a => simp [ print_dot_notation, snprintf]
    | CONS l r => rw [print_dot_cons, chain_ge _ _ _ _ _ (Nat.le_refl 0)]
  · cases v with
    | ATOM a =>
      rw [ print_list_notation, print_list_atom_eq, chain_ge _ _ _ _ _ (Nat.le_refl 0)]
    | CONS l r =>
      by_cases hp : parens l r = true
      · rw [print_list_cons_parens l r hp, chain_ge _ _ _ _ _ (Nat.le_refl 0)]
      · obtain ⟨_, ql, qr, rfl⟩ := parens_false l r (by simpa using hp)
        rw [print_list_cons_quote l ql qr (by simpa using hp),
          chain_ge _ _ _ _ _ (Nat.le_refl 0)]

/-- C27 (truncation is detectable).  When the capacity `len` does not
exceed the length of the complete rendering of `v` (so the text and its
terminator do not fit), `print_dot_notation` and `print_list_notation`
return a number that is at least `len`. -/
theorem c27_truncation_detectable (v : sexp) (mem : List Char) (str len : Nat)
    (hstr : str ≤ mem.length) :
    (len ≤ (dot_text v).length → len ≤ ( print_dot_notation mem str len v).1) ∧
    (len ≤ (list_text v).length → len ≤ ( print_list_notation mem str len v).1) := by
  cases len with
  | zero => exact ⟨fun _ => Nat.zero_le _, fun _ => Nat.zero_le _⟩
  | succ k =>
    exact ⟨(print_dot_prints v mem str (k + 1) hstr (Nat.succ_pos k)).2.2,
      ((print_list_prints v).1 mem str (k + 1) hstr (Nat.succ_pos k)).2.2⟩

/-- Witness for C27, the repository's tests: the 58 characters of the
dot-notation test expression and the 46 characters of the list-notation test
expression, printed under the capacity 5, give a return value of at least 5. -/
theorem c27_truncation_detectable_witness :
    5 ≤ ( print_dot_notation (List.replicate 200 'X') 0 5 test_dot_expr).1 ∧
    5 ≤ ( print_list_notation (List.replicate 200 'X') 0 5 test_cond_expr).1 :=
  ⟨(c27_truncation_detectable test_dot_expr (List.replicate 200 'X') 0 5 (Nat.zero_le _)).1
      (by decide),
   (c27_truncation_detectable test_cond_expr (List.replicate 200 'X') 0 5 (Nat.zero_le _)).2
      (by decide)⟩

/-- The memory that a rendering action leaves: the rendered prefix and a
NUL inside the buffer, everything else as before. -/
theorem prints_memory (f : Printer) (t : List Char) (h : Prints f t) (mem : List Char)
    (str len : Nat) (hcap : str + len ≤ mem.length) (hl : 0 < len) :
    (f mem str len).2 =
      mem.take str ++ t.take (len - 1) ++ NUL :: mem.drop (str + min t.length (len - 1) + 1) ∧
    (f mem str len).2.length = mem.length ∧
    (f mem str len).2.take str = mem.take str ∧
    (f mem str len).2.drop (str + len) = mem.drop (str + len) := by
  have e := (h mem str len (by omega) hl).1
  have hlen : (t.take (len - 1)).length = min t.length (len - 1) := by
    rw [List.length_take, Nat.min_comm]
  have e2 : (f mem str len).2 =
      mem.take str ++ t.take (len - 1) ++ NUL :: mem.drop (str + min t.length (len - 1) + 1) := by
    rw [e, store_eq, hlen]
  have hts : (mem.take str).length = str := by rw [List.length_take]; omega
  refine ⟨e2, ?_, ?_, ?_⟩
  · rw [e2]
    simp only [List.length_append, List.length_cons, List.length_drop, hts, hlen]
    omega
  · rw [e2, List.append_assoc, List.take_append_of_le_length (by omega),
      List.take_of_length_le (by omega)]
  · rw [e2, List.append_assoc, List.drop_append_eq_append_drop,
      List.drop_of_length_le (by omega), hts, List.nil_append,
      List.drop_append_eq_append_drop, List.drop_of_length_le (by rw [hlen]; omega),
      List.nil_append, hlen]
    obtain ⟨j, hj⟩ : ∃ j, str + len - str - min t.length (len - 1) = j + 1 :=
      ⟨str + len - str - min t.length (len - 1) - 1, by omega⟩
    rw [hj, List.drop_succ_cons, List.drop_drop]
    congr 1
    omega

/-! ### The calls of snprintf stay inside the buffer -/

theorem within_nil (str len : Nat) : ∀ w ∈ ([] : List Write), w.within str len := by
  intro w hw
  cases hw

theorem within_single (str len r : Nat) (t : List Char) (h : ¬ r ≥ len) :
    ∀ w ∈ [(⟨str + r, (len : Int) - (r : Int), t⟩ : Write)], w.within str len := by
  intro w hw
  rw [List.mem_singleton] at hw
  subst hw
  exact ⟨r, by omega, rfl, rfl⟩

theorem within_append {str len : Nat} {a b : List Write} (ha : ∀ w ∈ a, w.within str len)
    (hb : ∀ w ∈ b, w.within str len) : ∀ w ∈ a ++ b, w.within str len := by
  intro w hw
  rcases List.mem_append.1 hw with h | h
  · exact ha w h
  · exact hb w h

theorem within_nested {str len r : Nat} {b : List Write} (h : ¬ r ≥ len)
    (hb : ∀ w ∈ b, w.within (str + r) (len - r)) : ∀ w ∈ b, w.within str len := by
  intro w hw
  obtain ⟨k, hk, hd, hs⟩ := hb w hw
  exact ⟨r + k, by omega, by omega, by omega⟩

theorem pos_of_not_ge {r len : Nat} (h : ¬ r ≥ len) : 0 < len - r := by omega

/-- Every call of `snprintf` that `print_dot_notation` issues under a
positive capacity stays inside the buffer. -/
theorem print_dot_writes_within (v : sexp) :
    ∀ mem str len, 0 < len → ∀ w ∈ print_dot_notation_writes mem str len v,
      w.within str len := by
  induction v with
  | ATOM a =>
    intro mem str len hlen w hw
    simp only [print_dot_notation_writes, List.mem_singleton] at hw
    subst hw
    exact ⟨0, hlen, rfl, by simp⟩
  | CONS l r ihl ihr =>
    intro mem str len hlen
    simp only [print_dot_notation_writes]
    split_ifs with h0 h1 h2 h3 h4
    all_goals
      repeat
        first
        | exact within_nil _ _
        | (refine within_single _ _ _ _ ?_; assumption)
        | (refine within_nested ?_ (ihl _ _ _ (pos_of_not_ge ?_)) <;> assumption)
        | (refine within_nested ?_ (ihr _ _ _ (pos_of_not_ge ?_)) <;> assumption)
        | refine within_append ?_ ?_

theorem print_list_atom_writes_within (str len : Nat) (v : List Char) :
    ∀ w ∈ print_list_notation_atom_writes str len v, w.within str len := by
  simp only [print_list_notation_atom_writes]
  split_ifs with h0
  · exact within_nil _ _
  · exact within_single _ _ _ _ h0

/-- Every call of `snprintf` that `print_list_notation` and
`print_list_notation_rest` issue under a positive capacity stays inside the
buffer. -/
theorem print_list_writes_within (v : sexp) :
    (∀ mem str len, 0 < len → ∀ w ∈ print_list_notation_writes mem str len v,
      w.within str len) ∧
    (∀ mem str len, 0 < len → ∀ w ∈ print_list_notation_rest_writes mem str len v,
      w.within str len) ∧
    (∀ x y, v = CONS x y →
      (∀ mem str len, 0 < len → ∀ w ∈ print_list_notation_writes mem str len x,
        w.within str len) ∧
      (∀ mem str len, 0 < len → ∀ w ∈ print_list_notation_rest_writes mem str len y,
        w.within str len)) := by
  induction v with
  | ATOM a =>
    refine ⟨fun mem str len _ => ?_, fun mem str len _ => ?_, fun x y e => by cases e⟩
    · simp only [print_list_notation_writes]
      exact print_list_atom_writes_within str len a
    · simp only [print_list_notation_rest_writes]
      split_ifs with h h0 h1
      all_goals
        repeat
          first
          | exact within_nil _ _
          | (refine within_single _ _ _ _ ?_; assumption)
          | (refine within_nested ?_ (print_list_atom_writes_within _ _ _); assumption)
          | refine within_append ?_ ?_
  | CONS l d ihl ihd =>
    obtain ⟨pl, _, _⟩ := ihl
    obtain ⟨_, qd, cd⟩ := ihd
    refine ⟨fun mem str len _ => ?_, fun mem str len _ => ?_,
      fun x y e => by cases e; exact ⟨pl, qd⟩⟩
    · cases d with
      | ATOM a =>
        simp only [print_list_notation_writes]
        split_ifs with h0 h1 h2 h3
        all_goals
          repeat
            first
            | exact within_nil _ _
            | (refine within_single _ _ _ _ ?_; assumption)
            | (refine within_nested ?_ (pl _ _ _ (pos_of_not_ge ?_)) <;> assumption)
            | (refine within_nested ?_ (qd _ _ _ (pos_of_not_ge ?_)) <;> assumption)
            | refine within_append ?_ ?_
      | CONS ql qr =>
        obtain ⟨pq, qq⟩ := cd ql qr rfl
        simp only [print_list_notation_writes]
        split_ifs with hp h0 h1 h2 h3 h4 h5 h6
        all_goals
          repeat
            first
            | exact within_nil _ _
            | (refine within_single _ _ _ _ ?_; assumption)
            | (refine within_nested ?_ (pl _ _ _ (pos_of_not_ge ?_)) <;> assumption)
            | (refine within_nested ?_ (qd _ _ _ (pos_of_not_ge ?_)) <;> assumption)
            | (refine within_nested ?_ (pq _ _ _ (pos_of_not_ge ?_)) <;> assumption)
            | (refine within_nested ?_ (qq _ _ _ (pos_of_not_ge ?_)) <;> assumption)
            | refine within_append ?_ ?_
    · simp only [print_list_notation_rest_writes]
      split_ifs with h0 h1 h2
      all_goals
        repeat
          first
          | exact within_nil _ _
          | (refine within_single _ _ _ _ ?_; assumption)
          | (refine within_nested ?_ (pl _ _ _ (pos_of_not_ge ?_)) <;> assumption)
          | (refine within_nested ?_ (qd _ _ _ (pos_of_not_ge ?_)) <;> assumption)
          | refine within_append ?_ ?_

/-- Under capacity 0 `print_dot_notation` issues at most the call of its
atom branch, with size 0, and `print_list_notation` issues no call. -/
theorem writes_zero_capacity (v : sexp) (mem : List Char) (str : Nat) :
    (∀ w ∈ print_dot_notation_writes mem str 0 v, w.dst = str ∧ w.size = 0) ∧
    print_list_notation_writes mem str 0 v = [] := by
  constructor
  · cases v with
    | ATOM a =>
      intro w hw
      simp only [print_dot_notation_writes, List.mem_singleton] at hw
      subst hw
      exact ⟨rfl, rfl⟩
    | CONS l r =>
      intro w hw
      simp [print_dot_notation_writes] at hw
  · cases v with
    | ATOM a => simp [print_list_notation_writes, print_list_notation_atom_writes]
    | CONS l r =>
      cases r with
      | ATOM a => simp [print_list_notation_writes]
      | CONS ql qr => simp [print_list_notation_writes]

theorem perform_nil (mem : List Char) : perform mem [] = mem := rfl

theorem perform_append (mem : List Char) (a b : List Write) :
    perform mem (a ++ b) = perform (perform mem a) b := by
  simp [perform, List.foldl_append]

theorem perform_single (mem : List Char) (str len r : Nat) (t : List Char) :
    perform mem [⟨str + r, (len : Int) - (r : Int), t⟩] =
      (snprintf mem (str + r) (len - r) t).2 := by
  simp only [perform, List.foldl_cons, List.foldl_nil]
  rw [show ((len : Int) - (r : Int)).toNat = len - r by omega]

/-- The memory that `print_dot_notation` leaves is the memory after the
calls of `snprintf` it issues. -/
theorem print_dot_perform (v : sexp) :
    ∀ mem str len, ( print_dot_notation mem str len v).2 =
      perform mem (print_dot_notation_writes mem str len v) := by
  induction v with
  | ATOM a =>
    intro mem str len
    simp [ print_dot_notation, print_dot_notation_writes, perform]
  | CONS l r ihl ihr =>
    intro mem str len
    simp only [ print_dot_notation, print_dot_notation_writes]
    split_ifs with h0 h1 h2 h3 h4 <;>
      simp only [perform_nil, perform_append, perform_single, ← ihl, ← ihr]

theorem print_list_atom_perform (v : List Char) (mem : List Char) (str len : Nat) :
    (print_list_notation_atom mem str len v).2 =
      perform mem (print_list_notation_atom_writes str len v) := by
  simp only [print_list_notation_atom, print_list_notation_atom_writes]
  split_ifs with h0 <;> simp only [perform_nil, perform_single]

/-- The memory that `print_list_notation` and `print_list_notation_rest`
leave is the memory after the calls of `snprintf` they issue. -/
theorem print_list_perform (v : sexp) :
    (∀ mem str len, ( print_list_notation mem str len v).2 =
      perform mem (print_list_notation_writes mem str len v)) ∧
    (∀ mem str len, (print_list_notation_rest mem str len v).2 =
      perform mem (print_list_notation_rest_writes mem str len v)) ∧
    (∀ x y, v = CONS x y →
      (∀ mem str len, ( print_list_notation mem str len x).2 =
        perform mem (print_list_notation_writes mem str len x)) ∧
      (∀ mem str len, (print_list_notation_rest mem str len y).2 =
        perform mem (print_list_notation_rest_writes mem str len y))) := by
  induction v with
  | ATOM a =>
    refine ⟨fun mem str len => ?_, fun mem str len => ?_, fun x y e => by cases e⟩
    · simp only [ print_list_notation, print_list_notation_writes]
      exact print_list_atom_perform a mem str len
    · simp only [print_list_notation_rest, print_list_notation_rest_writes]
      split_ifs with h h0 h1 <;>
        simp only [perform_nil, perform_append, perform_single, ← print_list_atom_perform]
  | CONS l d ihl ihd =>
    obtain ⟨pl, _, _⟩ := ihl
    obtain ⟨_, qd, cd⟩ := ihd
    refine ⟨fun mem str len => ?_, fun mem str len => ?_,
      fun x y e => by cases e; exact ⟨pl, qd⟩⟩
    · cases d with
      | ATOM a =>
        simp only [ print_list_notation, print_list_notation_writes]
        split_ifs with h0 h1 h2 h3 <;>
          simp only [perform_nil, perform_append, perform_single, ← pl, ← qd]
      | CONS ql qr =>
        obtain ⟨pq, qq⟩ := cd ql qr rfl
        simp only [ print_list_notation, print_list_notation_writes]
        split_ifs with hp h0 h1 h2 h3 h4 h5 h6 <;>
          simp only [perform_nil, perform_append, perform_single, ← pl, ← qd, ← pq, ← qq]
    · simp only [print_list_notation_rest, print_list_notation_rest_writes]
      split_ifs with h0 h1 h2 <;>
        simp only [perform_nil, perform_append, perform_single, ← pl, ← qd]

/-- C28 (no write past the capacity).  Let the buffer of capacity `len` at
`str` lie inside `mem`, and let `L` be the length of the complete rendering.
For `len ≥ 1`, after `print_dot_notation` and after `print_list_notation` the
buffer holds the first `min(L, len - 1)` characters of the complete rendering
followed by a NUL, and the memory is otherwise as before; for `len = 0` the
memory is as before.  In every case the memory keeps its length and is
unchanged before `str` and from `str + len` on, so no character outside the
buffer is written.  Every call of `snprintf` that the two functions issue
for `len ≥ 1`, nested calls included, starts at an offset `r < len` from
`str` and has the size `len - r`, an integer that is positive, so that no
size wraps around; for `len = 0` the only call is the one of the atom branch
of `print_dot_notation`, with size 0, which writes nothing.  The memory on
return is the memory after these calls. -/
theorem c28_no_write_past_capacity (v : sexp) (mem : List Char) (str len : Nat)
    (hcap : str + len ≤ mem.length) :
    (0 < len →
      ( print_dot_notation mem str len v).2 =
        mem.take str ++ (dot_text v).take (len - 1) ++
          NUL :: mem.drop (str + min (dot_text v).length (len - 1) + 1) ∧
      ( print_list_notation mem str len v).2 =
        mem.take str ++ (list_text v).take (len - 1) ++
          NUL :: mem.drop (str + min (list_text v).length (len - 1) + 1)) ∧
    (len = 0 →
      ( print_dot_notation mem str len v).2 = mem ∧
      ( print_list_notation mem str len v).2 = mem) ∧
    (( print_dot_notation mem str len v).2.length = mem.length ∧
      ( print_dot_notation mem str len v).2.take str = mem.take str ∧
      ( print_dot_notation mem str len v).2.drop (str + len) = mem.drop (str + len)) ∧
    (( print_list_notation mem str len v).2.length = mem.length ∧
      ( print_list_notation mem str len v).2.take str = mem.take str ∧
      ( print_list_notation mem str len v).2.drop (str + len) = mem.drop (str + len)) ∧
    (0 < len →
      (∀ w ∈ print_dot_notation_writes mem str len v,
        ∃ r, r < len ∧ w.dst = str + r ∧ w.size = (len : Int) - (r : Int) ∧ 0 < w.size) ∧
      (∀ w ∈ print_list_notation_writes mem str len v,
        ∃ r, r < len ∧ w.dst = str + r ∧ w.size = (len : Int) - (r : Int) ∧ 0 < w.size)) ∧
    (len = 0 →
      (∀ w ∈ print_dot_notation_writes mem str len v, w.dst = str ∧ w.size = 0) ∧
      print_list_notation_writes mem str len v = []) ∧
    ( print_dot_notation mem str len v).2 =
      perform mem (print_dot_notation_writes mem str len v) ∧
    ( print_list_notation mem str len v).2 =
      perform mem (print_list_notation_writes mem str len v) := by
  have hd := prints_memory _ _ (print_dot_prints v) mem str len hcap
  have hL := prints_memory _ _ (print_list_prints v).1 mem str len hcap
  have hz := print_zero_capacity v mem str
  refine ⟨fun h => ⟨(hd h).1, (hL h).1⟩, fun h => by subst h; exact hz, ?_, ?_,
    fun h => ⟨fun w hw => ?_, fun w hw => ?_⟩, fun h => by subst h; exact writes_zero_capacity v mem str,
    print_dot_perform v mem str len, (print_list_perform v).1 mem str len⟩
  · cases len with
    | zero => rw [hz.1]; exact ⟨rfl, rfl, rfl⟩
    | succ k => exact (hd (Nat.succ_pos k)).2
  · cases len with
    | zero => rw [hz.2]; exact ⟨rfl, rfl, rfl⟩
    | succ k => exact (hL (Nat.succ_pos k)).2
  · obtain ⟨r, hr, h1, h2⟩ := print_dot_writes_within v mem str len h w hw
    exact ⟨r, hr, h1, h2, by omega⟩
  · obtain ⟨r, hr, h1, h2⟩ := (print_list_writes_within v).1 mem str len h w hw
    exact ⟨r, hr, h1, h2, by omega⟩

/-- Witness for C28: `(a . (b . c))` printed at offset 1 under the capacity 5
into a memory of 8 characters leaves the first 4 characters of the text and
a NUL in the buffer and the other 3 characters of the memory as they were.
The calls of `snprintf` in dot notation are those at the offsets 0, 1, 2
from `str` with the sizes 5, 4, 3, in list notation those at the offsets 0 to
4 with the sizes 5 down to 1, and each of them stays inside the buffer. -/
theorem c28_no_write_past_capacity_witness :
    ( print_dot_notation (List.replicate 8 'X') 1 5
        (CONS (ATOM "a".toList) (CONS (ATOM "b".toList) (ATOM "c".toList)))).2 =
      ['X', '(', 'a', ' ', '.', NUL, 'X', 'X'] ∧
    ( print_list_notation (List.replicate 8 'X') 1 5
        (CONS (ATOM "a".toList) (CONS (ATOM "b".toList) (ATOM "c".toList)))).2 =
      ['X', '(', 'a', ' ', 'b', NUL, 'X', 'X'] ∧
    print_dot_notation_writes (List.replicate 8 'X') 1 5
        (CONS (ATOM "a".toList) (CONS (ATOM "b".toList) (ATOM "c".toList))) =
      [⟨1, 5, "(".toList⟩, ⟨2, 4, "a".toList⟩, ⟨3, 3, " . ".toList⟩] ∧
    print_list_notation_writes (List.replicate 8 'X') 1 5
        (CONS (ATOM "a".toList) (CONS (ATOM "b".toList) (ATOM "c".toList))) =
      [⟨1, 5, "(".toList⟩, ⟨2, 4, "a".toList⟩, ⟨3, 3, " ".toList⟩, ⟨4, 2, "b".toList⟩,
        ⟨5, 1, " . ".toList⟩] ∧
    (∀ w ∈ print_dot_notation_writes (List.replicate 8 'X') 1 5
        (CONS (ATOM "a".toList) (CONS (ATOM "b".toList) (ATOM "c".toList))),
      ∃ r, r < 5 ∧ w.dst = 1 + r ∧ w.size = ((5 : Nat) : Int) - (r : Int) ∧ 0 < w.size) ∧
    (∀ w ∈ print_list_notation_writes (List.replicate 8 'X') 1 5
        (CONS (ATOM "a".toList) (CONS (ATOM "b".toList) (ATOM "c".toList))),
      ∃ r, r < 5 ∧ w.dst = 1 + r ∧ w.size = ((5 : Nat) : Int) - (r : Int) ∧ 0 < w.size) :=
  ⟨((c28_no_write_past_capacity
        (CONS (ATOM "a".toList) (CONS (ATOM "b".toList) (ATOM "c".toList)))
        (List.replicate 8 'X') 1 5 (by decide)).1 (by decide)).1.trans (by decide),
   ((c28_no_write_past_capacity
        (CONS (ATOM "a".toList) (CONS (ATOM "b".toList) (ATOM "c".toList)))
        (List.replicate 8 'X') 1 5 (by decide)).1 (by decide)).2.trans (by decide),
   by decide, by decide,
   ((c28_no_write_past_capacity
        (CONS (ATOM "a".toList) (CONS (ATOM "b".toList) (ATOM "c".toList)))
        (List.replicate 8 'X') 1 5 (by decide)).2.2.2.2.1 (by decide)).1,
   ((c28_no_write_past_capacity
        (CONS (ATOM "a".toList) (CONS (ATOM "b".toList) (ATOM "c".toList)))
        (List.replicate 8 'X') 1 5 (by decide)).2.2.2.2.1 (by decide)).2⟩

/-! ## Recursion through label: subst -/

theorem evals_quote (x env : sexp) : Evals (list_of [ATOM_QUOTE, x]) env x :=
  ⟨1, by rw [eval_succ]; simp [ATOM_QUOTE, list_of]⟩

theorem evals_var (k : List Char) (env v : sexp) (h : assoc (ATOM k) env = Res.ok v) :
    Evals (ATOM k) env v :=
  ⟨1, by rw [eval_succ]; simpa using h⟩

theorem evals_atom (A env v : sexp) (h : Evals A env v) :
    Evals (list_of [ATOM_ATOM, A]) env (atom v) := by
  obtain ⟨n, hn⟩ := h
  refine ⟨n + 1, ?_⟩
  rw [eval_succ]
  simp [list_of, ATOM_ATOM, ATOM_QUOTE, hn]

theorem evals_eq (A B env vA vB : sexp) (hA : Evals A env vA) (hB : Evals B env vB) :
    Evals (list_of [ATOM_EQ, A, B]) env (eq vA vB) := by
  obtain ⟨n, hn⟩ := hA
  obtain ⟨m, hm⟩ := hB
  refine ⟨max n m + 1, ?_⟩
  rw [eval_succ]
  simp [list_of, ATOM_ATOM, ATOM_QUOTE, ATOM_EQ, eval_fuel_le (Nat.le_max_left n m) _ _ _ hn,
    eval_fuel_le (Nat.le_max_right n m) _ _ _ hm]

theorem evals_cons (A B env vA vB : sexp) (hA : Evals A env vA) (hB : Evals B env vB) :
    Evals (list_of [ATOM_CONS, A, B]) env (CONS vA vB) := by
  obtain ⟨n, hn⟩ := hA
  obtain ⟨m, hm⟩ := hB
  refine ⟨max n m + 1, ?_⟩
  rw [eval_succ]
  simp [list_of, ATOM_ATOM, ATOM_QUOTE, ATOM_EQ, ATOM_CAR, ATOM_CDR, ATOM_CONS, cons,
    eval_fuel_le (Nat.le_max_left n m) _ _ _ hn, eval_fuel_le (Nat.le_max_right n m) _ _ _ hm]

theorem evals_car (A env l r : sexp) (h : Evals A env (CONS l r)) :
    Evals (list_of [ATOM_CAR, A]) env l := by
  obtain ⟨n, hn⟩ := h
  refine ⟨n + 1, ?_⟩
  rw [eval_succ]
  simp [list_of, ATOM_ATOM, ATOM_QUOTE, ATOM_EQ, ATOM_CAR, hn]

theorem evals_cdr (A env l r : sexp) (h : Evals A env (CONS l r)) :
    Evals (list_of [ATOM_CDR, A]) env r := by
  obtain ⟨n, hn⟩ := h
  refine ⟨n + 1, ?_⟩
  rw [eval_succ]
  simp [list_of, ATOM_ATOM, ATOM_QUOTE, ATOM_EQ, ATOM_CAR, ATOM_CDR, hn]

/-- A form headed by an atom that is not a special operator has the values
of the form with the atom replaced by its binding. -/
theorem evals_call (op : List Char) (hop : op ∉ special_names) (f args env v : sexp)
    (hf : assoc (ATOM op) env = Res.ok f) (h : Evals (CONS f args) env v) :
    Evals (CONS (ATOM op) args) env v := by
  obtain ⟨n, hn⟩ := h
  refine ⟨n + 1, ?_⟩
  simp [special_names] at hop
  rw [eval_succ]
  simp [ATOM_QUOTE, ATOM_ATOM, ATOM_EQ, ATOM_CAR, ATOM_CDR, ATOM_CONS, ATOM_COND, hop, cons, hf,
    hn]

theorem evals_label (name body args env v : sexp)
    (h : Evals (CONS body args) (CONS (CONS name body) env) v) :
    Evals (CONS (list_of [ATOM_LABEL, name, body]) args) env v := by
  obtain ⟨n, hn⟩ := h
  refine ⟨n + 1, ?_⟩
  rw [eval_succ]
  simp [list_of, ATOM_LABEL, cons, hn]

/-- Values of a cond form whose first clause has a predicate with value `t`. -/
theorem evals_cond_first (env p e v : sexp) (rest : List (sexp × sexp))
    (hp : Evals p env ATOM_T) (he : Evals e env v) :
    Evals (cond_form ((p, e) :: rest)) env v := by
  rw [evals_cond_form]
  simpa using (evals_cond_take env p e v _ hp).2 he

/-- Values of a cond form whose first clause has a predicate with a value
other than `t`. -/
theorem evals_cond_next (env p e u v : sexp) (rest : List (sexp × sexp))
    (hp : Evals p env u) (hu : u ≠ ATOM_T) (h : Evals (cond_form rest) env v) :
    Evals (cond_form ((p, e) :: rest)) env v := by
  rw [evals_cond_form] at h ⊢
  simpa using (evals_cond_skip env p e u v _ hp hu).2 h

/-- Lookup of the names of `subst` in an environment extended by the
bindings of a call. -/
theorem assoc_subst_frame (m y z env : sexp) :
    assoc (ATOM "x".toList)
        (bind_all [(ATOM "x".toList, m), (ATOM "y".toList, y), (ATOM "z".toList, z)] env) =
      Res.ok m ∧
    assoc (ATOM "y".toList)
        (bind_all [(ATOM "x".toList, m), (ATOM "y".toList, y), (ATOM "z".toList, z)] env) =
      Res.ok y ∧
    assoc (ATOM "z".toList)
        (bind_all [(ATOM "x".toList, m), (ATOM "y".toList, y), (ATOM "z".toList, z)] env) =
      Res.ok z ∧
    assoc (ATOM "subst".toList)
        (bind_all [(ATOM "x".toList, m), (ATOM "y".toList, y), (ATOM "z".toList, z)] env) =
      assoc (ATOM "subst".toList) env := by
  simp [bind_all, assoc]

/-- A call of the lambda expression of `subst` evaluates the body under the
bindings of the three parameters. -/
theorem evals_subst_lambda (A B C env m y z v : sexp)
    (hA : Evals A env m) (hB : Evals B env y) (hC : Evals C env z)
    (h : Evals subst_body
      (bind_all [(ATOM "x".toList, m), (ATOM "y".toList, y), (ATOM "z".toList, z)] env) v) :
    Evals (CONS subst_lambda (list_of [A, B, C])) env v := by
  have := (evals_lambda_app env
    (list_of [ATOM "x".toList, ATOM "y".toList, ATOM "z".toList]) subst_body [A, B, C] v).2
    ⟨[m, y, z],
      List.Forall₂.cons hA (List.Forall₂.cons hB (List.Forall₂.cons hC List.Forall₂.nil)),
      _, by rw [pair_list_of, append_bind_all]; rfl, h⟩
  exact this

/-- The body of `subst`, under an environment that binds `x` to `m`, `y`
to the atom `b`, `z` to a value and `subst` to the lambda expression, has as
value the value of `z` with the leaves `b` replaced by `m`. -/
theorem subst_body_evals (m : sexp) (b : List Char) (z : sexp) :
    ∀ env, assoc (ATOM "x".toList) env = Res.ok m →
      assoc (ATOM "y".toList) env = Res.ok (ATOM b) →
      assoc (ATOM "z".toList) env = Res.ok z →
      assoc (ATOM "subst".toList) env = Res.ok subst_lambda →
      Evals subst_body env (subst_result m b z) := by
  induction z with
  | ATOM a =>
    intro env hx hy hz _
    have ez := evals_var _ env _ hz
    have ey := evals_var _ env _ hy
    have ex := evals_var _ env _ hx
    refine evals_cond_first env _ _ _ _ (evals_atom _ env _ ez) ?_
    by_cases hab : a = b
    · subst hab
      have hq := evals_eq _ _ env _ _ ez ey
      have ht : eq (ATOM a) (ATOM a) = ATOM_T := by simp [eq]
      rw [ht] at hq
      simpa [subst_result] using evals_cond_first env _ _ _ _ hq ex
    · have hq := evals_eq _ _ env _ _ ez ey
      have hn : eq (ATOM a) (ATOM b) = ATOM_NIL := by simp [eq, hab]
      rw [hn] at hq
      have := evals_cond_next env _ (ATOM "x".toList) _ _ _ hq (by decide)
        (evals_cond_first env _ _ _ [] (evals_quote ATOM_T env) ez)
      simpa [subst_result, hab] using this
  | CONS l r ihl ihr =>
    intro env hx hy hz hs
    have ez := evals_var _ env _ hz
    have ey := evals_var _ env _ hy
    have ex := evals_var _ env _ hx
    have recur : ∀ (sel part : sexp), Evals (list_of [sel, ATOM "z".toList]) env part →
        (∀ env2, assoc (ATOM "x".toList) env2 = Res.ok m →
          assoc (ATOM "y".toList) env2 = Res.ok (ATOM b) →
          assoc (ATOM "z".toList) env2 = Res.ok part →
          assoc (ATOM "subst".toList) env2 = Res.ok subst_lambda →
          Evals subst_body env2 (subst_result m b part)) →
        Evals (list_of [ATOM "subst".toList, ATOM "x".toList, ATOM "y".toList,
          list_of [sel, ATOM "z".toList]]) env (subst_result m b part) := by
      intro sel part hsel ih
      obtain ⟨f1, f2, f3, f4⟩ := assoc_subst_frame m (ATOM b) part env
      exact evals_call _ (by decide) subst_lambda _ env _ hs
        (evals_subst_lambda _ _ _ env m (ATOM b) part _ ex ey hsel
          (ih _ f1 f2 f3 (f4.trans hs)))
    have hl := recur ATOM_CAR l (evals_car _ env l r ez) ihl
    have hr := recur ATOM_CDR r (evals_cdr _ env l r ez) ihr
    have hat := evals_atom _ env _ ez
    have := evals_cond_next env _
      (cond_form
        [(list_of [ATOM_EQ, ATOM "z".toList, ATOM "y".toList], ATOM "x".toList),
         (list_of [ATOM_QUOTE, ATOM_T], ATOM "z".toList)]) _ _ _ hat
      (by simp [atom, ATOM_NIL, ATOM_T])
      (evals_cond_first env _ _ _ [] (evals_quote ATOM_T env) (evals_cons _ _ env _ _ hl hr))
    simpa [subst_result] using this

/-- The application of `subst` to quoted operands. -/
theorem evals_subst_call (m : sexp) (b : List Char) (z env : sexp) :
    Evals (subst_call m (ATOM b) z) env (subst_result m b z) := by
  obtain ⟨f1, f2, f3, f4⟩ := assoc_subst_frame m (ATOM b) z
    (CONS (CONS (ATOM "subst".toList) subst_lambda) env)
  refine evals_label _ _ _ env _ (evals_subst_lambda _ _ _ _ m (ATOM b) z _
    (evals_quote _ _) (evals_quote _ _) (evals_quote _ _)
    (subst_body_evals m b z _ f1 f2 f3 (f4.trans ?_)))
  simp [assoc]

set_option maxRecDepth 100000 in
/-- C30 (recursive definition through label).  With `S` the label
expression of `subst`, for every value `m`, every atom `b`, every value `z`
and every environment (the empty one in particular) the evaluation of
`(S (quote m) (quote b) (quote z))` returns, with enough fuel, exactly the
tree obtained from `z` by replacing the atom leaves with the characters of
`b` by `m`.  The text of the repository's test is read as such an
application, and the result for `m`, `b`, `(a b (a b c) d)` is printed as
`(a m (a m c) d)`. -/
theorem c30_label_subst (m : sexp) (b : List Char) (z : sexp) :
    (∀ env w, Evals (subst_call m (ATOM b) z) env w ↔ w = subst_result m b z) ∧
    (∃ N, ∀ n, N ≤ n →
      eval n (subst_call m (ATOM b) z) ATOM_NIL = Res.ok (subst_result m b z)) ∧
    parse 40 ("((label subst (lambda (x y z) (cond ((atom z)(cond ((eq z y) x) (".toList ++
        APOS :: "t z))) (".toList ++ APOS ::
        "t (cons (subst x y (car z)) (subst x y (cdr z))))))) ".toList ++ APOS :: "m ".toList ++
        APOS :: "b ".toList ++ APOS :: "(a b (a b c) d))".toList) =
      some (some (subst_call (ATOM "m".toList) (ATOM "b".toList)
        (list_of [ATOM "a".toList, ATOM "b".toList,
          list_of [ATOM "a".toList, ATOM "b".toList, ATOM "c".toList], ATOM "d".toList])), []) ∧
    print_list_notation (List.replicate 20 'X') 0 20
        (subst_result (ATOM "m".toList) "b".toList
          (list_of [ATOM "a".toList, ATOM "b".toList,
            list_of [ATOM "a".toList, ATOM "b".toList, ATOM "c".toList], ATOM "d".toList])) =
      (15, "(a m (a m c) d)".toList ++ NUL :: List.replicate 4 'X') := by
  refine ⟨fun env w => ⟨fun h => Evals_unique h (evals_subst_call m b z env), fun h => ?_⟩,
    ?_, by decide, by decide⟩
  · rw [h]; exact evals_subst_call m b z env
  · obtain ⟨N, hN⟩ := evals_subst_call m b z ATOM_NIL
    exact ⟨N, fun n hn => eval_fuel_le hn _ _ _ hN⟩

/-! ## Dynamic scope -/

/-- A lambda application has the value of its body under the caller's
environment extended by the bindings of the parameters to the values of the
arguments. -/
theorem evals_lambda_bound (env body : sexp) (params args vals : List sexp) (v : sexp)
    (hall : List.Forall₂ (fun a w => Evals a env w) args vals)
    (h : Evals body (bind_all (params.zip vals) env) v) :
    Evals (lambda_app (list_of params) body args) env v :=
  (evals_lambda_app env (list_of params) body args v).2
    ⟨vals, hall, _, by rw [pair_list_of, append_bind_all], h⟩

/-- The expression of the dynamic-scope example has the value `W`. -/
theorem evals_scope_expr (env U W : sexp) : Evals (scope_expr U W) env W := by
  refine evals_lambda_bound env _ [ATOM "y".toList] _ [U] W
    (List.Forall₂.cons (evals_quote U env) List.Forall₂.nil) ?_
  refine evals_lambda_bound _ _ [ATOM "f".toList, ATOM "y".toList] _
    [list_of [ATOM_LAMBDA, list_of [ATOM "x".toList], ATOM "y".toList], W] W
    (List.Forall₂.cons (evals_quote _ _) (List.Forall₂.cons (evals_quote _ _) List.Forall₂.nil)) ?_
  refine evals_call "f".toList (by decide)
    (list_of [ATOM_LAMBDA, list_of [ATOM "x".toList], ATOM "y".toList]) _ _ W
    (by simp [bind_all, assoc]) ?_
  refine evals_lambda_bound _ _ [ATOM "x".toList] [list_of [ATOM_QUOTE, ATOM "q".toList]]
    [ATOM "q".toList] W (List.Forall₂.cons (evals_quote _ _) List.Forall₂.nil) ?_
  exact evals_var "y".toList _ W (by simp [bind_all, assoc])

set_option maxRecDepth 100000 in
/-- C31 (dynamic scope).  A lambda expression carried as a value captures
no environment.  For every environment and all values `U` and `W`, the
expression
`((lambda (y) ((lambda (f y) (f (quote q))) (quote (lambda (x) y)) (quote W))) (quote U))`
has the value `W`, the binding of `y` in force at the call of `f`, and no
other value (so not `U`, the binding in force where the lambda expression is
written, unless `U` is `W`); every large enough fuel returns it.  The text of
the expression with the atoms `U` and `W` is read as this expression, which
returns the atom `W` at fuel 6 under the empty environment, and the example
of the repository's session, a lambda expression passed as an argument,
evaluates to `(a b c)`. -/
theorem c31_dynamic_scope (env U W : sexp) :
    (∀ v, Evals (scope_expr U W) env v ↔ v = W) ∧
    (∃ N, ∀ n, N ≤ n → eval n (scope_expr U W) env = Res.ok W) ∧
    parse 30 ("((lambda (y) ((lambda (f y) (f ".toList ++ APOS :: "q)) ".toList ++
        APOS :: "(lambda (x) y) ".toList ++ APOS :: "W)) ".toList ++ APOS :: "U)".toList) =
      some (some (scope_expr (ATOM "U".toList) (ATOM "W".toList)), []) ∧
    eval 6 (scope_expr (ATOM "U".toList) (ATOM "W".toList)) ATOM_NIL =
      Res.ok (ATOM "W".toList) ∧
    eval 6 (lambda_app (list_of [ATOM "f".toList])
        (list_of [ATOM "f".toList,
          list_of [ATOM_QUOTE, list_of [ATOM "b".toList, ATOM "c".toList]]])
        [list_of [ATOM_QUOTE, list_of [ATOM_LAMBDA, list_of [ATOM "x".toList],
          list_of [ATOM_CONS, list_of [ATOM_QUOTE, ATOM "a".toList], ATOM "x".toList]]]])
      ATOM_NIL = Res.ok (list_of [ATOM "a".toList, ATOM "b".toList, ATOM "c".toList]) := by
  refine ⟨fun v => ⟨fun h => Evals_unique h (evals_scope_expr env U W), fun h => ?_⟩,
    ?_, by decide, by decide, by decide⟩
  · rw [h]; exact evals_scope_expr env U W
  · obtain ⟨N, hN⟩ := evals_scope_expr env U W
    exact ⟨N, fun n hn => eval_fuel_le hn _ _ _ hN⟩

/-! ## Calls of unbound names -/

/-- Lookup of a key that no entry of a proper association list has returns
the key. -/
theorem assoc_unbound (key : sexp) (kvs : List (sexp × sexp))
    (h : ∀ kv ∈ kvs, c_bool (eq kv.1 key) = false) :
    assoc key (bind_all kvs ATOM_NIL) = Res.ok key := by
  induction kvs with
  | nil => simp [bind_all, assoc, ATOM_NIL]
  | cons kv kvs ih =>
    have h1 := h kv (List.mem_cons_self _ _)
    have h2 := ih fun x hx => h x (List.mem_cons_of_mem _ hx)
    simp only [bind_all, List.foldr_cons] at h2 ⊢
    simp [assoc, h1, h2]

/-- C33 (calling an unbound name never returns).  Let `env` be a proper
list of `(key . value)` entries, `f` an atom that is none of quote, atom,
eq, car, cdr, cons, cond and that no key of `env` is `eq` to, and `args` any
expression.  Then `assoc(f, env)` is `f` itself, so one step of `eval` on
`(f . args)` is `eval` on `cons(f, args)`, structurally equal to
`(f . args)`, under the same `env`: a call at depth `n + 1` has the outcome
of the call at depth `n`.  Hence every call depth runs out, and the form has
no value. -/
theorem c33_unbound_call (kvs : List (sexp × sexp)) (f : List Char) (args : sexp)
    (hf : f ∉ special_names) (hun : ∀ kv ∈ kvs, c_bool (eq kv.1 (ATOM f)) = false) :
    assoc (ATOM f) (bind_all kvs ATOM_NIL) = Res.ok (ATOM f) ∧
    equal (cons (ATOM f) args) (CONS (ATOM f) args) = ATOM_T ∧
    (∀ n, eval (n + 1) (CONS (ATOM f) args) (bind_all kvs ATOM_NIL) =
      eval n (cons (ATOM f) args) (bind_all kvs ATOM_NIL)) ∧
    (∀ n, eval n (CONS (ATOM f) args) (bind_all kvs ATOM_NIL) = Res.fail Fault.fuel) ∧
    (∀ v, ¬ Evals (CONS (ATOM f) args) (bind_all kvs ATOM_NIL) v) := by
  have ha := assoc_unbound (ATOM f) kvs hun
  have step : ∀ n, eval (n + 1) (CONS (ATOM f) args) (bind_all kvs ATOM_NIL) =
      eval n (cons (ATOM f) args) (bind_all kvs ATOM_NIL) := by
    intro n
    simp [special_names] at hf
    rw [eval_succ]
    simp [ATOM_QUOTE, ATOM_ATOM, ATOM_EQ, ATOM_CAR, ATOM_CDR, ATOM_CONS, ATOM_COND, hf, cons, ha]
  have hfuel : ∀ n, eval n (CONS (ATOM f) args) (bind_all kvs ATOM_NIL) =
      Res.fail Fault.fuel := by
    intro n
    induction n with
    | zero => simp [eval]
    | succ n ih => rw [step]; exact ih
  refine ⟨ha, equal_self _, step, hfuel, ?_⟩
  rintro v ⟨n, hn⟩
  rw [hfuel] at hn
  exact absurd hn (by simp)

/-- Witness for C33: `(f a)` under the empty environment and under
`((x . 1) (g . car))`, neither of which binds `f`. -/
theorem c33_unbound_call_witness :
    "f".toList ∉ special_names ∧
    (∀ kv ∈ [(ATOM "x".toList, ATOM "1".toList), (ATOM "g".toList, ATOM_CAR)],
      c_bool (eq kv.1 (ATOM "f".toList)) = false) ∧
    (∀ n, eval n (list_of [ATOM "f".toList, ATOM "a".toList])
      (bind_all [(ATOM "x".toList, ATOM "1".toList), (ATOM "g".toList, ATOM_CAR)] ATOM_NIL) =
        Res.fail Fault.fuel) ∧
    (∀ n, eval n (list_of [ATOM "f".toList, ATOM "a".toList]) ATOM_NIL = Res.fail Fault.fuel) :=
  ⟨by decide, by decide,
   (c33_unbound_call [(ATOM "x".toList, ATOM "1".toList), (ATOM "g".toList, ATOM_CAR)]
      "f".toList (list_of [ATOM "a".toList]) (by decide) (by decide)).2.2.2.1,
   (c33_unbound_call [] "f".toList (list_of [ATOM "a".toList]) (by decide)
      (by simp)).2.2.2.1⟩

/-! ## The documented rendering of a chain that ends in an atom -/

/-- The list-notation text of a chain of four atoms is at least two
characters shorter than the text of the documentation. -/
theorem dotted_chain_text_length (a b c d : List Char) :
    (list_text (dotted_chain a b c d)).length + 2 ≤ (documented_text a b c d).length := by
  have hr : (rest_text (ATOM d)).length ≤ d.length + 3 := by
    rw [rest_text]
    split <;> simp
  by_cases hp : parens (ATOM a) (CONS (ATOM b) (CONS (ATOM c) (ATOM d))) = true
  · rw [dotted_chain, list_text_cons_parens _ _ hp]
    simp only [rest_text, list_text, documented_text, List.length_append] at hr ⊢
    simp at hr ⊢
    omega
  · rw [dotted_chain, list_text, if_neg hp]
    simp only [rest_text, list_text, documented_text, List.length_append] at hr ⊢
    simp at hr ⊢
    omega

/-- C32 (the documented rendering of a chain that ends in an atom).  The
documentation of `print_list_notation` gives `(a b (c . d))` as the text of
the chain `(a . (b . (c . d)))`.  For all atoms `a`, `b`, `c`, `d`, in a
buffer with room for that text and its terminator the function writes the
text `list_text` of the chain and returns its length, which is at least two
characters less than the length of the documented text, so the two texts
differ.  For the atoms `a`, `b`, `c`, `d` the function writes `(a b c . d)`
and returns 11, where the documented text is `(a b (c . d))`. -/
theorem c32_chain_ending_in_atom (a b c d : List Char) :
    print_list_notation (List.replicate ((documented_text a b c d).length + 1) 'X') 0
        ((documented_text a b c d).length + 1) (dotted_chain a b c d) =
      ((list_text (dotted_chain a b c d)).length,
        list_text (dotted_chain a b c d) ++ NUL :: List.replicate
          ((documented_text a b c d).length - (list_text (dotted_chain a b c d)).length) 'X') ∧
    (list_text (dotted_chain a b c d)).length + 2 ≤ (documented_text a b c d).length ∧
    list_text (dotted_chain a b c d) ≠ documented_text a b c d ∧
    print_list_notation (List.replicate 16 'X') 0 16
        (dotted_chain "a".toList "b".toList "c".toList "d".toList) =
      (11, "(a b c . d)".toList ++ NUL :: List.replicate 4 'X') ∧
    documented_text "a".toList "b".toList "c".toList "d".toList = "(a b (c . d))".toList := by
  have hlen := dotted_chain_text_length a b c d
  refine ⟨?_, hlen, fun h => ?_, by decide, by decide⟩
  · rw [print_list_at _ _ 0 _ (by simp) (by omega)]
    simp only [List.take_zero, List.nil_append, Nat.zero_add, List.drop_replicate]
    congr 4
    omega
  · rw [h] at hlen
    omega

/-! ## Round trip on proper nested lists -/

/-- Proper nested lists are readable, and their tails are readable tails. -/
theorem readable_of_proper (v : sexp) :
    (proper_nested v = true → readable v = true) ∧
    (proper_tail v = true → tail_readable v = true) := by
  induction v with
  | ATOM a =>
    refine ⟨fun h => h, fun h => ?_⟩
    have ha : ATOM a = ATOM_NIL := by simpa [proper_tail] using h
    rw [ha]
    decide
  | CONS l d ihl ihd =>
    refine ⟨fun h => ?_, fun h => ?_⟩
    · simp only [proper_nested, Bool.and_eq_true] at h
      obtain ⟨⟨hl, hd⟩, hq⟩ := h
      have rl := ihl.1 hl
      have td := ihd.2 hd
      by_cases hp : parens l d = true
      · cases d with
        | ATOM a =>
          have ha : ATOM a = ATOM_NIL := by simpa [proper_tail] using hd
          simp only [readable, Bool.and_eq_true]
          refine ⟨rl, ?_⟩
          injection ha with ha
          rw [ha]
          decide
        | CONS ql qr =>
          simp only [tail_readable, Bool.and_eq_true] at td
          simp only [readable, hp, if_true, Bool.and_eq_true]
          exact ⟨rl, td⟩
      · obtain ⟨rfl, ql, qr, rfl⟩ := parens_false l d (by simpa using hp)
        have hp2 : parens ATOM_QUOTE (CONS ql qr) = false := by simpa using hp
        simp only [tail_readable, Bool.and_eq_true] at td
        have hqr : qr = ATOM_NIL := by simpa [one_element] using hq
        simp only [readable, hp2, Bool.false_eq_true, if_false, Bool.and_eq_true]
        refine ⟨td.1, ?_⟩
        rw [hqr]
        decide
    · simp only [proper_tail, Bool.and_eq_true] at h
      simp only [tail_readable, Bool.and_eq_true]
      exact ⟨ihl.1 h.1, ihd.2 h.2⟩

/-- C34 (list-notation round trip on proper nested lists).  Let `v` be
built from well-formed atoms using only nil-terminated lists, every list
with the atom quote as its first element having exactly two elements, and let
the capacity `len` of the buffer at `str` exceed the length of the
list-notation text of `v`.  Then `parse`, given enough fuel and applied at
`str` to the memory that `print_list_notation` has written, returns an
expression `w` with `equal(w, v) = t` (indeed `w` is `v`), and leaves the
cursor at the end of the text: at the offset `str` plus the returned length,
where the terminating NUL is. -/
theorem c34_proper_list_round_trip (v : sexp) (hv : proper_nested v = true) (mem : List Char)
    (str len : Nat) (hcap : str + len ≤ mem.length) (hfit : (list_text v).length < len) :
    ∃ N, ∀ n, N ≤ n → ∃ w q,
      parse n (( print_list_notation mem str len v).2.drop str) = some (some w, q) ∧
      equal w v = ATOM_T ∧ w = v ∧
      q = ( print_list_notation mem str len v).2.drop
        (str + ( print_list_notation mem str len v).1) ∧
      peek q = NUL := by
  obtain ⟨N, hN⟩ := (parse_list_text v).1 ((readable_of_proper v).1 hv)
  have hs : (mem.take str).length = str := by
    rw [List.length_take]; omega
  have h1 : (mem.take str ++ list_text v ++ NUL :: mem.drop (str + (list_text v).length + 1)).drop
      str = list_text v ++ NUL :: mem.drop (str + (list_text v).length + 1) := by
    rw [List.append_assoc, List.drop_append_eq_append_drop, hs]
    simp
  have h2 : (mem.take str ++ list_text v ++ NUL :: mem.drop (str + (list_text v).length + 1)).drop
      (str + (list_text v).length) = NUL :: mem.drop (str + (list_text v).length + 1) := by
    rw [← List.drop_drop, h1]
    simp
  refine ⟨N, fun n hn => ⟨v, NUL :: mem.drop (str + (list_text v).length + 1), ?_,
    equal_self v, rfl, ?_, rfl⟩⟩
  · rw [print_list_at v mem str len hcap hfit]
    simp only []
    rw [h1]
    exact hN n hn _ (by rw [at_delim_cons]; decide)
  · rw [print_list_at v mem str len hcap hfit]
    simp only []
    rw [h2]

set_option maxRecDepth 20000 in
/-- Witness for C34: the list `(a (quote b) nil (c quote d e))`, printed
at offset 2 of a memory of 40 characters with capacity 30, is written as
`(a 'b nil (c quote d e))` and read back. -/
theorem c34_proper_list_round_trip_witness :
    ( print_list_notation (List.replicate 40 'X') 2 30
      (list_of [ATOM "a".toList, list_of [ATOM_QUOTE, ATOM "b".toList], ATOM_NIL,
        list_of [ATOM "c".toList, ATOM_QUOTE, ATOM "d".toList, ATOM "e".toList]])).2 =
      "XX(a ".toList ++ APOS :: "b nil (c quote d e))".toList ++ NUL :: List.replicate 13 'X' ∧
    ∃ N, ∀ n, N ≤ n → ∃ w q,
      parse n (( print_list_notation (List.replicate 40 'X') 2 30
        (list_of [ATOM "a".toList, list_of [ATOM_QUOTE, ATOM "b".toList], ATOM_NIL,
          list_of [ATOM "c".toList, ATOM_QUOTE, ATOM "d".toList, ATOM "e".toList]])).2.drop 2) =
        some (some w, q) ∧
      equal w (list_of [ATOM "a".toList, list_of [ATOM_QUOTE, ATOM "b".toList], ATOM_NIL,
          list_of [ATOM "c".toList, ATOM_QUOTE, ATOM "d".toList, ATOM "e".toList]]) = ATOM_T ∧
      w = list_of [ATOM "a".toList, list_of [ATOM_QUOTE, ATOM "b".toList], ATOM_NIL,
          list_of [ATOM "c".toList, ATOM_QUOTE, ATOM "d".toList, ATOM "e".toList]] ∧
      q = ( print_list_notation (List.replicate 40 'X') 2 30
        (list_of [ATOM "a".toList, list_of [ATOM_QUOTE, ATOM "b".toList], ATOM_NIL,
          list_of [ATOM "c".toList, ATOM_QUOTE, ATOM "d".toList, ATOM "e".toList]])).2.drop
        (2 + ( print_list_notation (List.replicate 40 'X') 2 30
          (list_of [ATOM "a".toList, list_of [ATOM_QUOTE, ATOM "b".toList], ATOM_NIL,
            list_of [ATOM "c".toList, ATOM_QUOTE, ATOM "d".toList, ATOM "e".toList]])).1) ∧
      peek q = NUL :=
  ⟨by decide,
   c34_proper_list_round_trip _ (by decide) (List.replicate 40 'X') 2 30 (by decide)
     (by decide)⟩

end Trol
